import Mathlib

/-! # ez2scm: a shallow embedding of `src/trunk/ez2scm.c`

The translator reads a whole file into a byte buffer, parses it with three
mutually recursive productions (`applicativeexprp`, `groupexprp`,
`listexprp`) into an arena of tagged cells, and prints every completed
top-level expression as an s-expression.

Conventions of the embedding.

* A byte is a natural number; the C character constants are written as their
  ASCII codes with the character in a comment.
* All fields of `result_t` are C `int`s and are modelled as `Int`.
* The global arena `cells`/`cells_top` is an explicit `List (Cell F)` threaded
  through the functions; `cells_top` is its length.
* The C library is a parameter: what `sscanf` recognises for `%d%n` and
  `%lf%n` and what `fprintf` prints for `%d` and `%g` are fields of `Env`.
  `F` is the type of C `double` values, which the program only stores and
  prints.
* Recursion that is not structural in the C code takes a `fuel` argument and
  returns `none` when it runs out; `none` is also the result of a failed
  `assert` and of dereferencing a cell handle outside the arena.
-/

namespace Ez2scm

/-! ## Memory -/

/-- The object a `char *` points into: the global `input` buffer or a string
literal of the program text (only `"define"` occurs). -/
inductive Base where
  | input
  | literal (bytes : List Nat)
deriving DecidableEq, Repr

/-- A `char *`: an object and a byte offset into it. -/
structure Ptr where
  base : Base
  off : Int
deriving DecidableEq, Repr

/-- The `Cell` struct: `CellType` tag together with the member of `CellData`
that the tag selects. -/
inductive Cell (F : Type) where
  | ConsCell (head tail : Int)
  | IntCell (i : Int)
  | FractionalCell (f : F)
  | SymbolCell (name name_end : Ptr)
  | StringCell (str str_end : Ptr)
  | QuoteCell (quoted : Int)
deriving DecidableEq, Repr

/-- What the run does not change: the bytes of the input file, the memory
that follows them, and the C library.

`input` holds the `input_size` bytes that `fread` stored. `beyond` is what
lies in memory from `input[input_size]` on: the buffer is
`malloc (input_size+1)` and nothing writes the extra byte, so these bytes are
indeterminate and every theorem quantifies over them.

`scan_d s` is `sscanf (s, "%d%n", &i, &n)`: `some (i, n)` when the
conversion succeeded, `none` when `converted <= 0`. `scan_lf` is the same for
`"%lf%n"`. `print_d` and `print_g` are the bytes `fprintf` writes for `"%d"`
and `"%g"`. -/
structure Env (F : Type) where
  input : List Nat
  beyond : List Nat
  scan_d : List Nat → Option (Int × Nat)
  scan_lf : List Nat → Option (F × Nat)
  print_d : Int → List Nat
  print_g : F → List Nat

variable {F : Type}

/-- The global `input_size`. -/
def Env.input_size (E : Env F) : Int := E.input.length

/-- The byte `input[i]`. Indices from `input_size` on read `beyond`; an index
outside both (or negative) is outside the model and reads as 0. -/
def Env.inputAt (E : Env F) (i : Int) : Nat :=
  if i < 0 then 0 else (E.input ++ E.beyond).getD i.toNat 0

/-- The C string that starts at `input + i`, as far as the model knows the
memory. -/
def Env.cstr (E : Env F) (i : Int) : List Nat :=
  if i < 0 then [] else (E.input ++ E.beyond).drop i.toNat

/-- Dereference of a `char *`. A string literal is followed by its NUL. -/
def Env.deref (E : Env F) (p : Ptr) : Nat :=
  match p.base with
  | .input => E.inputAt p.off
  | .literal bytes => if p.off < 0 then 0 else bytes.getD p.off.toNat 0

/-- The bytes in `[p, q)`, for two pointers into the same object. -/
def Env.span (E : Env F) (p q : Ptr) : List Nat :=
  (List.range (q.off - p.off).toNat).map fun (k : Nat) => E.deref { p with off := p.off + (k : Int) }

/-! ## `<ctype.h>` in the C locale -/

def isspace (c : Nat) : Bool := c == 32 || (decide (9 ≤ c) && decide (c ≤ 13))

def isdigit (c : Nat) : Bool := decide (48 ≤ c) && decide (c ≤ 57)

def isalpha (c : Nat) : Bool :=
  (decide (65 ≤ c) && decide (c ≤ 90)) || (decide (97 ≤ c) && decide (c ≤ 122))

def isalnum (c : Nat) : Bool := isalpha c || isdigit c

/-- The function `strncmp (a, b, n)`; both lists are followed by a NUL. -/
def strncmp : List Nat → List Nat → Nat → Int
  | _, _, 0 => 0
  | a, b, n + 1 =>
    if a.headD 0 ≠ b.headD 0 then (a.headD 0 : Int) - (b.headD 0 : Int)
    else if a.headD 0 = 0 then 0
    else strncmp a.tail b.tail n

/-! ## The arena -/

/-- The cell `cells[c]`, when `c` is a handle inside the arena. -/
def cellAt (cells : List (Cell F)) (c : Int) : Option (Cell F) :=
  if c < 0 then none else cells.get? c.toNat

/-- The function `newcell`, together with the stores into `cells[c].data` that
follow it at each call site: the new cell goes to the top of the arena and
its handle, the old `cells_top`, is returned. -/
def newcell (cells : List (Cell F)) (c : Cell F) : List (Cell F) × Int :=
  (cells ++ [c], (cells.length : Int))

/-- The arena after `newcell (ConsCell)` on the `calloc`ed array in `ez2scm`:
the NIL cell at handle 0. -/
def nilArena : List (Cell F) := [Cell.ConsCell 0 0]

def head (cells : List (Cell F)) (c : Int) : Int :=
  match cellAt cells c with
  | some (Cell.ConsCell h _) => h
  | _ => 0

def tail (cells : List (Cell F)) (c : Int) : Int :=
  match cellAt cells c with
  | some (Cell.ConsCell _ t) => t
  | _ => 0

/-- The store `(*ptail (c)) = t`, also written `cells[c].data.cons.tail = t`. -/
def setTail (cells : List (Cell F)) (c : Int) (t : Int) : List (Cell F) :=
  match cellAt cells c with
  | some (Cell.ConsCell h _) => cells.set c.toNat (Cell.ConsCell h t)
  | _ => cells

def cons (cells : List (Cell F)) (head tail : Int) : List (Cell F) × Int :=
  newcell cells (Cell.ConsCell head tail)

/-- The function `csymbol`: a symbol whose name is a string literal. -/
def csymbol (cells : List (Cell F)) (s : List Nat) : List (Cell F) × Int :=
  newcell cells (Cell.SymbolCell ⟨Base.literal s, 0⟩ ⟨Base.literal s, s.length⟩)

def quote (cells : List (Cell F)) (cell : Int) : List (Cell F) × Int :=
  newcell cells (Cell.QuoteCell cell)

/-! ## Cursors -/

structure result_t where
  cell : Int
  pos_start : Int
  pos_end : Int
  line_start : Int
  line_end : Int
  col_start : Int
  col_end : Int
deriving DecidableEq, Repr

def result (c ps pe ls le cs ce : Int) : result_t :=
  { cell := c, pos_start := ps, pos_end := pe, line_start := ls, line_end := le,
    col_start := cs, col_end := ce }

def move (r : result_t) : result_t :=
  { r with pos_start := r.pos_end, line_start := r.line_end, col_start := r.col_end, cell := -1 }

/-! ## Lexical primitives -/

/-- The inner loop of `whitespacep`: `while (p < input_size && input[p] != '\n'
&& input[p] != '\r') ++p;`. -/
def skipline (E : Env F) : Nat → Int → Int
  | 0, p => p
  | fuel + 1, p =>
    if p < E.input_size ∧ E.inputAt p ≠ 10 ∧ E.inputAt p ≠ 13 then skipline E fuel (p + 1)
    else p

/-- The outer loop of `whitespacep`. -/
def whitespaceloop (E : Env F) : Nat → Int → result_t → result_t
  | 0, _, r => r
  | fuel + 1, p, r =>
    if p < E.input_size then
      if isspace (E.inputAt p) then
        let r1 := { r with pos_end := r.pos_end + 1 }
        let r2 :=
          -- '\n', '\r'
          if E.inputAt p = 10 ∨ E.inputAt p = 13 then
            { r1 with line_end := r1.line_end + 1, col_end := 0 }
          -- ' '
          else if E.inputAt p = 32 then { r1 with col_end := r1.col_end + 1 }
          -- '\t'
          else if E.inputAt p = 9 then { r1 with col_end := r1.col_end + 4 }
          else r1
        whitespaceloop E fuel (p + 1) r2
      -- ';'
      else if E.inputAt p = 59 then
        let p1 := skipline E E.input.length p
        whitespaceloop E fuel p1 { r with pos_end := p1, col_end := 0, line_end := r.line_end + 1 }
      else r
    else r

/-- The function `whitespacep`. Every pass of either loop moves `p` forward, so
`input_size + 1` passes are enough. -/
def whitespacep (E : Env F) (r : result_t) : result_t :=
  whitespaceloop E (E.input.length + 1) r.pos_end (move r)

def intp (E : Env F) (cells : List (Cell F)) (r : result_t) : List (Cell F) × result_t :=
  let converted := E.scan_d (E.cstr r.pos_end)
  let r1 := move r
  match converted with
  | some (i, n) =>
    let a := newcell cells (Cell.IntCell i)
    (a.1, { r1 with cell := a.2, pos_end := r1.pos_end + n, col_end := r1.col_end + n })
  | none => (cells, r1)

def fractionalp (E : Env F) (cells : List (Cell F)) (r : result_t) : List (Cell F) × result_t :=
  let converted := E.scan_lf (E.cstr r.pos_end)
  let r1 := move r
  match converted with
  | some (f, n) =>
    let a := newcell cells (Cell.FractionalCell f)
    (a.1, { r1 with cell := a.2, pos_end := r1.pos_end + n, col_end := r1.col_end + n })
  | none => (cells, r1)

def isbracket (c : Nat) : Bool :=
  c == 40 || c == 41 || c == 91 || c == 93 || c == 123 || c == 125

/-- The loop of `symbolp`: `while (p < input_size && !isspace (input[p]) &&
!isbracket (input[p]) && input[p] != '"' && input[p] != ',') ++p;`. -/
def symbolscan (E : Env F) : Nat → Int → Int
  | 0, p => p
  | fuel + 1, p =>
    if p < E.input_size ∧ isspace (E.inputAt p) = false ∧ isbracket (E.inputAt p) = false
        ∧ E.inputAt p ≠ 34 ∧ E.inputAt p ≠ 44 then
      symbolscan E fuel (p + 1)
    else p

def symbolp (E : Env F) (cells : List (Cell F)) (r : result_t) : List (Cell F) × result_t :=
  let p := symbolscan E (E.input.length + 1) r.pos_end
  let r1 := move r
  if p = r1.pos_end then (cells, r1)
  else
    let a := newcell cells (Cell.SymbolCell ⟨Base.input, r1.pos_end⟩ ⟨Base.input, p⟩)
    (a.1, { r1 with cell := a.2, col_end := r1.col_end + (p - r1.pos_end), pos_end := p })

/-- The loop of `stringp`, from the byte after the opening quote. -/
def stringscan (E : Env F) : Nat → Int → result_t → Int × result_t
  | 0, p, r => (p, r)
  | fuel + 1, p, r =>
    -- '"'
    if p < E.input_size ∧ E.inputAt p ≠ 34 then
      -- '\n', '\r'
      if E.inputAt p = 10 ∨ E.inputAt p = 13 then
        stringscan E fuel (p + 1) { r with line_end := r.line_end + 1, col_end := 0 }
      -- '\t'
      else if E.inputAt p = 9 then stringscan E fuel (p + 1) { r with col_end := r.col_end + 4 }
      -- '\\': the escaped byte is skipped
      else if E.inputAt p = 92 then
        stringscan E fuel (p + 1 + 1) { r with col_end := r.col_end + 1 }
      else stringscan E fuel (p + 1) { r with col_end := r.col_end + 1 }
    else (p, r)

def stringp (E : Env F) (cells : List (Cell F)) (r : result_t) : List (Cell F) × result_t :=
  let p := r.pos_end
  let r1 := move r
  if p ≥ E.input_size ∨ E.inputAt p ≠ 34 then (cells, r1)
  else
    let s := stringscan E (E.input.length + 1) (p + 1) { r1 with col_end := r1.col_end + 1 }
    let p2 := s.1
    let r2 := s.2
    let r3 := { r2 with pos_end := if p2 < E.input_size then p2 + 1 else p2 }
    let r4 := { r3 with col_end := r3.col_end + (if p2 < E.input_size then 1 else 0) }
    let a := newcell cells (Cell.StringCell ⟨Base.input, r4.pos_start + 1⟩ ⟨Base.input, p2⟩)
    (a.1, { r4 with cell := a.2 })

/-- The function `atomp`. The `assert (temp2.cell > 0)` aborts the run, which
is the result `none`. -/
def atomp (E : Env F) (cells : List (Cell F)) (r : result_t) :
    Option (List (Cell F) × result_t) :=
  let r1 := move r
  let t1 := intp E cells r1
  let t2 := fractionalp E t1.1 r1
  if t1.2.cell > 0 then
    if t2.2.cell > 0 then
      if t2.2.pos_end > t1.2.pos_end then some (t2.1, t2.2)
      else some (t2.1, t1.2)
    else none
  else
    let t3 := stringp E t2.1 r1
    if t3.2.cell > 0 then some t3
    else some (symbolp E t3.1 r1)

/-- The loop of `isoperator`: `while (c < c_end) { if (isalnum (*c) || (*c) ==
'_') return 0; ++c; } return 1;`. -/
def operatorscan (E : Env F) : Nat → Ptr → Ptr → Bool
  | 0, _, _ => false
  | fuel + 1, c, c_end =>
    if c.off < c_end.off then
      -- '_'
      if isalnum (E.deref c) = true ∨ E.deref c = 95 then false
      else operatorscan E fuel { c with off := c.off + 1 } c_end
    else true

/-- The function `isoperator`. The loop makes `c_end - c` passes and leaves at
the test `c < c_end` of the next one. -/
def isoperator (E : Env F) (cells : List (Cell F)) (symbol : Int) : Bool :=
  match cellAt cells symbol with
  | some (Cell.SymbolCell c c_end) =>
    if c_end.off > c.off then operatorscan E ((c_end.off - c.off).toNat + 1) c c_end
    else false
  | _ => false

def operatorp (E : Env F) (cells : List (Cell F)) (r : result_t) : List (Cell F) × result_t :=
  let temp := symbolp E cells r
  if temp.2.cell > 0 ∧ isoperator E temp.1 temp.2.cell = true then temp
  else (temp.1, move r)

/-- The function `celltextcmp`; `none` is a failed `assert`. The C function
reads `data.string` for both cell types, the two members of the union having
the same layout. -/
def celltextcmp (E : Env F) (cells : List (Cell F)) (c : Int) (lit : List Nat) : Option Int :=
  match cellAt cells c with
  | some (Cell.SymbolCell cp cp_end) =>
    some (strncmp (E.span cp cp_end) lit (cp_end.off - cp.off).toNat)
  | some (Cell.StringCell cp cp_end) =>
    some (strncmp (E.span cp cp_end) lit (cp_end.off - cp.off).toNat)
  | _ => none

/-! ## The expression parser -/

/-- Lines 469-494 of `applicativeexprp`: the node built from the head `h`, the
operator `arg1` and the second expression `arg2`, chosen by the text of the
operator. The operands of the nested `cons` calls are allocated from left to
right (C leaves the order open; it changes handles, not the tree). -/
def operatorcombine (E : Env F) (cells : List (Cell F)) (h arg1 arg2 : result_t) :
    Option (List (Cell F) × result_t) :=
  -- ":"
  match celltextcmp E cells arg1.cell [58] with
  | none => none
  | some k1 =>
    if k1 = 0 then
      let a := cons cells h.cell arg2.cell
      some (a.1, result a.2 h.pos_start arg2.pos_end h.line_start arg2.line_end
        h.col_start arg2.col_end)
    else
      -- "::"
      match celltextcmp E cells arg1.cell [58, 58] with
      | none => none
      | some k2 =>
        if k2 = 0 then
          let a := cons cells arg2.cell 0
          let b := cons a.1 h.cell a.2
          some (b.1, result b.2 h.pos_start arg2.pos_end h.line_start arg2.line_end
            h.col_start arg2.col_end)
        else
          -- ":="
          match celltextcmp E cells arg1.cell [58, 61] with
          | none => none
          | some k3 =>
            if k3 = 0 then
              -- csymbol ("define")
              let d := csymbol cells [100, 101, 102, 105, 110, 101]
              let a := cons d.1 arg2.cell 0
              let b := cons a.1 h.cell a.2
              let c := cons b.1 d.2 b.2
              some (c.1, result c.2 h.pos_start arg2.pos_end h.line_start arg2.line_end
                h.col_start arg2.col_end)
            else
              let a := cons cells arg2.cell 0
              let b := cons a.1 h.cell a.2
              let c := cons b.1 arg1.cell b.2
              some (c.1, result c.2 h.pos_start arg2.pos_end h.line_start arg2.line_end
                h.col_start arg2.col_end)

/-- Lines 498-503 of `applicativeexprp`: the operator `arg1` applied as a
postfix operator to the head `h`. -/
def postfixoperator (cells : List (Cell F)) (h arg1 : result_t) : List (Cell F) × result_t :=
  let a := cons cells h.cell 0
  let b := cons a.1 arg1.cell a.2
  (b.1, result b.2 h.pos_start arg1.pos_end h.line_start arg1.line_end h.col_start arg1.col_end)

/-- Lines 567-570 of `groupexprp`: the cursor `r2` past the `(` at the end of
`r` and the white space behind it. -/
def afteropen (E : Env F) (r : result_t) : result_t :=
  whitespacep E { move r with pos_end := (move r).pos_end + 1, col_end := (move r).col_end + 1 }

/-- Lines 396-407 of `applicativeexprp`: the lookahead byte `c`, the cursor `r`
and the flag `q` after `r = move (r)` and the optional quote mark. -/
def lookahead (E : Env F) (r : result_t) : Nat × result_t × Bool :=
  let c0 := E.inputAt r.pos_end
  let r0 := move r
  -- '\''
  let q : Bool := decide (c0 = 39)
  let r1 := if q then { r0 with pos_end := r0.pos_end + 1, col_end := r0.col_end + 1 } else r0
  let c := if q then E.inputAt r1.pos_end else c0
  (c, r1, q)

/-- The parsers that a production calls on itself and on the other
productions, at the recursion depth that is left. -/
abbrev Parser (F : Type) := List (Cell F) → result_t → Option (List (Cell F) × result_t)

/-- Lines 413-419 of `applicativeexprp`: the three cases of the `switch` that
parse a primary, for the lookahead byte `c`, and the quote wrapped around it
when the flag `q` is set. -/
def primaryexpr (E : Env F) (group list : Parser F) (cells : List (Cell F)) (r : result_t)
    (c : Nat) (q : Bool) : Option (List (Cell F) × result_t) :=
  let primary :=
    -- '('
    if c = 40 then group cells r
    -- '['
    else if c = 91 then list cells r
    else atomp E cells r
  match primary with
  | none => none
  | some (cells1, h) =>
    if q = true ∧ h.cell ≥ 0 then
      let a := quote cells1 h.cell
      some (a.1, { h with cell := a.2 })
    else some (cells1, h)

/-- Lines 450-503 of `applicativeexprp`: the first argument `arg1` of the head
`h` is an operator. `parse` is `applicativeexprp (., 1)`. -/
def operatorexpr (E : Env F) (parse : Parser F) (cells : List (Cell F)) (h arg1 : result_t) :
    Option (List (Cell F) × result_t) :=
  -- ","
  match celltextcmp E cells arg1.cell [44] with
  | none => none
  | some k =>
    if k = 0 then
      some (cells, result h.cell h.pos_start arg1.pos_end h.line_start arg1.line_end
        h.col_start arg1.col_end)
    else
      let ws2 := whitespacep E arg1
      if ws2.col_end > h.col_start then
        match parse cells ws2 with
        | none => none
        | some (cells1, arg2) =>
          if arg2.cell ≥ 0 then operatorcombine E cells1 h arg1 arg2
          else some (postfixoperator cells1 h arg1)
      else some (postfixoperator cells h arg1)

/-- Lines 424-554 of `applicativeexprp`, "Search for argument cells": what
follows a primary `h` that matched in head context. `parse b` is
`applicativeexprp (., b)` and `loop` is the `do ... while` loop of lines
513-540 with the `return` after it. -/
def searchargs (E : Env F) (parse : Bool → Parser F)
    (loop : List (Cell F) → result_t → Int → Int → result_t → Bool →
      Option (List (Cell F) × result_t))
    (cells : List (Cell F)) (h : result_t) : Option (List (Cell F) × result_t) :=
  let ws := whitespacep E h
  -- ','
  if ws.pos_end < E.input_size ∧ E.inputAt ws.pos_end = 44 then
    some (cells, result h.cell h.pos_start (ws.pos_end + 1) h.line_start ws.line_end
      h.col_start (ws.col_end + 1))
  else if ws.line_end > ws.line_start ∧ ws.col_end ≤ h.col_start then some (cells, h)
  else
    match parse (decide (ws.line_end > ws.line_start)) cells ws with
    | none => none
    | some (cells1, arg1) =>
      if arg1.cell ≥ 0 then
        if isoperator E cells1 arg1.cell = true then operatorexpr E (parse true) cells1 h arg1
        else
          let tailcell := cons cells1 arg1.cell 0
          let headcell := cons tailcell.1 h.cell tailcell.2
          loop headcell.1 h headcell.2 tailcell.2 arg1 false
      else if arg1.cell = -2 then
        let a := cons cells1 h.cell 0
        some (a.1, result a.2 h.pos_start arg1.pos_end h.line_start arg1.line_end
          h.col_start arg1.col_end)
      else some (cells1, h)

mutual

/-- The function `applicativeexprp`. -/
def applicativeexprp (E : Env F) :
    Nat → List (Cell F) → result_t → Bool → Option (List (Cell F) × result_t)
  | 0, _, _, _ => none
  | fuel + 1, cells, r, ishead =>
    if r.pos_end ≥ E.input_size then some (cells, move r)
    else
      let c := (lookahead E r).1
      let r1 := (lookahead E r).2.1
      let q := (lookahead E r).2.2
      -- ','
      if c = 44 then some (cells, { r1 with pos_end := r1.pos_end + 1, col_end := r1.col_end + 1 })
      -- ')', ']'
      else if c = 41 ∨ c = 93 then some (cells, r1)
      else
        match primaryexpr E (groupexprp E fuel) (listexprp E fuel) cells r1 c q with
        | none => none
        | some (cells2, h) =>
          if h.cell < 0 ∨ ishead = false then some (cells2, h)
          else
            searchargs E (fun b cs x => applicativeexprp E fuel cs x b) (argloop E fuel) cells2 h

/-- The `do ... while (arg1.cell >= 0)` loop of `applicativeexprp` (lines
513-540) with the `return` that follows it; `ishead` is the local flag. -/
def argloop (E : Env F) :
    Nat → List (Cell F) → result_t → Int → Int → result_t → Bool →
      Option (List (Cell F) × result_t)
  | 0, _, _, _, _, _, _ => none
  | fuel + 1, cells, h, headcell, tailcell, arg1, ishead =>
    let ws2 := whitespacep E arg1
    if ws2.col_end ≤ h.col_start then
      some (cells, result headcell h.pos_start arg1.pos_end h.line_start arg1.line_end
        h.col_start arg1.col_end)
    else
      match applicativeexprp E fuel cells ws2 (ishead || decide (ws2.line_end > ws2.line_start)) with
      | none => none
      | some (cells1, a) =>
        if a.cell ≥ 0 ∧ a.col_start > h.col_start then
          let t := cons cells1 a.cell 0
          let cells2 := setTail t.1 tailcell t.2
          -- ','
          argloop E fuel cells2 h headcell t.2 a (decide (E.inputAt (a.pos_end - 1) = 44))
        else
          some (cells1, result headcell h.pos_start a.pos_end h.line_start a.line_end
            h.col_start a.col_end)

/-- The function `groupexprp`. -/
def groupexprp (E : Env F) :
    Nat → List (Cell F) → result_t → Option (List (Cell F) × result_t)
  | 0, _, _ => none
  | fuel + 1, cells, r =>
    let p := r.pos_end
    -- '('
    if p ≥ E.input_size ∨ E.inputAt p ≠ 40 then some (cells, r)
    else
      let r2 := afteropen E r
      match applicativeexprp E fuel cells r2 true with
      | none => none
      | some (cells1, h) =>
        if h.cell ≥ 0 then
          let r3 := whitespacep E h
          -- ')'
          if r3.pos_end < E.input_size ∧ E.inputAt r3.pos_end = 41 then
            some (cells1, result h.cell r.pos_end (r3.pos_end + 1) r.line_end r3.line_end
              r.col_end (r3.col_end + 1))
          else some (cells1, r2)
        else if h.pos_end < E.input_size ∧ E.inputAt h.pos_end = 41 then
          some (cells1, { h with cell := -2, pos_end := h.pos_end + 1, col_end := h.col_end + 1 })
        else some (cells1, r2)

/-- The function `listexprp`. -/
def listexprp (E : Env F) :
    Nat → List (Cell F) → result_t → Option (List (Cell F) × result_t)
  | 0, _, _ => none
  | fuel + 1, cells, r =>
    -- '['
    if r.pos_end > E.input_size ∨ E.inputAt r.pos_end ≠ 91 then some (cells, move r)
    else
      let r1 := { r with pos_end := r.pos_end + 1, col_end := r.col_end + 1 }
      let ws := whitespacep E r1
      match applicativeexprp E fuel cells ws true with
      | none => none
      | some (cells1, e) =>
        if e.cell ≥ 0 then
          let h := cons cells1 e.cell 0
          match listloop E fuel h.1 h.2 e with
          | none => none
          | some (cells2, e2) =>
            let ws2 := whitespacep E e2
            -- ']'
            if ws2.pos_end < E.input_size ∧ E.inputAt ws2.pos_end = 93 then
              some (cells2, result h.2 r1.pos_end (ws2.pos_end + 1) r1.line_end ws2.line_end
                r1.col_end (ws2.col_end + 1))
            else some (cells2, move r1)
        else
          let ws2 := whitespacep E e
          if ws2.pos_end < E.input_size ∧ E.inputAt ws2.pos_end = 93 then
            some (cells1, result 0 r1.pos_end (ws2.pos_end + 1) r1.line_end ws2.line_end
              r1.col_end (ws2.col_end + 1))
          else some (cells1, move r1)

/-- The `do ... while (e.cell >= 0)` loop of `listexprp` (lines 613-621): the
arena and the expression that failed to match. -/
def listloop (E : Env F) :
    Nat → List (Cell F) → Int → result_t → Option (List (Cell F) × result_t)
  | 0, _, _, _ => none
  | fuel + 1, cells, t, e =>
    let ws := whitespacep E e
    match applicativeexprp E fuel cells ws true with
    | none => none
    | some (cells1, e1) =>
      if e1.cell ≥ 0 then
        let nexttail := cons cells1 e1.cell 0
        listloop E fuel (setTail nexttail.1 t nexttail.2) nexttail.2 e1
      else some (cells1, e1)

end

/-! ## The printer

The stream `out` is the list of bytes written so far. -/

def linebreaks (n : Int) (out : List Nat) : List Nat :=
  out ++ List.replicate n.toNat 10

/-- The first loop of `tab2col`: `while (c > 4) { fputc ('\t', out); c -= 4; }`. -/
def tab2coltabs : Nat → Int → List Nat → Int × List Nat
  | 0, c, out => (c, out)
  | fuel + 1, c, out => if c > 4 then tab2coltabs fuel (c - 4) (out ++ [9]) else (c, out)

def tab2col (c : Int) (out : List Nat) : List Nat :=
  let s := tab2coltabs c.toNat c out
  s.2 ++ List.replicate s.1.toNat 32

def writeintexpr (E : Env F) (cells : List (Cell F)) (e : result_t) (out : List Nat) :
    Option (result_t × List Nat) :=
  match cellAt cells e.cell with
  | some (Cell.IntCell i) =>
    let s := E.print_d i
    some (result (-1) 0 0 0 0 e.col_start (e.col_start + s.length), out ++ s)
  | _ => none

def writefractionalexpr (E : Env F) (cells : List (Cell F)) (e : result_t) (out : List Nat) :
    Option (result_t × List Nat) :=
  match cellAt cells e.cell with
  | some (Cell.FractionalCell f) =>
    let s := E.print_g f
    some (result (-1) 0 0 0 0 e.col_start (e.col_start + s.length), out ++ s)
  | _ => none

def writesymbolexpr (E : Env F) (cells : List (Cell F)) (e : result_t) (out : List Nat) :
    Option (result_t × List Nat) :=
  match cellAt cells e.cell with
  | some (Cell.SymbolCell name name_end) =>
    let s := E.span name name_end
    some (result (-1) 0 0 0 0 e.col_start (e.col_start + s.length), out ++ s)
  | _ => none

/-- One pass of the loop of `writestringcell` over the byte `b`. -/
def writestringbyte (s : result_t × List Nat) (b : Nat) : result_t × List Nat :=
  let r := s.1
  let r1 :=
    -- '\r', '\n'
    if b = 13 ∨ b = 10 then { r with line_end := r.line_end + 1, col_end := 0 }
    -- '\t'
    else if b = 9 then { r with col_end := r.col_end + 4 }
    else { r with col_end := r.col_end + 1 }
  (r1, s.2 ++ [b])

def writestringcell (E : Env F) (cells : List (Cell F)) (e : result_t) (out : List Nat) :
    Option (result_t × List Nat) :=
  match cellAt cells e.cell with
  | some (Cell.StringCell c c_end) =>
    let r := result (-1) 0 0 0 0 e.col_start e.col_start
    -- '"'
    let s0 : result_t × List Nat := ({ r with col_end := r.col_end + 1 }, out ++ [34])
    let s1 := (E.span c c_end).foldl writestringbyte s0
    some ({ s1.1 with col_end := s1.1.col_end + 1 }, s1.2 ++ [34])
  | _ => none

/-- The test `cells[c].type == QuoteCell || cells[c].type == ConsCell ||
cells[c].type == StringCell` of `writelistexpr`. -/
def breaksline (cells : List (Cell F)) (c : Int) : Option Bool :=
  match cellAt cells c with
  | some (Cell.QuoteCell _) => some true
  | some (Cell.ConsCell _ _) => some true
  | some (Cell.StringCell _ _) => some true
  | some _ => some false
  | none => none

mutual

/-- The function `writeexpr`. -/
def writeexpr (E : Env F) (cells : List (Cell F)) :
    Nat → result_t → List Nat → Option (result_t × List Nat)
  | 0, _, _ => none
  | fuel + 1, e, out =>
    let out1 := linebreaks e.line_start out
    let out2 := if e.line_start > 0 then tab2col e.col_start out1 else out1
    let e1 := { e with line_start := 0 }
    match cellAt cells e1.cell with
    | some (Cell.ConsCell _ _) => writelistexpr E cells fuel e1 out2
    | some (Cell.IntCell _) => writeintexpr E cells e1 out2
    | some (Cell.FractionalCell _) => writefractionalexpr E cells e1 out2
    | some (Cell.SymbolCell _ _) => writesymbolexpr E cells e1 out2
    | some (Cell.StringCell _ _) => writestringcell E cells e1 out2
    -- '\''
    | some (Cell.QuoteCell quoted) => writeexpr E cells fuel { e1 with cell := quoted } (out2 ++ [39])
    | none => none

/-- The function `writelistexpr` up to its loop. -/
def writelistexpr (E : Env F) (cells : List (Cell F)) :
    Nat → result_t → List Nat → Option (result_t × List Nat)
  | 0, _, _ => none
  | fuel + 1, e0, out =>
    let r : result_t :=
      { e0 with line_start := 0, line_end := e0.line_start, col_start := e0.col_start,
                col_end := e0.col_start + 1 }
    -- '('
    writelistloop E cells fuel e0 { e0 with col_start := e0.col_start + 1, line_start := 0 } r
      e0.cell (out ++ [40])

/-- The loop `while (list)` of `writelistexpr` and the two lines after it. -/
def writelistloop (E : Env F) (cells : List (Cell F)) :
    Nat → result_t → result_t → result_t → Int → List Nat → Option (result_t × List Nat)
  | 0, _, _, _, _, _ => none
  | fuel + 1, e0, e, r, list, out =>
    if list ≠ 0 then
      match cellAt cells list with
      | none => none
      | some (Cell.ConsCell _ _) =>
        let e1 := { e with cell := head cells list }
        match writeexpr E cells fuel e1 out with
        | none => none
        | some (temp, out1) =>
          let r1 := { r with line_end := r.line_end + temp.line_end, col_end := temp.col_end }
          match breaksline cells e1.cell with
          | none => none
          | some b =>
            let e2 :=
              if b then { e1 with line_start := 1, col_start := temp.col_start }
              else { e1 with line_start := 0, col_start := r1.col_end }
            let list1 := tail cells list
            if list1 ≠ 0 ∧ e2.line_start = 0 then
              -- ' '
              writelistloop E cells fuel e0 { e2 with col_start := e2.col_start + 1 }
                { r1 with col_end := r1.col_end + 1 } list1 (out1 ++ [32])
            else writelistloop E cells fuel e0 e2 r1 list1 out1
      | some _ =>
        -- " . "
        let e1 := { e with col_start := e.col_start + 3, cell := list, line_start := 0 }
        match writeexpr E cells fuel e1 (out ++ [32, 46, 32]) with
        | none => none
        | some (r1, out1) =>
          some (result (-1) 0 0 0 (e0.line_start + r1.line_end) e0.col_start r1.col_end, out1)
    else
      -- ')'
      some ({ r with col_end := r.col_end + 1 }, out ++ [41])

end

/-! ## The driver -/

/-- The cursor `result (-1, 0, 0, 0, 0, 0, 0)` from which `ez2scm` starts. -/
def start : result_t := result (-1) 0 0 0 0 0 0

/-- One pass of the `do ... while (r.pos_end < input_size)` loop of `ez2scm`:
the arena, the cursor and the output stream after it. The `fprintf` to
`stderr` is not modelled. -/
def ez2scmpass (E : Env F) (fuel : Nat) (cells : List (Cell F)) (r : result_t) (out : List Nat) :
    Option (List (Cell F) × result_t × List Nat) :=
  match applicativeexprp E fuel cells (whitespacep E r) true with
  | none => none
  | some (cells1, r1) =>
    if r1.cell ≥ 0 then
      match writeexpr E cells1 fuel (result r1.cell 0 0 0 0 0 0) out with
      | none => none
      | some (_, out1) => some (cells1, r1, out1 ++ [10, 10])
    else some (cells1, r1, out)

/-- The `do ... while (r.pos_end < input_size)` loop of `ez2scm`, run for at
most `passes` passes: the output stream when the loop has ended, and `none`
when it has not ended after `passes` passes or a pass has run out of `fuel`. -/
def ez2scmloop (E : Env F) (fuel : Nat) :
    Nat → List (Cell F) → result_t → List Nat → Option (List Nat)
  | 0, _, _, _ => none
  | passes + 1, cells, r, out =>
    match ez2scmpass E fuel cells r out with
    | none => none
    | some (cells1, r1, out1) =>
      if r1.pos_end < E.input_size then ez2scmloop E fuel passes cells1 r1 out1 else some out1

/-! ## A C library for concrete runs

The theorems hold for every `Env`. Concrete runs need one; `clib` reads
decimal integer and floating literals the way ISO C 7.21.6.2 and 7.22.1.3
describe them, and keeps a `double` as the text it was converted from. -/

def skipspaces : List Nat → Nat → List Nat × Nat
  | [], n => ([], n)
  | b :: s, n => if isspace b then skipspaces s (n + 1) else (b :: s, n)

def takedigits : List Nat → List Nat → List Nat × List Nat
  | [], acc => (acc, [])
  | b :: s, acc => if isdigit b then takedigits s (acc ++ [b]) else (acc, b :: s)

def digitsvalue (ds : List Nat) : Nat := ds.foldl (fun v d => 10 * v + (d - 48)) 0

/-- Whether the byte string starts, after white space, with an optional sign
and a decimal digit: the strings on which `%d` converts. -/
def intstart (s : List Nat) : Bool :=
  match (skipspaces s 0).1 with
  | [] => false
  | b :: t => if b = 43 ∨ b = 45 then (t.headD 0 |> isdigit) else isdigit b

def clib_scan_d (s : List Nat) : Option (Int × Nat) :=
  let w := skipspaces s 0
  match w.1 with
  | [] => none
  | b :: t =>
    let signed : Bool := decide (b = 43 ∨ b = 45)
    let d := takedigits (if signed then t else b :: t) []
    if d.1 = [] then none
    else
      let v : Int := digitsvalue d.1
      some (if b = 45 then -v else v, w.2 + (if signed then 1 else 0) + d.1.length)

def clib_scan_lf (s : List Nat) : Option (List Nat × Nat) :=
  let w := skipspaces s 0
  match w.1 with
  | [] => none
  | b :: t =>
    let signed : Bool := decide (b = 43 ∨ b = 45)
    let sign : List Nat := if signed then [b] else []
    let d := takedigits (if signed then t else b :: t) []
    -- '.'
    let f : List Nat × List Nat :=
      if d.2.headD 0 = 46 then
        let g := takedigits d.2.tail []
        (46 :: g.1, g.2)
      else ([], d.2)
    if d.1 = [] ∧ (f.1 = [] ∨ f.1 = [46]) then none
    else
      -- 'e', 'E'
      let x : List Nat :=
        if f.2.headD 0 = 101 ∨ f.2.headD 0 = 69 then
          let u := f.2.tail
          let xsigned : Bool := decide (u.headD 0 = 43 ∨ u.headD 0 = 45)
          let g := takedigits (if xsigned then u.tail else u) []
          if g.1 = [] then [] else (f.2.headD 0 :: (if xsigned then [u.headD 0] else [])) ++ g.1
        else []
      let lexeme := sign ++ d.1 ++ f.1 ++ x
      some (lexeme, w.2 + lexeme.length)

def digitsof : Nat → Nat → List Nat → List Nat
  | 0, _, acc => acc
  | fuel + 1, n, acc =>
    if n < 10 then (48 + n) :: acc else digitsof fuel (n / 10) ((48 + n % 10) :: acc)

def clib_print_d (i : Int) : List Nat :=
  if i < 0 then 45 :: digitsof (i.natAbs + 1) i.natAbs [] else digitsof (i.natAbs + 1) i.natAbs []

/-- The environment of a run on the bytes `input` with the memory after them
holding `beyond`. -/
def clib (input beyond : List Nat) : Env (List Nat) :=
  { input := input, beyond := beyond, scan_d := clib_scan_d, scan_lf := clib_scan_lf,
    print_d := clib_print_d, print_g := id }

/-- The bytes of a string of ASCII characters. -/
def bytes (s : String) : List Nat := s.toList.map Char.toNat

end Ez2scm

namespace Ez2scm

variable {F : Type}

/-! ## Trees

What a handle stands for, with every position forgotten: the tree of the
spec's data model. Handle 0 is NIL. -/

inductive Tree (F : Type) where
  | nil
  | pair (left right : Tree F)
  | integer (i : Int)
  | float (f : F)
  | symbol (name : List Nat)
  | text (body : List Nat)
  | quoted (t : Tree F)
deriving DecidableEq, Repr

/-- Whether the handle `c` of the arena stands for the tree `t`. -/
def denotes [DecidableEq F] (E : Env F) (cells : List (Cell F)) : Tree F → Int → Bool
  | Tree.nil, c => decide (c = 0)
  | Tree.pair a b, c =>
    decide (c ≠ 0) &&
      match cellAt cells c with
      | some (Cell.ConsCell h t) => denotes E cells a h && denotes E cells b t
      | _ => false
  | Tree.integer i, c =>
    match cellAt cells c with
    | some (Cell.IntCell j) => decide (j = i)
    | _ => false
  | Tree.float f, c =>
    match cellAt cells c with
    | some (Cell.FractionalCell g) => decide (g = f)
    | _ => false
  | Tree.symbol s, c =>
    match cellAt cells c with
    | some (Cell.SymbolCell name name_end) => decide (E.span name name_end = s)
    | _ => false
  | Tree.text s, c =>
    match cellAt cells c with
    | some (Cell.StringCell str str_end) => decide (E.span str str_end = s)
    | _ => false
  | Tree.quoted t, c =>
    match cellAt cells c with
    | some (Cell.QuoteCell q) => denotes E cells t q
    | _ => false

/-- The proper list `Pair (t0, Pair (t1, ... NIL))`. -/
def chain : List (Tree F) → Tree F
  | [] => Tree.nil
  | t :: ts => Tree.pair t (chain ts)

/-- Every token preceded by one space. -/
def spacedtail : List (List Nat) → List Nat
  | [] => []
  | t :: ts => 32 :: (t ++ spacedtail ts)

/-- The input text of tokens joined by single spaces. -/
def spaced : List (List Nat) → List Nat
  | [] => []
  | t :: ts => t ++ spacedtail ts

/-- A non-empty run of ASCII letters. -/
def identifier (t : List Nat) : Prop := t ≠ [] ∧ ∀ b ∈ t, isalpha b = true

instance (t : List Nat) : Decidable (identifier t) := by
  unfold identifier; exact inferInstance

/-- A byte that `symbolp` takes into a symbol. -/
def symchar (b : Nat) : Bool := !isspace b && !isbracket b && b != 34 && b != 44

/-- A byte at which `whitespacep` stops. -/
def blackchar (b : Nat) : Bool := !isspace b && b != 59

/-- The bytes `[p, p+n)` of the input are a maximal run of symbol bytes. -/
structure SymbolAt (E : Env F) (p : Int) (n : Nat) : Prop where
  nonneg : 0 ≤ p
  pos : 0 < n
  chars : ∀ i : Nat, i < n → p + i < E.input_size ∧ symchar (E.inputAt (p + i)) = true
  stop : E.input_size ≤ p + n ∨ symchar (E.inputAt (p + n)) = false

/-- The token `t` stands at `[p, p + t.length)` in the input and `symbolp`
takes exactly these bytes. -/
structure TokenAt (E : Env F) (p : Int) (t : List Nat) : Prop where
  nonneg : 0 ≤ p
  nonempty : t ≠ []
  read : ∀ i : Nat, i < t.length → p + i < E.input_size ∧ E.inputAt (p + i) = t.getD i 0
  symchars : ∀ b ∈ t, symchar b = true
  stop : E.input_size ≤ p + t.length ∨ symchar (E.inputAt (p + t.length)) = false

/-- From `p` on the input reads: one space and an identifier, for every token
of the list, and then the end of the input, a `)` or a `]`. -/
def RestTokens (E : Env F) : Int → List (List Nat) → Prop
  | p, [] => 0 ≤ p ∧ (E.input_size ≤ p ∨ E.inputAt p = 41 ∨ E.inputAt p = 93)
  | p, t :: ts =>
    0 ≤ p ∧ p < E.input_size ∧ E.inputAt p = 32 ∧ identifier t ∧ TokenAt E (p + 1) t ∧
      RestTokens E (p + 1 + t.length) ts

/-- The handle `x` is a symbol cell whose name reads `s`. -/
def IsSymbol (E : Env F) (cells : List (Cell F)) (x : Int) (s : List Nat) : Prop :=
  ∃ name name_end, cellAt cells x = some (Cell.SymbolCell name name_end) ∧ E.span name name_end = s

/-- From the handle `c` on the arena holds a chain of `ConsCell`s whose heads
are symbols named `ss`, in this order; the last cell of the chain is `tl` and
its tail is NIL. -/
def SymbolChain (E : Env F) (cells : List (Cell F)) : Int → List (List Nat) → Int → Prop
  | _, [], _ => False
  | c, [s], tl => c = tl ∧ c ≠ 0 ∧ ∃ x, cellAt cells c = some (Cell.ConsCell x 0) ∧ IsSymbol E cells x s
  | c, s :: s' :: ss, tl =>
    c ≠ 0 ∧ c ≠ tl ∧ ∃ x n, cellAt cells c = some (Cell.ConsCell x n) ∧ IsSymbol E cells x s ∧
      SymbolChain E cells n (s' :: ss) tl

/-- The cursor that `symbolp` returns for a symbol of `n` bytes read at the end
of the cursor `r` and stored in the cell `k`. -/
def symbolresult (k : Int) (r : result_t) (n : Nat) : result_t :=
  { cell := k, pos_start := r.pos_end, pos_end := r.pos_end + n, line_start := r.line_end,
    line_end := r.line_end, col_start := r.col_end, col_end := r.col_end + n }

/-- An operator token as `symbolp` and `isoperator` read one: a non-empty run
of symbol bytes none of which is alphanumeric or an underscore, that does not
start with a quote mark or a semicolon. -/
def operatortoken (op : List Nat) : Prop :=
  op ≠ [] ∧ (∀ b ∈ op, symchar b = true ∧ isalnum b = false ∧ b ≠ 95) ∧
    op.headD 0 ≠ 39 ∧ op.headD 0 ≠ 59

instance (op : List Nat) : Decidable (operatortoken op) := by
  unfold operatortoken; exact inferInstance

/-- The tree that the spec gives to `p op s`, by the text of the operator:
`:` is a raw pair, `::` a two-element list, `:=` a `define` form, and every
other operator is applied as a prefix. -/
def operatortree (p op s : List Nat) : Tree F :=
  if op = [58] then Tree.pair (Tree.symbol p) (Tree.symbol s)
  else if op = [58, 58] then chain [Tree.symbol p, Tree.symbol s]
  else if op = [58, 61] then
    chain [Tree.symbol [100, 101, 102, 105, 110, 101], Tree.symbol p, Tree.symbol s]
  else chain [Tree.symbol op, Tree.symbol p, Tree.symbol s]

/-- The tree that `listexprp` builds for identifiers separated by single
spaces between `[` and `]`: a list of one element, which is the identifier
itself when there is one and the chain of all of them when there are more. -/
def listtree : List (List Nat) → Tree F
  | [t] => Tree.pair (Tree.symbol t) Tree.nil
  | ts => Tree.pair (chain (ts.map Tree.symbol)) Tree.nil

/-- The text that `writeexpr` prints for `listtree`. -/
def listtext : List (List Nat) → List Nat
  | [t] => 40 :: (t ++ [41])
  | ts => 40 :: 40 :: (spaced ts ++ [41, 41])

/-- The body of a terminated string literal: a sequence of bytes other than
`"` and backslash and of pairs of a backslash and any byte. The flag says
that the byte before was the backslash of a pair. -/
def stringbody : Bool → List Nat → Bool
  | esc, [] => !esc
  | true, _ :: s => stringbody false s
  | false, b :: s => if b = 92 then stringbody true s else b != 34 && stringbody false s

/-! ## White space and comments

What `whitespacep` skips, said on the bytes that follow the cursor. -/

/-- A line terminator. -/
def isterminator (b : Nat) : Bool := b == 10 || b == 13

/-- The longest prefix of `s` made of white space bytes and of comments, a
comment running from a `;` up to the line terminator or the end of the input.
The flag says that the first byte of `s` belongs to a comment. -/
def skiprun : Bool → List Nat → List Nat
  | _, [] => []
  | true, b :: s => if isterminator b then b :: skiprun false s else b :: skiprun true s
  | false, b :: s =>
    if isspace b then b :: skiprun false s
    else if b = 59 then b :: skiprun true s
    else []

/-- The width of the spaces and tabs among the bytes: a space is one column
and a tab is four. -/
def width (l : List Nat) : Int :=
  (l.map fun b => if b = 32 then (1 : Int) else if b = 9 then 4 else 0).sum

/-- The bytes after the last line terminator of `l`, all of `l` when it has
none. -/
def lastline (l : List Nat) : List Nat :=
  l.foldl (fun acc b => if isterminator b then [] else acc ++ [b]) []

/-- Whether a line terminator or a comment is among the skipped bytes. -/
def brokenrun (run : List Nat) : Bool := run.any fun b => isterminator b || b == 59

/-- The column after the skipped bytes `run` as C14 states it: the entry
column plus the width of the run when it has no line terminator and no
comment, and else the width of the spaces and tabs after the last line
terminator. -/
def statedcol (col : Int) (run : List Nat) : Int :=
  if brokenrun run then width (lastline run) else col + width run

/-- The column after the skipped bytes `run`, with the comment that reaches
the end of the run: it leaves the column at 0. -/
def skipcol (col : Int) (run : List Nat) : Int :=
  if brokenrun run then (if 59 ∈ lastline run then 0 else width (lastline run))
  else col + width run

/-! ## Proper lists and their layout -/

/-- From the handle `c` on the arena holds a proper list: a chain of
`ConsCell`s whose heads are the handles `xs`, in this order, and whose last
tail is NIL. -/
def ProperList (cells : List (Cell F)) : Int → List Int → Prop
  | c, [] => c = 0
  | c, x :: xs =>
    c ≠ 0 ∧ ∃ n, cellAt cells c = some (Cell.ConsCell x n) ∧ ProperList cells n xs

/-- The text of the children `xs` of a proper list as C16 lays them out, the
first of them starting at column `c`: the text that `writeexpr` prints for
each child at its column, one space after a child that is an `IntCell`, a
`FractionalCell` or a `SymbolCell`, and after any other child one newline and
the padding to the column at which that child started. -/
def childrenlayout (E : Env F) (cells : List (Cell F)) (fuel : Nat) (e0 : result_t) :
    List Int → Int → List Nat → Option (List Nat)
  | [], _, out => some out
  | x :: xs, c, out =>
    match writeexpr E cells fuel { e0 with cell := x, line_start := 0, col_start := c } out,
        breaksline cells x with
    | some (temp, out1), some b =>
      if xs = [] then some out1
      else if b = true then childrenlayout E cells fuel e0 xs c (out1 ++ 10 :: tab2col c [])
      else childrenlayout E cells fuel e0 xs (temp.col_end + 1) (out1 ++ [32])
    | _, _ => none

/-- The text of an atom that the printer keeps on the line: the digits of an
`IntCell`, the `%g` text of a `FractionalCell`, the name of a `SymbolCell`. -/
def atomtext (E : Env F) (cells : List (Cell F)) (x : Int) : Option (List Nat) :=
  match cellAt cells x with
  | some (Cell.IntCell i) => some (E.print_d i)
  | some (Cell.FractionalCell f) => some (E.print_g f)
  | some (Cell.SymbolCell name name_end) => some (E.span name name_end)
  | _ => none

/-! ## Checked reads of the input -/

/-- The read `input[i]` with the index checked against the buffer: `none` when
`i` is not one of the `input_size` indices of the input. -/
def Env.readAt (E : Env F) (i : Int) : Option Nat :=
  if 0 ≤ i ∧ i < E.input_size then some (E.inputAt i) else none

/-- Lines 396-407 of `applicativeexprp` with both reads of `input` checked:
`char c = input[r.pos_end]` and, after a quote mark, `c = input[r.pos_end]`
at the cursor moved over it. `none` is a read outside the input. -/
def lookaheadchecked (E : Env F) (r : result_t) : Option (Nat × result_t × Bool) :=
  match E.readAt r.pos_end with
  | none => none
  | some c0 =>
    let r0 := move r
    -- '\''
    let q : Bool := decide (c0 = 39)
    let r1 := if q then { r0 with pos_end := r0.pos_end + 1, col_end := r0.col_end + 1 } else r0
    if q then
      match E.readAt r1.pos_end with
      | none => none
      | some c => some (c, r1, q)
    else some (c0, r1, q)

/-- The C library reads an integer only where one starts: `%d` fails on a
string that does not begin, after white space, with an optional sign and a
digit (ISO C 7.21.6.2). -/
def Env.scansIntegers (E : Env F) : Prop := ∀ s, intstart s = false → E.scan_d s = none

end Ez2scm

/-! # Theorems -/

namespace Ez2scm

variable {F : Type}

/-! ## Reading the buffer -/

theorem inputAt_of_nonneg (E : Env F) (p : Int) (h : 0 ≤ p) :
    E.inputAt p = (E.input ++ E.beyond).getD p.toNat 0 := by
  unfold Env.inputAt
  rw [if_neg (not_lt.mpr h)]

theorem inputAt_natCast (E : Env F) (k : Nat) :
    E.inputAt (k : Int) = (E.input ++ E.beyond).getD k 0 := by
  rw [inputAt_of_nonneg E _ (Int.natCast_nonneg k), Int.toNat_natCast]

theorem cstr_cons (E : Env F) (p : Int) (h0 : 0 ≤ p) (h : p < E.input_size) :
    E.cstr p = E.inputAt p :: E.cstr (p + 1) := by
  obtain ⟨k, rfl⟩ := Int.eq_ofNat_of_zero_le h0
  have hk : k < (E.input ++ E.beyond).length := by
    unfold Env.input_size at h
    simp only [List.length_append]
    omega
  rw [inputAt_natCast]
  unfold Env.cstr
  rw [if_neg (by omega), if_neg (by omega)]
  have e1 : ((k : Int) + 1).toNat = k + 1 := by omega
  rw [Int.toNat_natCast, e1, List.getD_eq_getElem _ _ hk]
  exact List.drop_eq_getElem_cons hk

/-! ## The loops of the lexer -/

theorem symbolscan_stop (E : Env F) (fuel : Nat) (p : Int)
    (h : E.input_size ≤ p ∨ symchar (E.inputAt p) = false) : symbolscan E fuel p = p := by
  cases fuel with
  | zero => rfl
  | succ n =>
    unfold symbolscan
    rw [if_neg]
    rintro ⟨h1, h2, h3, h4, h5⟩
    rcases h with h | h
    · omega
    · simp [symchar, h2, h3, h4, h5] at h

theorem symbolscan_run (E : Env F) : ∀ (n fuel : Nat) (p : Int), n ≤ fuel →
    (∀ i : Nat, i < n → p + i < E.input_size ∧ symchar (E.inputAt (p + i)) = true) →
    symbolscan E fuel p = symbolscan E (fuel - n) (p + n) := by
  intro n
  induction n with
  | zero => intro fuel p _ _; simp
  | succ n ih =>
    intro fuel p hf hc
    obtain ⟨f, rfl⟩ : ∃ f, fuel = f + 1 := ⟨fuel - 1, by omega⟩
    have h0 := hc 0 (by omega)
    simp only [Nat.cast_zero, add_zero] at h0
    have hs : symchar (E.inputAt p) = true := h0.2
    simp only [symchar, Bool.and_eq_true, Bool.not_eq_true', bne_iff_ne, ne_eq] at hs
    rw [symbolscan, if_pos ⟨h0.1, hs.1.1.1, hs.1.1.2, hs.1.2, hs.2⟩]
    rw [ih f (p + 1) (by omega)]
    · have e1 : f + 1 - (n + 1) = f - n := by omega
      have e2 : p + 1 + (n : Int) = p + ((n + 1 : Nat) : Int) := by push_cast; ring
      rw [e1, e2]
    · intro i hi
      have := hc (i + 1) (by omega)
      have e : p + ((i + 1 : Nat) : Int) = p + 1 + (i : Int) := by push_cast; ring
      rwa [e] at this

theorem symbolscan_symbol (E : Env F) (p : Int) (n : Nat) (h : SymbolAt E p n) :
    symbolscan E (E.input.length + 1) p = p + n := by
  have hn : n ≤ E.input.length + 1 := by
    have := (h.chars (n - 1) (by have := h.pos; omega)).1
    have := h.nonneg
    unfold Env.input_size at *
    omega
  rw [symbolscan_run E n _ p hn h.chars]
  exact symbolscan_stop E _ _ h.stop

theorem whitespaceloop_stop (E : Env F) (fuel : Nat) (p : Int) (r : result_t)
    (h : E.input_size ≤ p ∨ blackchar (E.inputAt p) = true) : whitespaceloop E fuel p r = r := by
  cases fuel with
  | zero => rfl
  | succ n =>
    unfold whitespaceloop
    rcases h with h | h
    · rw [if_neg (by omega)]
    · simp only [blackchar, Bool.and_eq_true, Bool.not_eq_true', bne_iff_ne, ne_eq] at h
      simp [h.1, h.2]

theorem whitespacep_stop (E : Env F) (r : result_t)
    (h : E.input_size ≤ r.pos_end ∨ blackchar (E.inputAt r.pos_end) = true) :
    whitespacep E r = move r :=
  whitespaceloop_stop E _ _ _ h

theorem whitespacep_space (E : Env F) (r : result_t)
    (h1 : r.pos_end < E.input_size) (h32 : E.inputAt r.pos_end = 32)
    (h : E.input_size ≤ r.pos_end + 1 ∨ blackchar (E.inputAt (r.pos_end + 1)) = true) :
    whitespacep E r =
      { move r with pos_end := r.pos_end + 1, col_end := r.col_end + 1 } := by
  unfold whitespacep
  rw [whitespaceloop, if_pos h1]
  simp only [h32, isspace]
  simp only [beq_self_eq_true, Bool.true_or, if_true]
  rw [whitespaceloop_stop E _ _ _ h]
  simp [move]

/-! ## Atoms -/

theorem fractionalp_cells (E : Env F) (cells : List (Cell F)) (r : result_t) :
    ∃ g, (fractionalp E cells r).1 = cells ++ g := by
  unfold fractionalp
  cases E.scan_lf (E.cstr r.pos_end) with
  | none => exact ⟨[], by simp⟩
  | some a => exact ⟨[Cell.FractionalCell a.1], by simp [newcell]⟩

/-- On a maximal run of symbol bytes at which no integer starts, `atomp`
allocates one `SymbolCell` for the run, after whatever `fractionalp` left in
the arena. -/
theorem atomp_symbol (E : Env F) (hE : E.scansIntegers) (cells : List (Cell F)) (r : result_t)
    (n : Nat) (h : SymbolAt E r.pos_end n) (hi : intstart (E.cstr r.pos_end) = false) :
    ∃ g, atomp E cells r =
      some (cells ++ g ++ [Cell.SymbolCell ⟨Base.input, r.pos_end⟩ ⟨Base.input, r.pos_end + n⟩],
        { cell := ((cells ++ g).length : Int), pos_start := r.pos_end, pos_end := r.pos_end + n,
          line_start := r.line_end, line_end := r.line_end, col_start := r.col_end,
          col_end := r.col_end + n }) := by
  obtain ⟨g, hg⟩ := fractionalp_cells E cells (move r)
  refine ⟨g, ?_⟩
  have h0 := h.chars 0 h.pos
  simp only [Nat.cast_zero, add_zero] at h0
  have hq : E.inputAt r.pos_end ≠ 34 := by
    have := h0.2
    simp only [symchar, Bool.and_eq_true, Bool.not_eq_true', bne_iff_ne, ne_eq] at this
    exact this.1.2
  have hint : intp E cells (move r) = (cells, move (move r)) := by
    unfold intp
    have : E.scan_d (E.cstr (move r).pos_end) = none := hE _ (by simpa [move] using hi)
    rw [this]
  have hstr : ∀ cs, stringp E cs (move r) = (cs, move (move r)) := by
    intro cs
    unfold stringp
    simp only [move]
    rw [if_pos (Or.inr hq)]
  have hscan := symbolscan_symbol E r.pos_end n h
  have hne : r.pos_end + (n : Int) ≠ r.pos_end := by have := h.pos; omega
  unfold atomp
  simp only [hint, hstr, hg]
  simp only [move, symbolp, hscan, newcell]
  simp [hne]

/-! ## The arena -/

theorem cellAt_some {cells : List (Cell F)} {c : Int} {x : Cell F} (h : cellAt cells c = some x) :
    0 ≤ c ∧ c < cells.length := by
  unfold cellAt at h
  split at h
  · simp at h
  · have := List.get?_eq_some.mp h
    obtain ⟨hlt, _⟩ := this
    omega

theorem cellAt_natCast (cells : List (Cell F)) (k : Nat) : cellAt cells (k : Int) = cells.get? k := by
  unfold cellAt
  rw [if_neg (by omega), Int.toNat_natCast]

theorem cellAt_append_left {cells : List (Cell F)} {c : Int} {x : Cell F} (more : List (Cell F))
    (h : cellAt cells c = some x) : cellAt (cells ++ more) c = some x := by
  have hc := cellAt_some h
  obtain ⟨k, rfl⟩ := Int.eq_ofNat_of_zero_le hc.1
  rw [cellAt_natCast] at h ⊢
  have hk : k < cells.length := by omega
  simpa [List.getElem?_append_left hk] using h

theorem cellAt_append_length (cells : List (Cell F)) (x : Cell F) (more : List (Cell F)) :
    cellAt (cells ++ x :: more) (cells.length : Int) = some x := by
  rw [cellAt_natCast, List.get?_eq_getElem?, List.getElem?_append_right (le_refl _)]
  simp

theorem cellAt_extend {cells cells1 : List (Cell F)} {c : Int} {x : Cell F}
    (hp : cells <+: cells1) (h : cellAt cells c = some x) : cellAt cells1 c = some x := by
  obtain ⟨more, rfl⟩ := hp
  exact cellAt_append_left more h

theorem cellAt_setTail_ne (cells : List (Cell F)) (k t c : Int) (h : c ≠ k) :
    cellAt (setTail cells k t) c = cellAt cells c := by
  unfold setTail
  split
  · rename_i hd tl hk
    have hk2 := cellAt_some hk
    unfold cellAt
    by_cases hc : c < 0
    · simp [hc]
    · simp only [hc, if_false]
      have : k.toNat ≠ c.toNat := by omega
      simp [List.getElem?_set_ne this]
  · rfl

theorem cellAt_setTail_self {cells : List (Cell F)} {k : Int} {hd tl : Int} (t : Int)
    (h : cellAt cells k = some (Cell.ConsCell hd tl)) :
    cellAt (setTail cells k t) k = some (Cell.ConsCell hd t) := by
  have hk := cellAt_some h
  unfold setTail
  rw [h]
  obtain ⟨j, rfl⟩ := Int.eq_ofNat_of_zero_le hk.1
  rw [cellAt_natCast]
  simp only [Int.toNat_natCast]
  have hj : j < cells.length := by omega
  simp [List.getElem?_set_self hj]

theorem length_setTail (cells : List (Cell F)) (k t : Int) :
    (setTail cells k t).length = cells.length := by
  unfold setTail
  split <;> simp

theorem prefix_setTail {base cells : List (Cell F)} (k t : Int) (hp : base <+: cells)
    (hk : (base.length : Int) ≤ k) : base <+: setTail cells k t := by
  unfold setTail
  split
  · obtain ⟨more, rfl⟩ := hp
    have e : k.toNat = base.length + (k.toNat - base.length) := by omega
    rw [e, List.set_append_right _ _ (by omega)]
    exact List.prefix_append _ _
  · exact hp

/-! ## Chains of symbols in the arena -/

theorem isSymbol_mono {E : Env F} {cells cells1 : List (Cell F)} {x : Int} {s : List Nat}
    (hp : cells <+: cells1) (h : IsSymbol E cells x s) : IsSymbol E cells1 x s := by
  obtain ⟨n, ne, h1, h2⟩ := h
  exact ⟨n, ne, cellAt_extend hp h1, h2⟩

theorem isSymbol_setTail {E : Env F} {cells : List (Cell F)} {x : Int} {s : List Nat}
    {k hd tl : Int} (t : Int) (hk : cellAt cells k = some (Cell.ConsCell hd tl))
    (h : IsSymbol E cells x s) : IsSymbol E (setTail cells k t) x s := by
  obtain ⟨n, ne, h1, h2⟩ := h
  have hx : x ≠ k := by
    rintro rfl
    rw [hk] at h1
    cases h1
  exact ⟨n, ne, by rw [cellAt_setTail_ne _ _ _ _ hx]; exact h1, h2⟩

theorem symbolChain_mono {E : Env F} {cells cells1 : List (Cell F)} (hp : cells <+: cells1)
    {tl : Int} : ∀ (ss : List (List Nat)) (c : Int),
      SymbolChain E cells c ss tl → SymbolChain E cells1 c ss tl
  | [], _, h => by simp [SymbolChain] at h
  | [s], c, h => by
    simp only [SymbolChain] at h ⊢
    obtain ⟨h1, h2, x, h3, h4⟩ := h
    exact ⟨h1, h2, x, cellAt_extend hp h3, isSymbol_mono hp h4⟩
  | s :: s' :: ss, c, h => by
    simp only [SymbolChain] at h ⊢
    obtain ⟨h1, h2, x, n, h3, h4, h5⟩ := h
    exact ⟨h1, h2, x, n, cellAt_extend hp h3, isSymbol_mono hp h4, symbolChain_mono hp (s' :: ss) n h5⟩

theorem symbolChain_last {E : Env F} {cells : List (Cell F)} {tl : Int} :
    ∀ (ss : List (List Nat)) (c : Int), SymbolChain E cells c ss tl →
      ∃ x, cellAt cells tl = some (Cell.ConsCell x 0)
  | [], _, h => by simp [SymbolChain] at h
  | [s], c, h => by
    simp only [SymbolChain] at h
    obtain ⟨h1, _, x, h3, _⟩ := h
    exact ⟨x, h1 ▸ h3⟩
  | s :: s' :: ss, c, h => by
    simp only [SymbolChain] at h
    obtain ⟨_, _, x, n, _, _, h5⟩ := h
    exact symbolChain_last (s' :: ss) n h5

/-- Appending to a chain: a new cell `Pair (x, NIL)` goes to the top of the
arena and the tail of the last cell is set to it. -/
theorem symbolChain_snoc {E : Env F} {cells : List (Cell F)} {tl x : Int} {s : List Nat}
    (hx : IsSymbol E cells x s) : ∀ (ss : List (List Nat)) (c : Int),
      SymbolChain E cells c ss tl →
      SymbolChain E (setTail (cells ++ [Cell.ConsCell x 0]) tl cells.length) c (ss ++ [s])
        cells.length
  | [], _, h => by simp [SymbolChain] at h
  | [s0], c, h => by
    simp only [SymbolChain] at h
    obtain ⟨rfl, h2, x0, h3, h4⟩ := h
    have hc := cellAt_some h3
    have h3a := cellAt_append_left [Cell.ConsCell x 0] h3
    have hne : (cells.length : Int) ≠ c := by omega
    simp only [List.singleton_append, SymbolChain]
    refine ⟨h2, by omega, x0, cells.length, cellAt_setTail_self _ h3a,
      isSymbol_setTail _ h3a (isSymbol_mono (List.prefix_append _ _) h4), by omega, by omega, x, ?_,
      isSymbol_setTail _ h3a (isSymbol_mono (List.prefix_append _ _) hx)⟩
    rw [cellAt_setTail_ne _ _ _ _ hne]
    exact cellAt_append_length cells _ []
  | s0 :: s1 :: ss, c, h => by
    simp only [SymbolChain] at h
    obtain ⟨h1, h2, x0, n, h3, h4, h5⟩ := h
    obtain ⟨xl, hl⟩ := symbolChain_last _ _ h5
    have hla := cellAt_append_left [Cell.ConsCell x 0] hl
    have hc := cellAt_some h3
    have ih := symbolChain_snoc hx (s1 :: ss) n h5
    simp only [List.cons_append, SymbolChain] at ih ⊢
    refine ⟨h1, by omega, x0, n, ?_, isSymbol_setTail _ hla (isSymbol_mono (List.prefix_append _ _) h4), ih⟩
    rw [cellAt_setTail_ne _ _ _ _ h2]
    exact cellAt_append_left _ h3

theorem isSymbol_denotes [DecidableEq F] {E : Env F} {cells : List (Cell F)} {x : Int}
    {s : List Nat} (h : IsSymbol E cells x s) : denotes E cells (Tree.symbol s) x = true := by
  obtain ⟨n, ne, h1, h2⟩ := h
  simp [Ez2scm.denotes, h1, h2]

theorem symbolChain_denotes [DecidableEq F] {E : Env F} {cells : List (Cell F)} {tl : Int} :
    ∀ (ss : List (List Nat)) (c : Int), SymbolChain E cells c ss tl →
      denotes E cells (chain (ss.map Tree.symbol)) c = true
  | [], _, h => by simp [SymbolChain] at h
  | [s], c, h => by
    simp only [SymbolChain] at h
    obtain ⟨_, h2, x, h3, n, ne, h4, h5⟩ := h
    simp [Ez2scm.denotes, chain, h2, h3, h4, h5]
  | s :: s' :: ss, c, h => by
    simp only [SymbolChain] at h
    obtain ⟨h1, _, x, n, h3, ⟨a, ae, h4, h6⟩, h5⟩ := h
    have ih := symbolChain_denotes (s' :: ss) n h5
    have hs : Ez2scm.denotes E cells (Tree.symbol s) x = true := isSymbol_denotes ⟨a, ae, h4, h6⟩
    simp only [List.map_cons, chain] at ih ⊢
    rw [Ez2scm.denotes, h3]
    simp [hs, ih, h1]

theorem denotes_mono [DecidableEq F] {E : Env F} {cells cells1 : List (Cell F)}
    (hp : cells <+: cells1) : ∀ (t : Tree F) (c : Int),
      denotes E cells t c = true → denotes E cells1 t c = true := by
  intro t
  induction t with
  | nil => intro c h; simpa [denotes] using h
  | pair a b iha ihb =>
    intro c h
    simp only [denotes, Bool.and_eq_true, decide_eq_true_eq] at h ⊢
    refine ⟨h.1, ?_⟩
    cases hc : cellAt cells c with
    | none => simp [hc] at h
    | some x =>
      rw [cellAt_extend hp hc]
      rw [hc] at h
      cases x <;> simp at h ⊢
      exact ⟨iha _ h.2.1, ihb _ h.2.2⟩
  | quoted t ih =>
    intro c h
    simp only [denotes] at h ⊢
    cases hc : cellAt cells c with
    | none => simp [hc] at h
    | some x =>
      rw [cellAt_extend hp hc]
      rw [hc] at h
      cases x <;> simp at h ⊢
      exact ih _ h
  | integer i | float f | symbol s | text s =>
    intro c h
    simp only [denotes] at h ⊢
    cases hc : cellAt cells c with
    | none => simp [hc] at h
    | some x =>
      rw [cellAt_extend hp hc]
      rw [hc] at h
      exact h

/-! ## Tokens in the input -/

theorem symchar_of_isalpha {b : Nat} (h : isalpha b = true) : symchar b = true := by
  simp only [isalpha, Bool.or_eq_true, Bool.and_eq_true, decide_eq_true_eq] at h
  simp only [symchar, isspace, isbracket, Bool.and_eq_true, Bool.not_eq_true', Bool.or_eq_false_iff,
    Bool.and_eq_false_imp, beq_eq_false_iff_ne, bne_iff_ne, ne_eq, decide_eq_true_eq,
    decide_eq_false_iff_not]
  omega

theorem blackchar_of_isalpha {b : Nat} (h : isalpha b = true) : blackchar b = true := by
  simp only [isalpha, Bool.or_eq_true, Bool.and_eq_true, decide_eq_true_eq] at h
  simp only [blackchar, isspace, Bool.and_eq_true, Bool.not_eq_true', Bool.or_eq_false_iff,
    Bool.and_eq_false_imp, beq_eq_false_iff_ne, bne_iff_ne, ne_eq, decide_eq_true_eq,
    decide_eq_false_iff_not]
  omega

theorem tokenAt_symbolAt {E : Env F} {p : Int} {t : List Nat} (h : TokenAt E p t) :
    SymbolAt E p t.length where
  nonneg := h.nonneg
  pos := List.length_pos.mpr h.nonempty
  chars := by
    intro i hi
    obtain ⟨h1, h2⟩ := h.read i hi
    refine ⟨h1, ?_⟩
    rw [h2, List.getD_eq_getElem _ _ hi]
    exact h.symchars _ (List.getElem_mem hi)
  stop := h.stop

theorem tokenAt_first {E : Env F} {p : Int} {t : List Nat} (h : TokenAt E p t) :
    p < E.input_size ∧ E.inputAt p = t.headD 0 ∧ t.headD 0 ∈ t := by
  have hp := List.length_pos.mpr h.nonempty
  have := h.read 0 hp
  simp only [Nat.cast_zero, add_zero] at this
  cases t with
  | nil => exact absurd rfl h.nonempty
  | cons b t => simpa using this

theorem tokenAt_last {E : Env F} {p : Int} {t : List Nat} (h : TokenAt E p t) :
    E.inputAt (p + t.length - 1) ∈ t := by
  have hp := List.length_pos.mpr h.nonempty
  have := (h.read (t.length - 1) (by omega)).2
  have e : p + ((t.length - 1 : Nat) : Int) = p + t.length - 1 := by omega
  rw [e] at this
  rw [this, List.getD_eq_getElem _ _ (by omega)]
  exact List.getElem_mem _

theorem tokenAt_span {E : Env F} {p : Int} {t : List Nat} (h : TokenAt E p t) :
    E.span ⟨Base.input, p⟩ ⟨Base.input, p + t.length⟩ = t := by
  unfold Env.span
  have e : (p + (t.length : Int) - p).toNat = t.length := by omega
  simp only [e]
  apply List.ext_getElem
  · simp
  · intro i h1 h2
    simp only [List.getElem_map, List.getElem_range, Env.deref]
    rw [(h.read i h2).2, List.getD_eq_getElem _ _ h2]

theorem intstart_of_symchar (b : Nat) (s : List Nat) (hb : symchar b = true)
    (hd : isdigit b = false) (hs : (b = 43 ∨ b = 45) → isdigit (s.headD 0) = false) :
    intstart (b :: s) = false := by
  have hsp : isspace b = false := by
    simp only [symchar, Bool.and_eq_true, Bool.not_eq_true'] at hb
    exact hb.1.1.1
  unfold intstart
  simp only [skipspaces, hsp]
  by_cases h : b = 43 ∨ b = 45
  · simpa [h] using hs h
  · simp [h, hd]

theorem tokenAt_intstart {E : Env F} {p : Int} {t : List Nat} (h : TokenAt E p t)
    (hi : identifier t) : intstart (E.cstr p) = false := by
  obtain ⟨h1, h2, h3⟩ := tokenAt_first h
  rw [cstr_cons E p h.nonneg h1, h2]
  have ha := hi.2 _ h3
  apply intstart_of_symchar _ _ (symchar_of_isalpha ha)
  · simp only [isalpha, Bool.or_eq_true, Bool.and_eq_true, decide_eq_true_eq] at ha
    simp only [isdigit, Bool.and_eq_false_imp, decide_eq_true_eq, decide_eq_false_iff_not]
    omega
  · intro hc
    simp only [isalpha, Bool.or_eq_true, Bool.and_eq_true, decide_eq_true_eq] at ha
    omega

theorem span_cons (E : Env F) (c c_end : Ptr) (h : c.off < c_end.off) :
    E.span c c_end = E.deref c :: E.span { c with off := c.off + 1 } c_end := by
  unfold Env.span
  obtain ⟨n, hn⟩ : ∃ n, (c_end.off - c.off).toNat = n + 1 := ⟨(c_end.off - c.off).toNat - 1, by omega⟩
  have e : (c_end.off - (c.off + 1)).toNat = n := by omega
  simp only [hn, e, List.range_succ_eq_map, List.map_cons, List.map_map]
  congr 1
  · simp
  · apply List.map_congr_left
    intro k _
    simp only [Function.comp]
    congr 2
    push_cast
    ring

theorem span_nil (E : Env F) (c c_end : Ptr) (h : ¬ c.off < c_end.off) : E.span c c_end = [] := by
  unfold Env.span
  have e : (c_end.off - c.off).toNat = 0 := by omega
  simp [e]

theorem operatorscan_all (E : Env F) : ∀ (fuel : Nat) (c c_end : Ptr),
    (c_end.off - c.off).toNat < fuel →
    operatorscan E fuel c c_end = (E.span c c_end).all fun b => !(isalnum b || b == 95)
  | 0, _, _, hf => by omega
  | fuel + 1, c, c_end, hf => by
    unfold operatorscan
    split_ifs with h1 h2
    · rw [span_cons E c c_end h1]
      rcases h2 with h2 | h2 <;> simp [h2]
    · rw [span_cons E c c_end h1, operatorscan_all E fuel _ c_end (by simp only; omega)]
      simp only [not_or, Bool.not_eq_true] at h2
      simp [h2.1, h2.2]
    · rw [span_nil E c c_end h1]
      rfl

/-- The loop of `isoperator` is a test of every byte of the span. -/
theorem isoperator_all (E : Env F) (cells : List (Cell F)) (symbol : Int) :
    isoperator E cells symbol =
      match cellAt cells symbol with
      | some (Cell.SymbolCell c c_end) =>
        if c_end.off > c.off then (E.span c c_end).all fun b => !(isalnum b || b == 95)
        else false
      | _ => false := by
  unfold isoperator
  split
  · rename_i c c_end _
    split_ifs
    · exact operatorscan_all E _ c c_end (by omega)
    · rfl
  · rfl

theorem isoperator_ident {E : Env F} {cells : List (Cell F)} {x : Int} {t : List Nat}
    (h : IsSymbol E cells x t) (hi : identifier t) : isoperator E cells x = false := by
  obtain ⟨n, ne, h1, h2⟩ := h
  rw [isoperator_all]
  rw [h1]
  simp only [h2]
  split
  · cases t with
    | nil => exact absurd rfl hi.1
    | cons b t =>
      have := hi.2 b (List.mem_cons_self _ _)
      simp [isalnum, this]
  · rfl

theorem tokenAt_of_append {E : Env F} {pre t suf : List Nat} (hin : E.input = pre ++ t ++ suf)
    (hne : t ≠ []) (hs : ∀ b ∈ t, symchar b = true)
    (hsuf : suf = [] ∨ symchar (suf.headD 0) = false) : TokenAt E (pre.length : Int) t where
  nonneg := Int.natCast_nonneg _
  nonempty := hne
  read := by
    intro i hi
    have e : (pre.length : Int) + (i : Int) = ((pre.length + i : Nat) : Int) := by push_cast; rfl
    rw [e, inputAt_natCast, hin]
    constructor
    · unfold Env.input_size
      rw [hin]
      simp only [List.length_append]
      omega
    · simp only [List.append_assoc]
      rw [List.getD_append_right _ _ _ _ (by omega)]
      rw [List.getD_append _ _ _ _ (by omega)]
      congr 1
      omega
  symchars := hs
  stop := by
    rcases hsuf with rfl | h
    · left
      unfold Env.input_size
      rw [hin]
      simp
    · right
      have e : (pre.length : Int) + (t.length : Int) = ((pre ++ t).length : Nat) := by
        simp
      rw [e, inputAt_natCast, hin]
      cases suf with
      | nil => simp [symchar, isspace, isbracket] at h
      | cons b suf =>
        have e2 : pre ++ t ++ b :: suf ++ E.beyond = (pre ++ t) ++ (b :: (suf ++ E.beyond)) := by
          simp
        rw [e2, List.getD_append_right _ _ _ _ (le_refl _)]
        simpa using h

/-! ## Steps of `applicativeexprp` -/

theorem applicativeexprp_closer (E : Env F) (fuel : Nat) (cells : List (Cell F)) (r : result_t)
    (b : Bool)
    (h : E.input_size ≤ r.pos_end ∨ E.inputAt r.pos_end = 41 ∨ E.inputAt r.pos_end = 93) :
    applicativeexprp E (fuel + 1) cells r b = some (cells, move r) := by
  rw [applicativeexprp]
  by_cases hsz : r.pos_end ≥ E.input_size
  · rw [if_pos hsz]
  · rw [if_neg hsz]
    rcases h with h | h | h
    · omega
    · simp [lookahead, h]
    · simp [lookahead, h]

theorem applicativeexprp_atom (E : Env F) (fuel : Nat) (cells : List (Cell F)) (r : result_t)
    (ishead : Bool) (h1 : r.pos_end < E.input_size) (hs : symchar (E.inputAt r.pos_end) = true)
    (hq : E.inputAt r.pos_end ≠ 39) :
    applicativeexprp E (fuel + 1) cells r ishead =
      match atomp E cells (move r) with
      | none => none
      | some (cells2, h) =>
        if h.cell < 0 ∨ ishead = false then some (cells2, h)
        else searchargs E (fun b cs x => applicativeexprp E fuel cs x b) (argloop E fuel) cells2 h := by
  simp only [symchar, isbracket, Bool.and_eq_true, Bool.not_eq_true', Bool.or_eq_false_iff,
    beq_eq_false_iff_ne, bne_iff_ne, ne_eq] at hs
  obtain ⟨⟨⟨_, ⟨⟨⟨⟨⟨h40, h41⟩, h91⟩, h93⟩, _⟩, _⟩⟩, _⟩, h44⟩ := hs
  rw [applicativeexprp, if_neg (by omega)]
  simp only [lookahead, hq, decide_False, Bool.false_eq_true, if_false, h44, h41, h93, or_self,
    primaryexpr, h40, h91, false_and]
  cases atomp E cells (move r) with
  | none => rfl
  | some a => rfl

theorem applicativeexprp_ident (E : Env F) (hE : E.scansIntegers) (fuel : Nat)
    (cells : List (Cell F)) (r : result_t) (ishead : Bool) (t : List Nat)
    (ht : TokenAt E r.pos_end t) (hi : identifier t) :
    ∃ g, applicativeexprp E (fuel + 1) cells r ishead =
      if ishead = false then
        some (cells ++ g ++ [Cell.SymbolCell ⟨Base.input, r.pos_end⟩ ⟨Base.input, r.pos_end + t.length⟩],
          symbolresult (cells ++ g).length r t.length)
      else
        searchargs E (fun b cs x => applicativeexprp E fuel cs x b) (argloop E fuel)
          (cells ++ g ++ [Cell.SymbolCell ⟨Base.input, r.pos_end⟩ ⟨Base.input, r.pos_end + t.length⟩])
          (symbolresult (cells ++ g).length r t.length) := by
  obtain ⟨h1, h2, h3⟩ := tokenAt_first ht
  have ha := hi.2 _ h3
  have hq : E.inputAt r.pos_end ≠ 39 := by
    rw [h2]
    simp only [isalpha, Bool.or_eq_true, Bool.and_eq_true, decide_eq_true_eq] at ha
    omega
  obtain ⟨g, hg⟩ := atomp_symbol E hE cells (move r) t.length (tokenAt_symbolAt ht) (tokenAt_intstart ht hi)
  refine ⟨g, ?_⟩
  rw [applicativeexprp_atom E fuel cells r ishead h1 (h2 ▸ symchar_of_isalpha ha) hq, hg]
  have hc : ¬ ((((cells ++ g).length : Nat) : Int) < 0) := by omega
  simp only [move, hc, false_or, symbolresult]

/-! ## Plain argument collection -/

theorem spacedtail_length_cons (t : List Nat) (ts : List (List Nat)) :
    ((spacedtail (t :: ts)).length : Int) = 1 + t.length + (spacedtail ts).length := by
  simp only [spacedtail, List.length_cons, List.length_append]
  push_cast
  ring

/-- The loop of `applicativeexprp` on identifiers that follow one another after
single spaces: every one is appended to the chain, and the loop ends at the
closer without consuming it. Cells of the arena below `base` are not
touched. -/
theorem argloop_tokens (E : Env F) (hE : E.scansIntegers) :
    ∀ (ts : List (List Nat)) (fuel : Nat) (cells base : List (Cell F)) (h : result_t)
      (headcell tailcell : Int) (arg1 : result_t) (done : List (List Nat)),
      ts.length + 2 ≤ fuel → RestTokens E arg1.pos_end ts → h.col_start < arg1.col_end →
      SymbolChain E cells headcell done tailcell → base <+: cells →
      (base.length : Int) ≤ tailcell →
      ∃ cells1 tl,
        argloop E fuel cells h headcell tailcell arg1 false =
          some (cells1, result headcell h.pos_start (arg1.pos_end + (spacedtail ts).length)
            h.line_start arg1.line_end h.col_start (arg1.col_end + (spacedtail ts).length)) ∧
        SymbolChain E cells1 headcell (done ++ ts) tl ∧ base <+: cells1
  | [], fuel, cells, base, h, headcell, tailcell, arg1, done, hf, hrest, hcol, hch, hb, _ => by
    obtain ⟨f, rfl⟩ : ∃ f, fuel = f + 1 + 1 := ⟨fuel - 2, by simp at hf; omega⟩
    simp only [RestTokens] at hrest
    have hws : whitespacep E arg1 = move arg1 := by
      apply whitespacep_stop
      rcases hrest.2 with h1 | h1 | h1
      · exact Or.inl h1
      · right; rw [h1]; decide
      · right; rw [h1]; decide
    refine ⟨cells, tailcell, ?_, by simpa using hch, hb⟩
    rw [argloop, hws]
    have hcl := applicativeexprp_closer E f cells (move arg1)
      (false || decide ((move arg1).line_end > (move arg1).line_start)) (by simpa [move] using hrest.2)
    rw [hcl]
    have hcol2 : ¬ (move arg1).col_end ≤ h.col_start := by simp only [move]; omega
    simp [hcol2, move, spacedtail]
  | t :: ts, fuel, cells, base, h, headcell, tailcell, arg1, done, hf, hrest, hcol, hch, hb,
      hbt => by
    obtain ⟨f, rfl⟩ : ∃ f, fuel = f + 1 + 1 := ⟨fuel - 2, by simp at hf; omega⟩
    simp only [RestTokens] at hrest
    obtain ⟨_, hp1, h32, hid, htok, hrest1⟩ := hrest
    obtain ⟨hf1, hf2, hf3⟩ := tokenAt_first htok
    have hws : whitespacep E arg1 =
        { move arg1 with pos_end := arg1.pos_end + 1, col_end := arg1.col_end + 1 } := by
      apply whitespacep_space E arg1 hp1 h32
      right
      rw [hf2]
      exact blackchar_of_isalpha (hid.2 _ hf3)
    have htok2 : TokenAt E (whitespacep E arg1).pos_end t := by rw [hws]; exact htok
    have hflag : (false || decide ((whitespacep E arg1).line_end >
        (whitespacep E arg1).line_start)) = false := by
      rw [hws]; simp [move]
    obtain ⟨g, hparse⟩ := applicativeexprp_ident E hE f cells (whitespacep E arg1)
      (false || decide ((whitespacep E arg1).line_end > (whitespacep E arg1).line_start)) t htok2 hid
    rw [if_pos hflag] at hparse
    have hlast : E.inputAt (arg1.pos_end + 1 + t.length - 1) ≠ 44 := by
      have := hid.2 _ (tokenAt_last htok)
      simp only [isalpha, Bool.or_eq_true, Bool.and_eq_true, decide_eq_true_eq] at this
      omega
    -- the arena after the new argument is appended
    have hsym : IsSymbol E
        (cells ++ g ++ [Cell.SymbolCell ⟨Base.input, arg1.pos_end + 1⟩
          ⟨Base.input, arg1.pos_end + 1 + t.length⟩]) ((cells ++ g).length : Nat) t :=
      ⟨_, _, cellAt_append_length _ _ [], tokenAt_span htok⟩
    have hpre : cells <+: cells ++ g ++ [Cell.SymbolCell ⟨Base.input, arg1.pos_end + 1⟩
          ⟨Base.input, arg1.pos_end + 1 + t.length⟩] := by
      rw [List.append_assoc]
      exact List.prefix_append _ _
    have hch2 := symbolChain_snoc hsym _ _ (symbolChain_mono hpre _ _ hch)
    have hb2 := prefix_setTail tailcell
      ((cells ++ g ++ [Cell.SymbolCell ⟨Base.input, arg1.pos_end + 1⟩
          ⟨Base.input, arg1.pos_end + 1 + t.length⟩]).length : Nat)
      ((hb.trans hpre).trans (List.prefix_append _ [Cell.ConsCell ((cells ++ g).length : Nat) 0])) hbt
    have hlen := hb.length_le
    obtain ⟨cells1, tl, hrun, hch3, hb3⟩ := argloop_tokens E hE ts (f + 1) _ base h headcell
      ((cells ++ g ++ [Cell.SymbolCell ⟨Base.input, arg1.pos_end + 1⟩
          ⟨Base.input, arg1.pos_end + 1 + t.length⟩]).length : Nat)
      (symbolresult (cells ++ g).length (whitespacep E arg1) t.length) (done ++ [t])
      (by simp at hf ⊢; omega) (by simpa [symbolresult, hws] using hrest1)
      (by simp only [symbolresult, hws]; omega) hch2 hb2
      (by simp only [List.length_append, List.length_singleton]; omega)
    refine ⟨cells1, tl, ?_, by simpa using hch3, hb3⟩
    rw [argloop, hparse]
    have hcol2 : ¬ (whitespacep E arg1).col_end ≤ h.col_start := by rw [hws]; simp only; omega
    have hcol3 : (symbolresult (cells ++ g).length (whitespacep E arg1) t.length).col_start
        > h.col_start := by simp only [symbolresult, hws]; omega
    have hcell : (symbolresult (cells ++ g).length (whitespacep E arg1) t.length).cell ≥ 0 := by
      simp only [symbolresult]; omega
    have hpe : (symbolresult (cells ++ g).length (whitespacep E arg1) t.length).pos_end - 1
        = arg1.pos_end + 1 + t.length - 1 := by simp only [symbolresult, hws]
    simp only [hcol2, if_false, hcol3, hcell, and_self, if_true, hpe, hlast, decide_False, cons,
      newcell]
    simp only [hws] at hrun ⊢
    simp only [symbolresult] at hrun ⊢
    rw [hrun, spacedtail_length_cons]
    simp only [result, move, Option.some.injEq, Prod.mk.injEq, true_and, result_t.mk.injEq,
      and_true]
    constructor <;> ring

/-- An identifier in head context followed by one or more identifiers after
single spaces, up to the end of the input or a closing bracket:
`applicativeexprp` returns the chain of all of them and stops at the closer. -/
theorem applicativeexprp_tokens (E : Env F) (hE : E.scansIntegers) (t t1 : List Nat)
    (ts : List (List Nat)) (fuel : Nat) (cells : List (Cell F)) (r : result_t)
    (ht : TokenAt E r.pos_end t) (hi : identifier t)
    (hrest : RestTokens E (r.pos_end + t.length) (t1 :: ts)) (hf : ts.length + 3 ≤ fuel) :
    ∃ cells1 c tl,
      applicativeexprp E fuel cells r true =
        some (cells1, result c r.pos_end (r.pos_end + (spaced (t :: t1 :: ts)).length) r.line_end
          r.line_end r.col_end (r.col_end + (spaced (t :: t1 :: ts)).length)) ∧
      SymbolChain E cells1 c (t :: t1 :: ts) tl ∧ cells <+: cells1 := by
  obtain ⟨f, rfl⟩ : ∃ f, fuel = f + 1 + 1 := ⟨fuel - 2, by omega⟩
  obtain ⟨g, hhead⟩ := applicativeexprp_ident E hE (f + 1) cells r true t ht hi
  rw [if_neg (by simp)] at hhead
  simp only [RestTokens] at hrest
  obtain ⟨_, hp1, h32, hid, htok, hrest1⟩ := hrest
  obtain ⟨hf1, hf2, hf3⟩ := tokenAt_first htok
  have ha1 := hid.2 _ hf3
  -- the head and the arena after it
  generalize hcs : cells ++ g ++ [Cell.SymbolCell ⟨Base.input, r.pos_end⟩
    ⟨Base.input, r.pos_end + t.length⟩] = cs at hhead
  have hsymh : IsSymbol E cs ((cells ++ g).length : Nat) t := by
    rw [← hcs]
    exact ⟨_, _, cellAt_append_length _ _ [], tokenAt_span ht⟩
  have hpre : cells <+: cs := by
    rw [← hcs, List.append_assoc]
    exact List.prefix_append _ _
  have hcslen : 0 < cs.length := by rw [← hcs]; simp
  -- the white space after the head
  have hws : whitespacep E (symbolresult (cells ++ g).length r t.length) =
      { cell := -1, pos_start := r.pos_end + t.length, pos_end := r.pos_end + t.length + 1,
        line_start := r.line_end, line_end := r.line_end, col_start := r.col_end + t.length,
        col_end := r.col_end + t.length + 1 } := by
    rw [whitespacep_space E _ (by simpa [symbolresult] using hp1)
      (by simpa [symbolresult] using h32)
      (Or.inr (by simp only [symbolresult]; rw [hf2]; exact blackchar_of_isalpha ha1))]
    simp [move, symbolresult]
  -- the first argument
  have htok2 : TokenAt E (whitespacep E (symbolresult (cells ++ g).length r t.length)).pos_end t1 := by
    rw [hws]; exact htok
  obtain ⟨g1, harg⟩ := applicativeexprp_ident E hE f cs
    (whitespacep E (symbolresult (cells ++ g).length r t.length)) false t1 htok2 hid
  rw [if_pos rfl] at harg
  generalize hcs1 : cs ++ g1 ++ [Cell.SymbolCell
    ⟨Base.input, (whitespacep E (symbolresult (cells ++ g).length r t.length)).pos_end⟩
    ⟨Base.input, (whitespacep E (symbolresult (cells ++ g).length r t.length)).pos_end + t1.length⟩]
    = cs1 at harg
  have hsym1 : IsSymbol E cs1 ((cs ++ g1).length : Nat) t1 := by
    rw [← hcs1]
    refine ⟨_, _, cellAt_append_length _ _ [], ?_⟩
    rw [hws]
    exact tokenAt_span htok
  have hpre1 : cs <+: cs1 := by
    rw [← hcs1, List.append_assoc]
    exact List.prefix_append _ _
  have hlen1 : cs.length < cs1.length := by rw [← hcs1]; simp
  have hnop : isoperator E cs1 ((cs ++ g1).length : Nat) = false := isoperator_ident hsym1 hid
  -- the two cells of the chain and the loop
  have hp5 : cs1 <+: cs1 ++ [Cell.ConsCell ((cs ++ g1).length : Nat) 0] ++
      [Cell.ConsCell ((cells ++ g).length : Nat) (cs1.length : Nat)] := by
    rw [List.append_assoc]
    exact List.prefix_append _ _
  have hchain : SymbolChain E (cs1 ++ [Cell.ConsCell ((cs ++ g1).length : Nat) 0] ++
      [Cell.ConsCell ((cells ++ g).length : Nat) (cs1.length : Nat)])
      ((cs1 ++ [Cell.ConsCell ((cs ++ g1).length : Nat) 0]).length : Nat) [t, t1]
      (cs1.length : Nat) := by
    simp only [SymbolChain]
    refine ⟨by simp; omega, by simp, _, _, cellAt_append_length _ _ [],
      isSymbol_mono hp5 (isSymbol_mono hpre1 hsymh), rfl, by omega, _, ?_, isSymbol_mono hp5 hsym1⟩
    rw [List.append_assoc]
    exact cellAt_append_length _ _ _
  obtain ⟨cells1, tl, hrun, hch, hb⟩ := argloop_tokens E hE ts (f + 1) _ cells
    (symbolresult (cells ++ g).length r t.length) _ _
    (symbolresult (cs ++ g1).length (whitespacep E (symbolresult (cells ++ g).length r t.length))
      t1.length) [t, t1] (by omega) (by rw [hws]; simpa [symbolresult] using hrest1)
    (by rw [hws]; simp only [symbolresult]; omega) hchain ((hpre.trans hpre1).trans hp5)
    (by have := hpre.length_le; omega)
  refine ⟨cells1, _, tl, ?_, by simpa using hch, hb⟩
  rw [hhead, searchargs]
  have hc1 : ¬ ((whitespacep E (symbolresult (cells ++ g).length r t.length)).pos_end < E.input_size ∧
      E.inputAt (whitespacep E (symbolresult (cells ++ g).length r t.length)).pos_end = 44) := by
    rw [hws]
    simp only [hf2]
    simp only [isalpha, Bool.or_eq_true, Bool.and_eq_true, decide_eq_true_eq] at ha1
    omega
  have hc2 : ¬ ((whitespacep E (symbolresult (cells ++ g).length r t.length)).line_end >
      (whitespacep E (symbolresult (cells ++ g).length r t.length)).line_start) := by
    rw [hws]; simp
  simp only [hc1, hc2, if_false, false_and, decide_False, harg]
  have hcell : (symbolresult (cs ++ g1).length
      (whitespacep E (symbolresult (cells ++ g).length r t.length)) t1.length).cell
      = ((cs ++ g1).length : Nat) := rfl
  have hhcell : (symbolresult (cells ++ g).length r t.length).cell = ((cells ++ g).length : Nat) :=
    rfl
  have hge : (((cs ++ g1).length : Nat) : Int) ≥ 0 := by omega
  simp only [hcell, hhcell, hge, if_true, hnop, Bool.false_eq_true, if_false, cons, newcell]
  rw [hrun, hws]
  simp only [symbolresult, result, spaced, spacedtail, List.length_append, List.length_cons,
    Option.some.injEq, Prod.mk.injEq, true_and, result_t.mk.injEq, and_true]
  push_cast
  refine ⟨?_, ?_, ?_⟩
  · simp
  · ring
  · ring

/-! ## From the text of the input to its layout -/

theorem inputAt_append_cons {E : Env F} {pre suf : List Nat} {b : Nat}
    (hin : E.input = pre ++ b :: suf) :
    (pre.length : Int) < E.input_size ∧ E.inputAt (pre.length : Int) = b := by
  constructor
  · unfold Env.input_size
    rw [hin]
    simp
  · rw [inputAt_natCast, hin, List.append_assoc, List.getD_append_right _ _ _ _ (le_refl _)]
    simp

theorem restTokens_of_append {E : Env F} : ∀ (ts : List (List Nat)) (pre suf : List Nat),
    E.input = pre ++ spacedtail ts ++ suf → (∀ t ∈ ts, identifier t) →
    (suf = [] ∨ suf.head? = some 41 ∨ suf.head? = some 93) → RestTokens E (pre.length : Int) ts
  | [], pre, suf, hin, _, hsuf => by
    simp only [spacedtail, List.append_nil] at hin
    refine ⟨Int.natCast_nonneg _, ?_⟩
    cases suf with
    | nil =>
      left
      unfold Env.input_size
      rw [hin]
      simp
    | cons b suf =>
      right
      rw [(inputAt_append_cons hin).2]
      simpa using hsuf
  | t :: ts, pre, suf, hin, hid, hsuf => by
    have hin1 : E.input = pre ++ 32 :: (t ++ (spacedtail ts ++ suf)) := by
      rw [hin]; simp [spacedtail]
    have hin2 : E.input = (pre ++ [32]) ++ t ++ (spacedtail ts ++ suf) := by
      rw [hin]; simp [spacedtail]
    have hin3 : E.input = (pre ++ [32] ++ t) ++ spacedtail ts ++ suf := by
      rw [hin]; simp [spacedtail]
    have hidt := hid t (List.mem_cons_self _ _)
    have htok := tokenAt_of_append hin2 hidt.1 (fun b hb => symchar_of_isalpha (hidt.2 b hb)) (by
      cases ts with
      | nil =>
        rcases hsuf with h | h | h
        · left; simp [spacedtail, h]
        · right
          cases suf with
          | nil => simp at h
          | cons b suf =>
            simp only [List.head?_cons, Option.some.injEq] at h
            subst h
            simp [spacedtail, symchar, isbracket]
        · right
          cases suf with
          | nil => simp at h
          | cons b suf =>
            simp only [List.head?_cons, Option.some.injEq] at h
            subst h
            simp [spacedtail, symchar, isbracket]
      | cons t1 ts => right; simp [spacedtail, symchar, isspace])
    have ih := restTokens_of_append ts (pre ++ [32] ++ t) suf hin3
      (fun x hx => hid x (List.mem_cons_of_mem _ hx)) hsuf
    have e1 : (((pre ++ [32]).length : Nat) : Int) = (pre.length : Int) + 1 := by simp
    have e2 : (((pre ++ [32] ++ t).length : Nat) : Int) = (pre.length : Int) + 1 + t.length := by
      simp only [List.length_append, List.length_singleton]
      push_cast
      ring
    rw [e1] at htok
    rw [e2] at ih
    exact ⟨Int.natCast_nonneg _, (inputAt_append_cons hin1).1, (inputAt_append_cons hin1).2, hidt,
      htok, ih⟩

/-! ## The C library of the concrete runs -/

theorem takedigits_nil_of_head (s acc : List Nat) (h : isdigit (s.headD 0) = false) :
    (takedigits s acc).1 = acc := by
  cases s with
  | nil => rfl
  | cons b s =>
    simp only [List.headD_cons] at h
    simp [takedigits, h]

theorem clib_scansIntegers (input beyond : List Nat) : (clib input beyond).scansIntegers := by
  intro s hs
  show clib_scan_d s = none
  unfold intstart at hs
  cases hw : (skipspaces s 0).1 with
  | nil => simp [clib_scan_d, hw]
  | cons b t =>
    rw [hw] at hs
    simp only at hs
    by_cases hb : b = 43 ∨ b = 45
    · simp only [hb, if_true] at hs
      simp [clib_scan_d, hw, hb, takedigits_nil_of_head t [] hs]
    · simp only [hb, if_false] at hs
      simp [clib_scan_d, hw, hb, takedigits_nil_of_head (b :: t) [] (by simpa using hs)]

/-! ## C1: plain argument collection -/

/-- C1. Plain argument collection: when the whole input is two or more
identifiers (non-empty runs of ASCII letters) joined by single spaces,
`applicativeexprp` in head context from the start cursor returns, given fuel
for one call per token and one more, a handle that stands for the chain
`Pair (t0, Pair (t1, ... Pair (t(n-1), NIL)))` of symbols in source order,
with the cursor at the end of the input. -/
theorem plain_argument_collection [DecidableEq F] (E : Env F) (hE : E.scansIntegers)
    (tokens : List (List Nat)) (hn : 2 ≤ tokens.length) (hid : ∀ t ∈ tokens, identifier t)
    (hin : E.input = spaced tokens) (cells : List (Cell F)) (fuel : Nat)
    (hf : tokens.length + 1 ≤ fuel) :
    ∃ cells1 res, applicativeexprp E fuel cells start true = some (cells1, res) ∧
      denotes E cells1 (chain (tokens.map Tree.symbol)) res.cell = true ∧
      res.pos_end = E.input_size := by
  obtain ⟨t, t1, ts, rfl⟩ : ∃ t t1 ts, tokens = t :: t1 :: ts := by
    match tokens, hn with
    | t :: t1 :: ts, _ => exact ⟨t, t1, ts, rfl⟩
  have hidt := hid t (List.mem_cons_self _ _)
  have htok : TokenAt E start.pos_end t :=
    @tokenAt_of_append F E [] t (spacedtail (t1 :: ts)) (by simpa [spaced] using hin)
      hidt.1 (fun b hb => symchar_of_isalpha (hidt.2 b hb))
      (Or.inr (by simp [spacedtail, symchar, isspace]))
  have hrest : RestTokens E (start.pos_end + t.length) (t1 :: ts) := by
    have := @restTokens_of_append F E (t1 :: ts) t [] (by simpa [spaced] using hin)
      (fun x hx => hid x (List.mem_cons_of_mem _ hx)) (Or.inl rfl)
    simpa [start, result] using this
  obtain ⟨cells1, c, tl, hrun, hch, _⟩ := applicativeexprp_tokens E hE t t1 ts fuel cells start
    htok hidt hrest (by simp at hf; omega)
  refine ⟨cells1, _, hrun, symbolChain_denotes _ _ hch, ?_⟩
  simp [result, start, Env.input_size, hin]

/-- The run of C1 on the input `a b c`, and the text `(a b c)` that the
driver prints for it. -/
theorem plain_argument_collection_witness :
    (∃ cells1 res,
      applicativeexprp (clib (bytes "a b c") []) 4 nilArena start true = some (cells1, res) ∧
      denotes (clib (bytes "a b c") []) cells1
        (chain [Tree.symbol (bytes "a"), Tree.symbol (bytes "b"), Tree.symbol (bytes "c")])
        res.cell = true ∧
      res.pos_end = 5) ∧
    (ez2scmpass (clib (bytes "a b c") []) 8 nilArena start []).map (fun x => x.2.2)
      = some (bytes "(a b c)\n\n") :=
  ⟨plain_argument_collection (clib (bytes "a b c") []) (clib_scansIntegers _ _)
      [bytes "a", bytes "b", bytes "c"] (by decide) (by decide) (by decide) nilArena 4
      (by decide),
    by decide!⟩

/-! ## C9: the group production -/

/-- C9. Group production. At a `(`: when the white space behind it is followed
by `)`, `groupexprp` returns the empty-group outcome (`cell = -2`) with the
arena unchanged and the cursor just past the `)`; and when `applicativeexprp`
in head context parses an expression `e` there and the white space behind `e`
is followed by `)`, `groupexprp` returns the node of `e` itself, `pos_start`
at the `(` and `pos_end` just past the `)`. -/
theorem group_production (E : Env F) (fuel : Nat) (cells : List (Cell F)) (r : result_t)
    (hlt : r.pos_end < E.input_size) (hopen : E.inputAt r.pos_end = 40) :
    ((afteropen E r).pos_end < E.input_size → E.inputAt (afteropen E r).pos_end = 41 →
      groupexprp E (fuel + 2) cells r =
        some (cells, { move (afteropen E r) with
          cell := -2, pos_end := (afteropen E r).pos_end + 1,
          col_end := (afteropen E r).col_end + 1 })) ∧
    (∀ cells1 e, applicativeexprp E (fuel + 1) cells (afteropen E r) true = some (cells1, e) →
      0 ≤ e.cell → (whitespacep E e).pos_end < E.input_size →
      E.inputAt (whitespacep E e).pos_end = 41 →
      groupexprp E (fuel + 2) cells r =
        some (cells1, result e.cell r.pos_end ((whitespacep E e).pos_end + 1) r.line_end
          (whitespacep E e).line_end r.col_end ((whitespacep E e).col_end + 1))) := by
  have hnot : ¬ (r.pos_end ≥ E.input_size ∨ E.inputAt r.pos_end ≠ 40) := by
    rintro (h | h)
    · omega
    · exact h hopen
  constructor
  · intro h1 h2
    rw [groupexprp, if_neg hnot]
    have hcl := applicativeexprp_closer E fuel cells (afteropen E r) true (Or.inr (Or.inl h2))
    simp only [hcl]
    simp [move, h1, h2]
  · intro cells1 e he hcell h1 h2
    rw [groupexprp, if_neg hnot]
    simp only [he]
    simp [hcell, h1, h2]

/-- The two cases of C9 on the inputs `( )` and `(a b)`. -/
theorem group_production_witness :
    groupexprp (clib (bytes "( )") []) 2 nilArena start = some (nilArena, result (-2) 2 3 0 0 2 3) ∧
    (∃ cells1,
      applicativeexprp (clib (bytes "(a b)") []) 3 nilArena (afteropen (clib (bytes "(a b)") []) start)
        true = some (cells1, result 4 1 4 0 0 1 4) ∧
      groupexprp (clib (bytes "(a b)") []) 4 nilArena start = some (cells1, result 4 0 5 0 0 0 5)) := by
  constructor
  · rw [(group_production (clib (bytes "( )") []) 0 nilArena start (by decide!) (by decide!)).1
      (by decide!) (by decide!)]
    decide!
  · have he : applicativeexprp (clib (bytes "(a b)") []) 3 nilArena
        (afteropen (clib (bytes "(a b)") []) start) true =
        some (((applicativeexprp (clib (bytes "(a b)") []) 3 nilArena
          (afteropen (clib (bytes "(a b)") []) start) true).getD (nilArena, start)).1,
            result 4 1 4 0 0 1 4) := by
      decide!
    refine ⟨_, he, ?_⟩
    rw [(group_production (clib (bytes "(a b)") []) 2 nilArena start (by decide!) (by decide!)).2
      _ _ he (by decide!) (by decide!) (by decide!)]
    decide!

/-! ## C10: integer or floating-point number -/

/-- C10. Numeric tie-break. Where `sscanf` converts both an integer and a
floating-point number (and the arena holds the NIL cell), `atomp` returns
the cursor of `fractionalp` when its `pos_end` is strictly greater than that
of `intp`, and the cursor of `intp` otherwise; the cell of the first is the
`FractionalCell` and the cell of the second the `IntCell` that the two
recognisers stored. -/
theorem numeric_tie_break (E : Env F) (cells : List (Cell F)) (r : result_t)
    (hnil : 0 < cells.length) (i : Int) (n : Nat) (f : F) (m : Nat)
    (hd : E.scan_d (E.cstr r.pos_end) = some (i, n))
    (hlf : E.scan_lf (E.cstr r.pos_end) = some (f, m)) :
    atomp E cells r =
      some ((fractionalp E (intp E cells (move r)).1 (move r)).1,
        if (fractionalp E (intp E cells (move r)).1 (move r)).2.pos_end >
            (intp E cells (move r)).2.pos_end
        then (fractionalp E (intp E cells (move r)).1 (move r)).2
        else (intp E cells (move r)).2) ∧
    cellAt (fractionalp E (intp E cells (move r)).1 (move r)).1
      (fractionalp E (intp E cells (move r)).1 (move r)).2.cell = some (Cell.FractionalCell f) ∧
    cellAt (fractionalp E (intp E cells (move r)).1 (move r)).1
      (intp E cells (move r)).2.cell = some (Cell.IntCell i) ∧
    (intp E cells (move r)).2.pos_end = r.pos_end + n ∧
    (fractionalp E (intp E cells (move r)).1 (move r)).2.pos_end = r.pos_end + m := by
  have hi : intp E cells (move r) = (cells ++ [Cell.IntCell i],
      result cells.length r.pos_end (r.pos_end + n) r.line_end r.line_end r.col_end
        (r.col_end + n)) := by
    simp [intp, move, hd, newcell, result]
  have hf : ∀ cs, fractionalp E cs (move r) = (cs ++ [Cell.FractionalCell f],
      result cs.length r.pos_end (r.pos_end + m) r.line_end r.line_end r.col_end
        (r.col_end + m)) := by
    intro cs
    simp [fractionalp, move, hlf, newcell, result]
  have h1 : ((cells.length : Nat) : Int) > 0 := by omega
  have h2 : (((cells ++ [Cell.IntCell i]).length : Nat) : Int) > 0 := by
    simp only [List.length_append, List.length_singleton]; omega
  simp only [atomp, hi, hf]
  refine ⟨?_, ?_, ?_, rfl, rfl⟩
  · simp only [result, h1, h2, if_true]
    split <;> rfl
  · exact cellAt_append_length _ _ []
  · exact cellAt_append_left _ (cellAt_append_length _ _ [])

/-- The two cases of C10: `1.5` is a floating-point number and `15` an integer. -/
theorem numeric_tie_break_witness :
    (atomp (clib (bytes "1.5") []) nilArena start).map (fun x => (x.2.cell, x.2.pos_end)) =
      some (2, 3) ∧
    cellAt (fractionalp (clib (bytes "1.5") []) (intp (clib (bytes "1.5") []) nilArena
      (move start)).1 (move start)).1 2 = some (Cell.FractionalCell (bytes "1.5")) ∧
    (atomp (clib (bytes "15") []) nilArena start).map (fun x => (x.2.cell, x.2.pos_end)) =
      some (1, 2) ∧
    cellAt (fractionalp (clib (bytes "15") []) (intp (clib (bytes "15") []) nilArena
      (move start)).1 (move start)).1 1 = some (Cell.IntCell 15) := by
  have h1 := numeric_tie_break (clib (bytes "1.5") []) nilArena start (by decide) 1 1
    (bytes "1.5") 3 (by decide!) (by decide!)
  have h2 := numeric_tie_break (clib (bytes "15") []) nilArena start (by decide) 15 2
    (bytes "15") 2 (by decide!) (by decide!)
  refine ⟨?_, ?_, ?_, ?_⟩
  · rw [h1.1]; decide!
  · exact h1.2.1
  · rw [h2.1]; decide!
  · exact h2.2.2.1

/-! ## C7: indentation ends the argument list -/

/-- Where C7 as stated fails: on the input `a`, line break, `,` the primary
`a` (cell 1, column 0, end 1) is followed by white space that crosses the
line break and ends at column 0, and `applicativeexprp` returns the node of
`a` with `pos_end = 3`: the comma on the new line has been consumed. -/
theorem indentation_termination_comma :
    primaryexpr (clib (bytes "a\n,") []) (groupexprp (clib (bytes "a\n,") []) 2)
        (listexprp (clib (bytes "a\n,") []) 2) nilArena
        (lookahead (clib (bytes "a\n,") []) start).2.1
        (lookahead (clib (bytes "a\n,") []) start).1
        (lookahead (clib (bytes "a\n,") []) start).2.2
      = some ([Cell.ConsCell 0 0, Cell.SymbolCell ⟨Base.input, 0⟩ ⟨Base.input, 1⟩],
          result 1 0 1 0 0 0 1) ∧
    whitespacep (clib (bytes "a\n,") []) (result 1 0 1 0 0 0 1) = result (-1) 1 2 0 1 1 0 ∧
    applicativeexprp (clib (bytes "a\n,") []) 3 nilArena start true
      = some ([Cell.ConsCell 0 0, Cell.SymbolCell ⟨Base.input, 0⟩ ⟨Base.input, 1⟩],
          result 1 0 3 0 1 0 1) := by
  decide!

/-- C7, amended. Indentation termination. When `applicativeexprp` in head
context has parsed a primary `h` and the white space after `h` crosses a line
break and ends at a column `<=` the column at which `h` starts, then: if the
next byte is not `,` the result is `h` itself, arena and cursor unchanged; if
it is `,` the result is the node of `h` with the cursor just past the comma.
And in the loop that collects arguments, when the white space after the
argument `arg` ends at a column `<=` that of the head, the loop returns the
chain as it stands, the arena unchanged and `pos_end` the end of `arg`. -/
theorem indentation_termination (E : Env F) :
    (∀ (fuel : Nat) (cells cells2 : List (Cell F)) (r h : result_t),
      r.pos_end < E.input_size →
      (lookahead E r).1 ≠ 44 → (lookahead E r).1 ≠ 41 → (lookahead E r).1 ≠ 93 →
      primaryexpr E (groupexprp E fuel) (listexprp E fuel) cells (lookahead E r).2.1
        (lookahead E r).1 (lookahead E r).2.2 = some (cells2, h) →
      0 ≤ h.cell →
      (whitespacep E h).line_end > (whitespacep E h).line_start →
      (whitespacep E h).col_end ≤ h.col_start →
      (¬ ((whitespacep E h).pos_end < E.input_size ∧ E.inputAt (whitespacep E h).pos_end = 44) →
        applicativeexprp E (fuel + 1) cells r true = some (cells2, h)) ∧
      (((whitespacep E h).pos_end < E.input_size ∧ E.inputAt (whitespacep E h).pos_end = 44) →
        applicativeexprp E (fuel + 1) cells r true =
          some (cells2, result h.cell h.pos_start ((whitespacep E h).pos_end + 1) h.line_start
            (whitespacep E h).line_end h.col_start ((whitespacep E h).col_end + 1)))) ∧
    (∀ (fuel : Nat) (cells : List (Cell F)) (h : result_t) (headcell tailcell : Int)
      (arg : result_t) (ishead : Bool),
      (whitespacep E arg).col_end ≤ h.col_start →
      argloop E (fuel + 1) cells h headcell tailcell arg ishead =
        some (cells, result headcell h.pos_start arg.pos_end h.line_start arg.line_end
          h.col_start arg.col_end)) := by
  constructor
  · intro fuel cells cells2 r h hlt h44 h41 h93 hprim hcell hline hcol
    have hstep : applicativeexprp E (fuel + 1) cells r true =
        searchargs E (fun b cs x => applicativeexprp E fuel cs x b) (argloop E fuel) cells2 h := by
      rw [applicativeexprp, if_neg (by omega)]
      simp only [h44, h41, h93, or_self, if_false, hprim]
      rw [if_neg]
      rintro (hc | hc)
      · omega
      · cases hc
    rw [hstep, searchargs]
    constructor
    · intro hcomma
      simp only [hcomma, if_false]
      rw [if_pos ⟨hline, hcol⟩]
    · intro hcomma
      simp only [hcomma, and_self, if_true]
  · intro fuel cells h headcell tailcell arg ishead hcol
    rw [argloop]
    simp only [hcol, if_true]

/-- C7 at work: `b` on a new line at the column of `a` is left alone, a `,`
there is consumed, and in `a b`, line break, `c` the loop stops after `b`. -/
theorem indentation_termination_witness :
    applicativeexprp (clib (bytes "a\nb") []) 3 nilArena start true
      = some ([Cell.ConsCell 0 0, Cell.SymbolCell ⟨Base.input, 0⟩ ⟨Base.input, 1⟩],
          result 1 0 1 0 0 0 1) ∧
    applicativeexprp (clib (bytes "a\n,") []) 3 nilArena start true
      = some ([Cell.ConsCell 0 0, Cell.SymbolCell ⟨Base.input, 0⟩ ⟨Base.input, 1⟩],
          result 1 0 3 0 1 0 1) ∧
    argloop (clib (bytes "a b\nc") []) 1
        [Cell.ConsCell 0 0, Cell.SymbolCell ⟨Base.input, 0⟩ ⟨Base.input, 1⟩,
          Cell.SymbolCell ⟨Base.input, 2⟩ ⟨Base.input, 3⟩, Cell.ConsCell 2 0, Cell.ConsCell 1 3]
        (result 1 0 1 0 0 0 1) 4 3 (result 2 2 3 0 0 2 3) false
      = some ([Cell.ConsCell 0 0, Cell.SymbolCell ⟨Base.input, 0⟩ ⟨Base.input, 1⟩,
          Cell.SymbolCell ⟨Base.input, 2⟩ ⟨Base.input, 3⟩, Cell.ConsCell 2 0, Cell.ConsCell 1 3],
          result 4 0 3 0 0 0 3) ∧
    applicativeexprp (clib (bytes "a b\nc") []) 4 nilArena start true
      = some ([Cell.ConsCell 0 0, Cell.SymbolCell ⟨Base.input, 0⟩ ⟨Base.input, 1⟩,
          Cell.SymbolCell ⟨Base.input, 2⟩ ⟨Base.input, 3⟩, Cell.ConsCell 2 0, Cell.ConsCell 1 3],
          result 4 0 3 0 0 0 3) :=
  ⟨((indentation_termination (clib (bytes "a\nb") [])).1 2 nilArena _ start (result 1 0 1 0 0 0 1)
      (by decide!) (by decide!) (by decide!) (by decide!) (by decide!) (by decide!) (by decide!)
      (by decide!)).1 (by decide!),
    ((indentation_termination (clib (bytes "a\n,") [])).1 2 nilArena _ start (result 1 0 1 0 0 0 1)
      (by decide!) (by decide!) (by decide!) (by decide!) (by decide!) (by decide!) (by decide!)
      (by decide!)).2 (by decide!),
    (indentation_termination (clib (bytes "a b\nc") [])).2 0 _ (result 1 0 1 0 0 0 1) 4 3
      (result 2 2 3 0 0 2 3) false (by decide!),
    by decide!⟩

/-! ## Printing symbols and chains of symbols -/

theorem writeexpr_symbol (E : Env F) (cells : List (Cell F)) (fuel : Nat) (e : result_t)
    (out : List Nat) (n ne : Ptr) (hl : e.line_start = 0)
    (hc : cellAt cells e.cell = some (Cell.SymbolCell n ne)) :
    writeexpr E cells (fuel + 1) e out =
      some (result (-1) 0 0 0 0 e.col_start (e.col_start + (E.span n ne).length),
        out ++ E.span n ne) := by
  rw [writeexpr]
  simp [hl, hc, linebreaks, writesymbolexpr]

theorem writelistloop_chain (E : Env F) (cells : List (Cell F)) {tl : Int} :
    ∀ (ss : List (List Nat)) (list : Int) (fuel : Nat) (e0 e r : result_t) (out : List Nat),
      SymbolChain E cells list ss tl → e.line_start = 0 → ss.length + 1 ≤ fuel →
      ∃ r1, writelistloop E cells fuel e0 e r list out = some (r1, out ++ spaced ss ++ [41])
  | [], _, _, _, _, _, _, h, _, _ => by simp [SymbolChain] at h
  | [s], list, fuel, e0, e, r, out, h, hl, hf => by
    obtain ⟨f, rfl⟩ : ∃ f, fuel = f + 1 + 1 := ⟨fuel - 2, by simp at hf; omega⟩
    simp only [SymbolChain] at h
    obtain ⟨_, h0, x, hc, n, ne, hx, hs⟩ := h
    have hw := writeexpr_symbol E cells f { e with cell := x } out n ne hl hx
    have hhead : head cells list = x := by simp [head, hc]
    have htail : tail cells list = 0 := by simp [tail, hc]
    have hbr : breaksline cells x = some false := by simp [breaksline, hx]
    rw [writelistloop, if_pos h0]
    simp only [hc, hhead, htail, hw, hbr]
    simp only [ne_eq, not_true_eq_false, false_and, if_false, Bool.false_eq_true]
    rw [writelistloop]
    simp [spaced, spacedtail, hs]
  | s :: s' :: ss, list, fuel, e0, e, r, out, h, hl, hf => by
    obtain ⟨f, rfl⟩ : ∃ f, fuel = f + 1 := ⟨fuel - 1, by simp at hf; omega⟩
    simp only [SymbolChain] at h
    obtain ⟨h0, _, x, nx, hc, ⟨n, ne, hx, hs⟩, hrest⟩ := h
    have hnx : nx ≠ 0 := by
      cases ss with
      | nil => simp only [SymbolChain] at hrest; exact hrest.2.1
      | cons a ss => simp only [SymbolChain] at hrest; exact hrest.1
    obtain ⟨f1, rfl⟩ : ∃ f1, f = f1 + 1 := ⟨f - 1, by simp at hf; omega⟩
    have hw := writeexpr_symbol E cells f1 { e with cell := x } out n ne hl hx
    have hhead : head cells list = x := by simp [head, hc]
    have htail : tail cells list = nx := by simp [tail, hc]
    have hbr : breaksline cells x = some false := by simp [breaksline, hx]
    rw [writelistloop, if_pos h0]
    simp only [hc, hhead, htail, hw, hbr]
    simp only [ne_eq, hnx, not_false_eq_true, and_self, if_true, Bool.false_eq_true, if_false]
    have hout : out ++ spaced (s :: s' :: ss) ++ [41] =
        (out ++ E.span n ne ++ [32]) ++ spaced (s' :: ss) ++ [41] := by
      rw [hs]; simp [spaced, spacedtail]
    rw [hout]
    exact writelistloop_chain E cells (s' :: ss) nx (f1 + 1) e0 _ _ _ hrest rfl
      (by simp at hf ⊢; omega)

/-- A chain of symbols is printed as `(`, the names separated by single
spaces, `)`. -/
theorem writeexpr_chain (E : Env F) (cells : List (Cell F)) (ss : List (List Nat)) (c tl : Int)
    (h : SymbolChain E cells c ss tl) (fuel : Nat) (hf : ss.length + 3 ≤ fuel) (e : result_t)
    (he : e.cell = c) (hl : e.line_start = 0) (out : List Nat) :
    ∃ r1, writeexpr E cells fuel e out = some (r1, out ++ 40 :: spaced ss ++ [41]) := by
  obtain ⟨f, rfl⟩ : ∃ f, fuel = f + 1 + 1 := ⟨fuel - 2, by omega⟩
  have hc : ∃ x n, cellAt cells c = some (Cell.ConsCell x n) := by
    match ss, h with
    | [s], h =>
      simp only [SymbolChain] at h
      obtain ⟨_, _, x, hx, _⟩ := h
      exact ⟨x, 0, hx⟩
    | s :: s' :: ss, h =>
      simp only [SymbolChain] at h
      obtain ⟨_, _, x, n, hx, _⟩ := h
      exact ⟨x, n, hx⟩
  obtain ⟨x, n, hc⟩ := hc
  rw [writeexpr]
  simp only [hl, he, hc, linebreaks]
  rw [writelistexpr]
  obtain ⟨r1, hr1⟩ := writelistloop_chain E cells ss c f
    { e with line_start := 0 }
    { ({ e with line_start := 0 } : result_t) with
      col_start := ({ e with line_start := 0 } : result_t).col_start + 1, line_start := 0 }
    { ({ e with line_start := 0 } : result_t) with
      line_start := 0, line_end := ({ e with line_start := 0 } : result_t).line_start,
      col_start := ({ e with line_start := 0 } : result_t).col_start,
      col_end := ({ e with line_start := 0 } : result_t).col_start + 1 }
    (out ++ [40]) h rfl (by omega)
  refine ⟨r1, ?_⟩
  simp only [he] at hr1
  simp only [lt_self_iff_false, if_false, Int.toNat_zero, List.replicate_zero, List.append_nil]
  simp only [List.append_assoc, List.singleton_append, List.cons_append] at hr1 ⊢
  exact hr1

/-! ## What follows a primary at a closer -/

theorem searchargs_closer (E : Env F) (f : Nat)
    (loop : List (Cell F) → result_t → Int → Int → result_t → Bool →
      Option (List (Cell F) × result_t))
    (cells : List (Cell F)) (h : result_t)
    (hc : E.input_size ≤ h.pos_end ∨ E.inputAt h.pos_end = 41 ∨ E.inputAt h.pos_end = 93) :
    searchargs E (fun b cs x => applicativeexprp E (f + 1) cs x b) loop cells h = some (cells, h) := by
  have hws : whitespacep E h = move h := by
    apply whitespacep_stop
    rcases hc with h1 | h1 | h1
    · exact Or.inl h1
    · right; rw [h1]; decide
    · right; rw [h1]; decide
  have hcomma : ¬ ((move h).pos_end < E.input_size ∧ E.inputAt (move h).pos_end = 44) := by
    simp only [move]
    rintro ⟨h1, h2⟩
    rcases hc with h3 | h3 | h3 <;> omega
  have hcl := applicativeexprp_closer E f cells (move h)
    (decide ((move h).line_end > (move h).line_start)) (by simpa [move] using hc)
  rw [searchargs, hws]
  simp only [hcomma, if_false, hcl]
  simp [move]

theorem groupexprp_empty (E : Env F) (fuel : Nat) (cells : List (Cell F)) (r : result_t)
    (hlt : r.pos_end + 1 < E.input_size) (h40 : E.inputAt r.pos_end = 40)
    (h41 : E.inputAt (r.pos_end + 1) = 41) :
    groupexprp E (fuel + 2) cells r =
      some (cells, result (-2) (r.pos_end + 1) (r.pos_end + 2) r.line_end r.line_end
        (r.col_end + 1) (r.col_end + 2)) := by
  have hopen : afteropen E r =
      result (-1) (r.pos_end + 1) (r.pos_end + 1) r.line_end r.line_end (r.col_end + 1)
        (r.col_end + 1) := by
    unfold afteropen
    rw [whitespacep_stop]
    · simp [move, result]
    · right
      simp only [move, h41]
      decide
  have hnot : ¬ (r.pos_end ≥ E.input_size ∨ E.inputAt r.pos_end ≠ 40) := by
    rintro (h | h)
    · omega
    · exact h h40
  have hcl := applicativeexprp_closer E fuel cells (afteropen E r) true
    (Or.inr (Or.inl (by rw [hopen]; simpa [result] using h41)))
  rw [groupexprp, if_neg hnot]
  simp only [hcl]
  rw [hopen]
  simp only [move, result]
  have h1 : ¬ ((-1 : Int) ≥ 0) := by omega
  simp only [h1, if_false, hlt, h41, and_self, if_true]
  simp only [Option.some.injEq, Prod.mk.injEq, true_and, result_t.mk.injEq, and_true]
  omega

theorem applicativeexprp_emptygroup (E : Env F) (fuel : Nat) (cells : List (Cell F))
    (r : result_t) (b : Bool) (hlt : r.pos_end + 1 < E.input_size)
    (h40 : E.inputAt r.pos_end = 40) (h41 : E.inputAt (r.pos_end + 1) = 41) :
    applicativeexprp E (fuel + 3) cells r b =
      some (cells, result (-2) (r.pos_end + 1) (r.pos_end + 2) r.line_end r.line_end
        (r.col_end + 1) (r.col_end + 2)) := by
  have hg := groupexprp_empty E fuel cells (move r) (by simpa [move] using hlt)
    (by simpa [move] using h40) (by simpa [move] using h41)
  rw [applicativeexprp, if_neg (by omega)]
  simp only [lookahead, h40]
  simp only [Nat.reduceEqDiff, decide_False, Bool.false_eq_true, if_false, or_self, primaryexpr,
    if_true, hg, false_and]
  simp [result, move]

/-! ## C4: the dotted tail -/

/-- C4, the run that breaks it. The input `a : b` is parsed to the node
`Pair (a, b)`, whose `right` is the symbol `b`, and the driver prints for it
the text `(a  . b` (two spaces before the dot, no closing parenthesis),
followed by its two newlines: `writelistexpr` writes a space after `a` because
the rest of the list is not NIL, then `" . "`, and returns after the tail
without reaching the `fputc (')', out)` behind the loop. -/
theorem dotted_tail_unclosed :
    (applicativeexprp (clib (bytes "a : b") []) 8 nilArena start true).map
        (fun x => denotes (clib (bytes "a : b") []) x.1
          (Tree.pair (Tree.symbol (bytes "a")) (Tree.symbol (bytes "b"))) x.2.cell)
      = some true ∧
    (ez2scmpass (clib (bytes "a : b") []) 8 nilArena start []).map (fun x => x.2.2)
      = some (bytes "(a  . b\n\n") := by
  decide!

/-! ## C5: a call without arguments -/

/-- C5. Bare-call detection: when the whole input is an identifier `f`
followed by `()`, `applicativeexprp` in head context returns a handle that
stands for `Pair (Symbol f, NIL)`, with the cursor just past the `)`, and
`writeexpr` prints that node as `(f)`. -/
theorem bare_call [DecidableEq F] (E : Env F) (hE : E.scansIntegers) (f : List Nat)
    (hi : identifier f) (hin : E.input = f ++ [40, 41]) (cells : List (Cell F)) (fuel : Nat)
    (hf : 4 ≤ fuel) :
    ∃ cells1 res, applicativeexprp E fuel cells start true = some (cells1, res) ∧
      denotes E cells1 (Tree.pair (Tree.symbol f) Tree.nil) res.cell = true ∧
      res.pos_end = E.input_size ∧
      ∀ out, ∃ r1, writeexpr E cells1 fuel (result res.cell 0 0 0 0 0 0) out =
        some (r1, out ++ 40 :: f ++ [41]) := by
  obtain ⟨k, rfl⟩ : ∃ k, fuel = k + 3 + 1 := ⟨fuel - 4, by omega⟩
  have htok : TokenAt E start.pos_end f :=
    @tokenAt_of_append F E [] f [40, 41] (by simpa using hin) hi.1
      (fun b hb => symchar_of_isalpha (hi.2 b hb)) (Or.inr (by decide))
  have hsize : E.input_size = f.length + 2 := by
    simp [Env.input_size, hin]
  have h40 : E.inputAt (f.length : Int) = 40 :=
    (@inputAt_append_cons F E f [41] 40 (by simpa using hin)).2
  have h41 : E.inputAt ((f.length : Int) + 1) = 41 := by
    have := (@inputAt_append_cons F E (f ++ [40]) [] 41 (by simpa using hin)).2
    simpa using this
  obtain ⟨g, hhead⟩ := applicativeexprp_ident E hE (k + 3) cells start true f htok hi
  rw [if_neg (by simp)] at hhead
  generalize hcs : cells ++ g ++ [Cell.SymbolCell ⟨Base.input, start.pos_end⟩
    ⟨Base.input, start.pos_end + f.length⟩] = cs at hhead
  have hsym : IsSymbol E cs ((cells ++ g).length : Nat) f := by
    rw [← hcs]
    exact ⟨_, _, cellAt_append_length _ _ [], tokenAt_span htok⟩
  have hws : whitespacep E (symbolresult (cells ++ g).length start f.length) =
      move (symbolresult (cells ++ g).length start f.length) := by
    apply whitespacep_stop
    right
    simp only [symbolresult, start, result, zero_add, h40]
    decide
  have hgroup := applicativeexprp_emptygroup E k cs
    (move (symbolresult (cells ++ g).length start f.length)) false
    (by simp only [move, symbolresult, start, result]; omega)
    (by simpa [move, symbolresult, start, result] using h40)
    (by simpa [move, symbolresult, start, result] using h41)
  have hchain : SymbolChain E (cs ++ [Cell.ConsCell ((cells ++ g).length : Nat) 0])
      (cs.length : Nat) [f] (cs.length : Nat) := by
    simp only [SymbolChain]
    have : 0 < cs.length := by rw [← hcs]; simp
    exact ⟨trivial, by omega, _, cellAt_append_length _ _ [],
      isSymbol_mono (List.prefix_append _ _) hsym⟩
  refine ⟨cs ++ [Cell.ConsCell ((cells ++ g).length : Nat) 0],
    result cs.length 0 (f.length + 2) 0 0 0 (f.length + 2), ?_, ?_, ?_, ?_⟩
  · rw [hhead, searchargs, hws]
    have hc1 : ¬ ((move (symbolresult (cells ++ g).length start f.length)).pos_end < E.input_size ∧
        E.inputAt (move (symbolresult (cells ++ g).length start f.length)).pos_end = 44) := by
      simp only [move, symbolresult, start, result, zero_add, h40]
      omega
    have hc2 : ¬ ((move (symbolresult (cells ++ g).length start f.length)).line_end >
        (move (symbolresult (cells ++ g).length start f.length)).line_start) := by
      simp [move]
    simp only [hc1, hc2, if_false, false_and, decide_False, hgroup]
    simp [result, move, symbolresult, start, cons, newcell]
  · have := symbolChain_denotes _ _ hchain
    simpa [chain, result] using this
  · simp [result, hsize]
  · intro out
    obtain ⟨r1, hr1⟩ := writeexpr_chain E _ [f] _ _ hchain (k + 3 + 1) (by simp) 
      (result cs.length 0 0 0 0 0 0) rfl rfl out
    exact ⟨r1, by simpa [spaced, spacedtail, result] using hr1⟩

/-- The run of C5 on the input `f()`. -/
theorem bare_call_witness :
    ∃ cells1 res,
      applicativeexprp (clib (bytes "f()") []) 4 nilArena start true = some (cells1, res) ∧
      denotes (clib (bytes "f()") []) cells1 (Tree.pair (Tree.symbol (bytes "f")) Tree.nil)
        res.cell = true ∧
      res.pos_end = (clib (bytes "f()") []).input_size ∧
      ∀ out, ∃ r1, writeexpr (clib (bytes "f()") []) cells1 4 (result res.cell 0 0 0 0 0 0) out =
        some (r1, out ++ 40 :: bytes "f" ++ [41]) :=
  bare_call (clib (bytes "f()") []) (clib_scansIntegers _ _) (bytes "f") (by decide) (by decide)
    nilArena 4 (by decide)

/-! ## C8: the quote mark -/

/-- C8. Quote: when the whole input is a quote mark followed by an identifier
`t`, `applicativeexprp` (in head context or not) returns a handle that stands
for `Quoted (Symbol t)`, and `writeexpr` prints that node as the quote mark
followed by `t`. -/
theorem quote_preserved [DecidableEq F] (E : Env F) (hE : E.scansIntegers) (t : List Nat)
    (hi : identifier t) (hin : E.input = 39 :: t) (cells : List (Cell F)) (ishead : Bool)
    (fuel : Nat) (hf : 2 ≤ fuel) :
    ∃ cells1 res, applicativeexprp E fuel cells start ishead = some (cells1, res) ∧
      denotes E cells1 (Tree.quoted (Tree.symbol t)) res.cell = true ∧
      ∀ out, ∃ r1, writeexpr E cells1 fuel (result res.cell 0 0 0 0 0 0) out =
        some (r1, out ++ 39 :: t) := by
  obtain ⟨k, rfl⟩ : ∃ k, fuel = k + 1 + 1 := ⟨fuel - 2, by omega⟩
  have htok : TokenAt E 1 t := by
    simpa using @tokenAt_of_append F E [39] t [] (by simpa using hin) hi.1
      (fun b hb => symchar_of_isalpha (hi.2 b hb)) (Or.inl rfl)
  obtain ⟨hf1, hf2, hf3⟩ := tokenAt_first htok
  have ha := hi.2 _ hf3
  have ha2 := ha
  simp only [isalpha, Bool.or_eq_true, Bool.and_eq_true, decide_eq_true_eq] at ha2
  have h39 : E.inputAt 0 = 39 := by
    simpa using (@inputAt_append_cons F E [] t 39 (by simpa using hin)).2
  have hsize : E.input_size = t.length + 1 := by
    simp [Env.input_size, hin]
  have hla : lookahead E start = (t.headD 0, result (-1) 0 1 0 0 0 1, true) := by
    simp [lookahead, start, result, move, h39, hf2]
  obtain ⟨g, hg⟩ := atomp_symbol E hE cells (result (-1) 0 1 0 0 0 1) t.length
    (tokenAt_symbolAt htok) (tokenAt_intstart htok hi)
  simp only [result] at hg
  generalize hcs : cells ++ g ++ [Cell.SymbolCell ⟨Base.input, 1⟩ ⟨Base.input, 1 + t.length⟩] = cs
    at hg
  have hsym : cellAt cs ((cells ++ g).length : Nat) =
      some (Cell.SymbolCell ⟨Base.input, 1⟩ ⟨Base.input, 1 + t.length⟩) := by
    rw [← hcs]
    exact cellAt_append_length _ _ []
  have hcslt : (cells ++ g).length < cs.length := by rw [← hcs]; simp
  have hstep : applicativeexprp E (k + 1 + 1) cells start ishead =
      some (cs ++ [Cell.QuoteCell ((cells ++ g).length : Nat)],
        result cs.length 1 (1 + t.length) 0 0 1 (1 + t.length)) := by
    have hsz : ¬ start.pos_end ≥ E.input_size := by simp [start, result, hsize]
    rw [applicativeexprp, if_neg hsz, hla]
    have h44 : t.headD 0 ≠ 44 := by omega
    have h41 : ¬ (t.headD 0 = 41 ∨ t.headD 0 = 93) := by omega
    have h40 : t.headD 0 ≠ 40 := by omega
    have h91 : t.headD 0 ≠ 91 := by omega
    simp only [h44, h41, if_false, primaryexpr, h40, h91, result, hg]
    have hge : (((cells ++ g).length : Nat) : Int) ≥ 0 := by omega
    simp only [hge, and_self, if_true, quote, newcell]
    cases ishead with
    | false => simp
    | true =>
      have hcell : ¬ ((cs.length : Int) < 0) := by omega
      simp only [hcell, Bool.true_eq_false, or_self, if_false]
      rw [searchargs_closer _ _ _ _ _ (Or.inl (by simp only [hsize]; omega))]
  refine ⟨_, _, hstep, ?_, ?_⟩
  · have hq : cellAt (cs ++ [Cell.QuoteCell ((cells ++ g).length : Nat)]) cs.length =
        some (Cell.QuoteCell ((cells ++ g).length : Nat)) := cellAt_append_length _ _ []
    have hs2 := cellAt_append_left [Cell.QuoteCell ((cells ++ g).length : Nat)] hsym
    have hspan := tokenAt_span htok
    simp only [denotes, result, hq, hs2, hspan, decide_True]
  · intro out
    have hq : cellAt (cs ++ [Cell.QuoteCell ((cells ++ g).length : Nat)]) cs.length =
        some (Cell.QuoteCell ((cells ++ g).length : Nat)) := cellAt_append_length _ _ []
    have hs2 := cellAt_append_left [Cell.QuoteCell ((cells ++ g).length : Nat)] hsym
    have hw := writeexpr_symbol E (cs ++ [Cell.QuoteCell ((cells ++ g).length : Nat)]) k
      (result ((cells ++ g).length : Nat) 0 0 0 0 0 0) (out ++ [39]) _ _ rfl hs2
    rw [tokenAt_span htok] at hw
    refine ⟨result (-1) 0 0 0 0 0 (0 + t.length), ?_⟩
    rw [writeexpr]
    simp only [result, hq, linebreaks]
    simp only [result] at hw
    simp only [lt_self_iff_false, if_false, Int.toNat_zero, List.replicate_zero, List.append_nil]
    rw [hw]
    simp

/-- The run of C8 on the input `'a`, in head context. -/
theorem quote_preserved_witness :
    ∃ cells1 res,
      applicativeexprp (clib (bytes "'a") []) 2 nilArena start true = some (cells1, res) ∧
      denotes (clib (bytes "'a") []) cells1 (Tree.quoted (Tree.symbol (bytes "a"))) res.cell
        = true ∧
      ∀ out, ∃ r1, writeexpr (clib (bytes "'a") []) cells1 2 (result res.cell 0 0 0 0 0 0) out =
        some (r1, out ++ 39 :: bytes "a") :=
  quote_preserved (clib (bytes "'a") []) (clib_scansIntegers _ _) (bytes "a") (by decide)
    (by decide) nilArena true 2 (by decide)

/-! ## Operators -/

theorem headD_cstr (E : Env F) (q : Int) (hq : 0 ≤ q) : (E.cstr q).headD 0 = E.inputAt q := by
  rw [inputAt_of_nonneg E q hq]
  unfold Env.cstr
  rw [if_neg (by omega)]
  simp [List.headD_eq_head?_getD, List.getD_eq_getElem?_getD]

theorem tokenAt_intstart_operator {E : Env F} {p : Int} {op : List Nat} (h : TokenAt E p op)
    (hop : ∀ b ∈ op, isalnum b = false)
    (hnext : isdigit (E.inputAt (p + op.length)) = false) : intstart (E.cstr p) = false := by
  obtain ⟨h1, h2, h3⟩ := tokenAt_first h
  have hd : ∀ b ∈ op, isdigit b = false := by
    intro b hb
    have := hop b hb
    simp only [isalnum, Bool.or_eq_false_iff] at this
    exact this.2
  rw [cstr_cons E p h.nonneg h1, h2]
  apply intstart_of_symchar _ _ (h.symchars _ h3) (hd _ h3)
  intro _
  rw [headD_cstr E (p + 1) (by have := h.nonneg; omega)]
  by_cases hl : 1 < op.length
  · have := (h.read 1 hl).2
    simp only [Nat.cast_one] at this
    rw [this, List.getD_eq_getElem _ _ hl]
    exact hd _ (List.getElem_mem _)
  · have hlen : op.length = 1 := by
      have := List.length_pos.mpr h.nonempty
      omega
    rw [hlen] at hnext
    simpa using hnext

theorem applicativeexprp_token (E : Env F) (hE : E.scansIntegers) (fuel : Nat)
    (cells : List (Cell F)) (r : result_t) (t : List Nat) (ht : TokenAt E r.pos_end t)
    (hq : t.headD 0 ≠ 39) (hint : intstart (E.cstr r.pos_end) = false) :
    ∃ g, applicativeexprp E (fuel + 1) cells r false =
      some (cells ++ g ++ [Cell.SymbolCell ⟨Base.input, r.pos_end⟩ ⟨Base.input, r.pos_end + t.length⟩],
        symbolresult (cells ++ g).length r t.length) := by
  obtain ⟨h1, h2, h3⟩ := tokenAt_first ht
  obtain ⟨g, hg⟩ := atomp_symbol E hE cells (move r) t.length (tokenAt_symbolAt ht) hint
  refine ⟨g, ?_⟩
  rw [applicativeexprp_atom E fuel cells r false h1 (h2 ▸ ht.symchars _ h3) (h2 ▸ hq), hg]
  simp only [move, or_true, if_true, symbolresult]

theorem isoperator_token {E : Env F} {cells : List (Cell F)} {x p : Int} {op : List Nat}
    (hc : cellAt cells x = some (Cell.SymbolCell ⟨Base.input, p⟩ ⟨Base.input, p + op.length⟩))
    (hspan : E.span ⟨Base.input, p⟩ ⟨Base.input, p + op.length⟩ = op) (hne : op ≠ [])
    (hop : ∀ b ∈ op, isalnum b = false ∧ b ≠ 95) : isoperator E cells x = true := by
  rw [isoperator_all]
  rw [hc]
  have hlen := List.length_pos.mpr hne
  have hgt : p + (op.length : Int) > p := by omega
  simp only [hgt, if_true, hspan, List.all_eq_true]
  intro b hb
  have := hop b hb
  simp [this.1, this.2]

theorem celltextcmp_token {E : Env F} {cells : List (Cell F)} {x p : Int} {op : List Nat}
    (hc : cellAt cells x = some (Cell.SymbolCell ⟨Base.input, p⟩ ⟨Base.input, p + op.length⟩))
    (hspan : E.span ⟨Base.input, p⟩ ⟨Base.input, p + op.length⟩ = op) (lit : List Nat) :
    celltextcmp E cells x lit = some (strncmp op lit op.length) := by
  unfold celltextcmp
  rw [hc]
  have e : (p + (op.length : Int) - p).toNat = op.length := by omega
  simp only [hspan, e]

/-- On a text without a NUL byte, `strncmp` over the length of the text is 0
exactly when the text is a prefix of the literal. -/
theorem strncmp_eq_zero_iff : ∀ (a lit : List Nat), 0 ∉ a →
    (strncmp a lit a.length = 0 ↔ a <+: lit)
  | [], lit, _ => by simp [strncmp]
  | x :: a, lit, h0 => by
    have hx : x ≠ 0 := fun h => h0 (by simp [h])
    have h0a : 0 ∉ a := fun h => h0 (List.mem_cons_of_mem _ h)
    cases lit with
    | nil =>
      simp only [List.length_cons, strncmp, List.headD_cons, List.headD_nil, ne_eq, hx,
        not_false_eq_true, if_true]
      constructor
      · intro h; omega
      · intro h; simp at h
    | cons y lit =>
      have ih := strncmp_eq_zero_iff a lit h0a
      simp only [List.length_cons, strncmp, List.headD_cons, List.tail_cons, ne_eq]
      by_cases hxy : x = y
      · subst hxy
        simp only [not_true_eq_false, if_false, hx, ih]
        constructor
        · intro h; exact (List.cons_prefix_cons.mpr ⟨rfl, h⟩)
        · intro h; exact (List.cons_prefix_cons.mp h).2
      · simp only [hxy, not_false_eq_true, if_true]
        constructor
        · intro h; omega
        · intro h; exact absurd (List.cons_prefix_cons.mp h).1 hxy

theorem denotes_nil [DecidableEq F] (E : Env F) (cells : List (Cell F)) :
    denotes E cells Tree.nil 0 = true := by
  simp [denotes]

theorem denotes_cons [DecidableEq F] {E : Env F} {cells : List (Cell F)} {a b : Tree F}
    {x y : Int} (hlen : 0 < cells.length) (ha : denotes E cells a x = true)
    (hb : denotes E cells b y = true) :
    denotes E (cells ++ [Cell.ConsCell x y]) (Tree.pair a b) cells.length = true := by
  have hp : cells <+: cells ++ [Cell.ConsCell x y] := List.prefix_append _ _
  have h1 := denotes_mono hp a x ha
  have h2 := denotes_mono hp b y hb
  have hne : ((cells.length : Nat) : Int) ≠ 0 := by omega
  rw [denotes, cellAt_append_length cells _ []]
  simp [h1, h2, hne]

theorem prefix_one {op : List Nat} {a : Nat} (h : op <+: [a]) : op = [] ∨ op = [a] := by
  cases op with
  | nil => exact Or.inl rfl
  | cons x op =>
    right
    obtain ⟨rfl, h2⟩ := List.cons_prefix_cons.mp h
    rw [List.prefix_nil.mp h2]

theorem prefix_two {op : List Nat} {a b : Nat} (h : op <+: [a, b]) :
    op = [] ∨ op = [a] ∨ op = [a, b] := by
  cases op with
  | nil => exact Or.inl rfl
  | cons x op =>
    right
    obtain ⟨rfl, h2⟩ := List.cons_prefix_cons.mp h
    rcases prefix_one h2 with rfl | rfl
    · exact Or.inl rfl
    · exact Or.inr rfl

/-- The node that `operatorcombine` builds from three symbols stands for the
tree that the text of the operator selects, when that text has no NUL byte. -/
theorem operatorcombine_tree [DecidableEq F] (E : Env F) (cells : List (Cell F))
    (h arg1 arg2 : result_t) (p op s : List Nat) (q : Int) (hne : op ≠ []) (hnul : 0 ∉ op)
    (hp : IsSymbol E cells h.cell p) (hs : IsSymbol E cells arg2.cell s)
    (hc : cellAt cells arg1.cell =
      some (Cell.SymbolCell ⟨Base.input, q⟩ ⟨Base.input, q + op.length⟩))
    (hspan : E.span ⟨Base.input, q⟩ ⟨Base.input, q + op.length⟩ = op) :
    ∃ cells1 c, operatorcombine E cells h arg1 arg2 =
        some (cells1, result c h.pos_start arg2.pos_end h.line_start arg2.line_end h.col_start
          arg2.col_end) ∧
      denotes E cells1 (operatortree p op s) c = true := by
  have hlen : 0 < cells.length := by
    obtain ⟨_, _, h1, _⟩ := hp
    have := cellAt_some h1
    omega
  have hdp := isSymbol_denotes hp
  have hds := isSymbol_denotes hs
  have hdo : denotes E cells (Tree.symbol op) arg1.cell = true := isSymbol_denotes ⟨_, _, hc, hspan⟩
  have hcmp := fun lit => celltextcmp_token hc hspan lit
  have hz := fun lit => strncmp_eq_zero_iff op lit hnul
  unfold operatorcombine
  simp only [hcmp]
  by_cases h1 : op = [58]
  · have hk : strncmp op [58] op.length = 0 := by rw [h1]; decide
    simp only [hk, if_true, cons, newcell]
    refine ⟨_, _, rfl, ?_⟩
    simp only [operatortree, h1, if_true]
    exact denotes_cons hlen hdp hds
  · have hk1 : strncmp op [58] op.length ≠ 0 := by
      intro hk
      rcases prefix_one ((hz _).mp hk) with h | h
      · exact hne h
      · exact h1 h
    simp only [hk1, if_false]
    have hl1 : 0 < (cells ++ [Cell.ConsCell arg2.cell 0]).length := by simp
    have hm1 : cells <+: cells ++ [Cell.ConsCell arg2.cell 0] := List.prefix_append _ _
    by_cases h2 : op = [58, 58]
    · have hk : strncmp op [58, 58] op.length = 0 := by rw [h2]; decide
      simp only [hk, if_true, cons, newcell]
      refine ⟨_, _, rfl, ?_⟩
      simp only [operatortree, h1, h2, if_true, if_false, chain]
      exact denotes_cons hl1 (denotes_mono hm1 _ _ hdp)
        (denotes_cons hlen hds (denotes_nil E cells))
    · have hk2 : strncmp op [58, 58] op.length ≠ 0 := by
        intro hk
        rcases prefix_two ((hz _).mp hk) with h | h | h
        · exact hne h
        · exact h1 h
        · exact h2 h
      simp only [hk2, if_false]
      by_cases h3 : op = [58, 61]
      · have hk : strncmp op [58, 61] op.length = 0 := by rw [h3]; decide
        simp only [hk, if_true, cons, newcell, csymbol]
        refine ⟨_, _, rfl, ?_⟩
        simp only [operatortree, h1, h2, h3, if_true, if_false, chain]
        have hdef : denotes E (cells ++ [Cell.SymbolCell ⟨Base.literal [100, 101, 102, 105, 110, 101], 0⟩
            ⟨Base.literal [100, 101, 102, 105, 110, 101],
              (([100, 101, 102, 105, 110, 101] : List Nat).length : Nat)⟩])
            (Tree.symbol [100, 101, 102, 105, 110, 101]) cells.length = true := by
          rw [denotes, cellAt_append_length cells _ []]
          simp only [decide_eq_true_eq]
          rfl
        have hm0 : cells <+: cells ++ [Cell.SymbolCell ⟨Base.literal [100, 101, 102, 105, 110, 101], 0⟩
            ⟨Base.literal [100, 101, 102, 105, 110, 101],
              (([100, 101, 102, 105, 110, 101] : List Nat).length : Nat)⟩] :=
          List.prefix_append _ _
        have hl0 : 0 < (cells ++ [Cell.SymbolCell ⟨Base.literal [100, 101, 102, 105, 110, 101], 0⟩
            ⟨Base.literal [100, 101, 102, 105, 110, 101],
              (([100, 101, 102, 105, 110, 101] : List Nat).length : Nat)⟩]).length := by simp
        have d1 := denotes_cons hl0 (denotes_mono hm0 _ _ hds) (denotes_nil E _)
        have d2 := denotes_cons (by simp) (denotes_mono
          (hm0.trans (List.prefix_append _ [Cell.ConsCell arg2.cell 0])) _ _ hdp) d1
        exact denotes_cons (by simp) (denotes_mono
          ((List.prefix_append _ [Cell.ConsCell arg2.cell 0]).trans (List.prefix_append _ _))
          _ _ hdef) d2
      · have hk3 : strncmp op [58, 61] op.length ≠ 0 := by
          intro hk
          rcases prefix_two ((hz _).mp hk) with h | h | h
          · exact hne h
          · exact h1 h
          · exact h3 h
        simp only [hk3, if_false, cons, newcell]
        refine ⟨_, _, rfl, ?_⟩
        simp only [operatortree, h1, h2, h3, if_false, chain]
        have d1 := denotes_cons hlen hds (denotes_nil E cells)
        have d2 := denotes_cons hl1 (denotes_mono hm1 _ _ hdp) d1
        exact denotes_cons (by simp) (denotes_mono
          (hm1.trans (List.prefix_append _ _)) _ _ hdo) d2

/-! ## C2: operator combination -/

/-- Where C2 as stated fails: the operator token `:` followed by a NUL byte is
not the text `:`, so C2 gives `x op y` the prefix form
`Pair (op, Pair (x, Pair (y, NIL)))`; the code compares with `strncmp`, which
stops at the NUL, takes the token for `:` and builds the raw pair
`Pair (x, y)`. -/
theorem operator_combination_nul :
    operatortoken [58, 0] ∧
    (applicativeexprp (clib (bytes "x " ++ [58, 0] ++ bytes " y") []) 3 nilArena start true).map
        (fun x => (denotes (clib (bytes "x " ++ [58, 0] ++ bytes " y") []) x.1
            (Tree.pair (Tree.symbol (bytes "x")) (Tree.symbol (bytes "y"))) x.2.cell,
          denotes (clib (bytes "x " ++ [58, 0] ++ bytes " y") []) x.1
            (operatortree (bytes "x") [58, 0] (bytes "y")) x.2.cell))
      = some (true, false) := by
  decide!

/-- C2, amended. Operator combination: when the whole input is an identifier
`p`, a space, an operator token `op` without a NUL byte, a space and an
identifier `s`, `applicativeexprp` in head context returns a handle that
stands for `Pair (p, s)` when `op` is `:`, for `Pair (p, Pair (s, NIL))` when
`op` is `::`, for `Pair (define, Pair (p, Pair (s, NIL)))` when `op` is `:=`,
and for `Pair (op, Pair (p, Pair (s, NIL)))` for every other text, with the
cursor at the end of the input. -/
theorem operator_combination [DecidableEq F] (E : Env F) (hE : E.scansIntegers)
    (p op s : List Nat) (hp : identifier p) (hop : operatortoken op) (hnul : 0 ∉ op)
    (hs : identifier s) (hin : E.input = p ++ 32 :: (op ++ 32 :: s)) (cells : List (Cell F))
    (fuel : Nat) (hf : 3 ≤ fuel) :
    ∃ cells1 res, applicativeexprp E fuel cells start true = some (cells1, res) ∧
      denotes E cells1 (operatortree p op s) res.cell = true ∧ res.pos_end = E.input_size := by
  obtain ⟨k, rfl⟩ : ∃ k, fuel = k + 1 + 1 + 1 := ⟨fuel - 3, by omega⟩
  obtain ⟨hone, hobytes, hoq, hosemi⟩ := hop
  -- the layout of the input
  have hsize : E.input_size = p.length + 1 + op.length + 1 + s.length := by
    simp only [Env.input_size, hin, List.length_append, List.length_cons]
    push_cast
    ring
  have htokp : TokenAt E start.pos_end p :=
    @tokenAt_of_append F E [] p (32 :: (op ++ 32 :: s)) (by simpa using hin) hp.1
      (fun b hb => symchar_of_isalpha (hp.2 b hb)) (Or.inr (by simp [symchar, isspace]))
  have h32a := @inputAt_append_cons F E p (op ++ 32 :: s) 32 hin
  have htoko : TokenAt E ((p.length : Int) + 1) op := by
    have := @tokenAt_of_append F E (p ++ [32]) op (32 :: s) (by simpa using hin) hone
      (fun b hb => (hobytes b hb).1) (Or.inr (by simp [symchar, isspace]))
    simpa using this
  have h32b : E.inputAt ((p.length : Int) + 1 + op.length) = 32 := by
    have := (@inputAt_append_cons F E (p ++ [32] ++ op) s 32 (by simpa using hin)).2
    have e : (((p ++ [32] ++ op).length : Nat) : Int) = (p.length : Int) + 1 + op.length := by
      simp only [List.length_append, List.length_singleton]; push_cast; ring
    rw [← e]
    exact this
  have htoks : TokenAt E ((p.length : Int) + 1 + op.length + 1) s := by
    have := @tokenAt_of_append F E (p ++ [32] ++ op ++ [32]) s [] (by simpa using hin) hs.1
      (fun b hb => symchar_of_isalpha (hs.2 b hb)) (Or.inl rfl)
    have e : (((p ++ [32] ++ op ++ [32]).length : Nat) : Int) =
        (p.length : Int) + 1 + op.length + 1 := by
      simp only [List.length_append, List.length_singleton]; push_cast; ring
    rw [← e]
    exact this
  obtain ⟨ho1, ho2, ho3⟩ := tokenAt_first htoko
  obtain ⟨hs1, hs2, hs3⟩ := tokenAt_first htoks
  have hso := (hobytes _ ho3).1
  have hsy := hso
  simp only [symchar, isbracket, Bool.and_eq_true, Bool.not_eq_true', Bool.or_eq_false_iff,
    beq_eq_false_iff_ne, bne_iff_ne, ne_eq] at hsy
  -- the head
  obtain ⟨g, hhead⟩ := applicativeexprp_ident E hE (k + 1 + 1) cells start true p htokp hp
  rw [if_neg (by simp)] at hhead
  generalize hcs : cells ++ g ++ [Cell.SymbolCell ⟨Base.input, start.pos_end⟩
    ⟨Base.input, start.pos_end + p.length⟩] = cs at hhead
  have hsymp : IsSymbol E cs ((cells ++ g).length : Nat) p := by
    rw [← hcs]
    exact ⟨_, _, cellAt_append_length _ _ [], tokenAt_span htokp⟩
  have hws1 : whitespacep E (symbolresult (cells ++ g).length start p.length) =
      result (-1) p.length (p.length + 1) 0 0 p.length (p.length + 1) := by
    rw [whitespacep_space E _ (by simpa [symbolresult, start, result] using h32a.1)
      (by simpa [symbolresult, start, result] using h32a.2)
      (Or.inr (by
        simp only [symbolresult, start, result, zero_add, ho2, blackchar, Bool.and_eq_true,
          Bool.not_eq_true', bne_iff_ne, ne_eq]
        exact ⟨hsy.1.1.1, hosemi⟩))]
    simp [move, symbolresult, start, result]
  -- the operator
  have hint := tokenAt_intstart_operator htoko (fun b hb => (hobytes b hb).2.1)
    (by rw [h32b]; decide)
  obtain ⟨g1, harg1⟩ := applicativeexprp_token E hE (k + 1) cs
    (result (-1) p.length (p.length + 1) 0 0 p.length (p.length + 1)) op htoko hoq hint
  simp only [result] at harg1
  generalize hcs1 : cs ++ g1 ++ [Cell.SymbolCell ⟨Base.input, (p.length : Int) + 1⟩
    ⟨Base.input, (p.length : Int) + 1 + op.length⟩] = cs1 at harg1
  have hcello : cellAt cs1 ((cs ++ g1).length : Nat) =
      some (Cell.SymbolCell ⟨Base.input, (p.length : Int) + 1⟩
        ⟨Base.input, (p.length : Int) + 1 + op.length⟩) := by
    rw [← hcs1]
    exact cellAt_append_length _ _ []
  have hpre1 : cs <+: cs1 := by
    rw [← hcs1, List.append_assoc]
    exact List.prefix_append _ _
  have hisop : isoperator E cs1 ((cs ++ g1).length : Nat) = true :=
    isoperator_token hcello (tokenAt_span htoko) hone (fun b hb => (hobytes b hb).2)
  have hcomma : ∀ k0, celltextcmp E cs1 ((cs ++ g1).length : Nat) [44] = some k0 → k0 ≠ 0 := by
    intro k0 hk0
    rw [celltextcmp_token hcello (tokenAt_span htoko)] at hk0
    cases hk0
    intro hz
    rcases prefix_one ((strncmp_eq_zero_iff op [44] hnul).mp hz) with h | h
    · exact hone h
    · rw [h] at hsy
      simp at hsy
  have hws2 : whitespacep E (symbolresult (cs ++ g1).length
      (result (-1) p.length (p.length + 1) 0 0 p.length (p.length + 1)) op.length) =
      result (-1) (p.length + 1 + op.length) (p.length + 1 + op.length + 1) 0 0
        (p.length + 1 + op.length) (p.length + 1 + op.length + 1) := by
    rw [whitespacep_space E _ (by simp only [symbolresult, result, hsize]; omega)
      (by simpa [symbolresult, result] using h32b)
      (Or.inr (by
        simp only [symbolresult, result, hs2]
        exact blackchar_of_isalpha (hs.2 _ hs3)))]
    simp [move, symbolresult, result]
  -- the second expression
  obtain ⟨g2, harg2⟩ := applicativeexprp_ident E hE (k + 1) cs1
    (result (-1) (p.length + 1 + op.length) (p.length + 1 + op.length + 1) 0 0
      (p.length + 1 + op.length) (p.length + 1 + op.length + 1)) true s
    (by simpa [result] using htoks) hs
  rw [if_neg (by simp), searchargs_closer _ _ _ _ _
    (Or.inl (by simp only [symbolresult, result, hsize]; omega))] at harg2
  simp only [result] at harg2
  generalize hcs2 : cs1 ++ g2 ++ [Cell.SymbolCell
    ⟨Base.input, (p.length : Int) + 1 + op.length + 1⟩
    ⟨Base.input, (p.length : Int) + 1 + op.length + 1 + s.length⟩] = cs2 at harg2
  have hpre2 : cs1 <+: cs2 := by
    rw [← hcs2, List.append_assoc]
    exact List.prefix_append _ _
  have hsyms : IsSymbol E cs2 ((cs1 ++ g2).length : Nat) s := by
    rw [← hcs2]
    exact ⟨_, _, cellAt_append_length _ _ [], tokenAt_span htoks⟩
  obtain ⟨cells1, c, hcomb, hden⟩ := operatorcombine_tree E cs2
    (symbolresult (cells ++ g).length start p.length)
    (symbolresult (cs ++ g1).length
      (result (-1) p.length (p.length + 1) 0 0 p.length (p.length + 1)) op.length)
    (symbolresult (cs1 ++ g2).length
      (result (-1) (p.length + 1 + op.length) (p.length + 1 + op.length + 1) 0 0
        (p.length + 1 + op.length) (p.length + 1 + op.length + 1)) s.length)
    p op s ((p.length : Int) + 1) hone hnul
    (isSymbol_mono (hpre1.trans hpre2) hsymp) hsyms (cellAt_extend hpre2 hcello)
    (tokenAt_span htoko)
  refine ⟨cells1, result c (symbolresult (cells ++ g).length start p.length).pos_start
    (symbolresult (cs1 ++ g2).length
      (result (-1) (p.length + 1 + op.length) (p.length + 1 + op.length + 1) 0 0
        (p.length + 1 + op.length) (p.length + 1 + op.length + 1)) s.length).pos_end
    (symbolresult (cells ++ g).length start p.length).line_start
    (symbolresult (cs1 ++ g2).length
      (result (-1) (p.length + 1 + op.length) (p.length + 1 + op.length + 1) 0 0
        (p.length + 1 + op.length) (p.length + 1 + op.length + 1)) s.length).line_end
    (symbolresult (cells ++ g).length start p.length).col_start
    (symbolresult (cs1 ++ g2).length
      (result (-1) (p.length + 1 + op.length) (p.length + 1 + op.length + 1) 0 0
        (p.length + 1 + op.length) (p.length + 1 + op.length + 1)) s.length).col_end, ?_, hden, ?_⟩
  · rw [hhead, searchargs, hws1]
    have hc1 : ¬ ((p.length : Int) + 1 < E.input_size ∧ E.inputAt ((p.length : Int) + 1) = 44) := by
      rw [ho2]
      exact fun h => hsy.2 h.2
    simp only [result, hc1, if_false, gt_iff_lt, lt_self_iff_false, false_and, decide_False, harg1]
    have hge : (((cs ++ g1).length : Nat) : Int) ≥ 0 := by omega
    simp only [symbolresult, hge, if_true, hisop, operatorexpr]
    cases hk : celltextcmp E cs1 ((cs ++ g1).length : Nat) [44] with
    | none =>
      rw [celltextcmp_token hcello (tokenAt_span htoko)] at hk
      cases hk
    | some k0 =>
      have hk0 := hcomma k0 hk
      simp only [hk0, if_false]
      simp only [symbolresult, result] at hws2
      rw [hws2]
      have hcol : (p.length : Int) + 1 + op.length + 1 > start.col_end := by
        simp only [start, result]; omega
      simp only [result, hcol, if_true, harg2]
      simp only [symbolresult, result] at hcomb
      exact hcomb
  · simp only [result, symbolresult, hsize]

/-- The run of C2 on the input `x := y`, and the text `(define x 5)` that the
driver prints for the input `x := 5` of the spec. -/
theorem operator_combination_witness :
    (∃ cells1 res,
      applicativeexprp (clib (bytes "x := y") []) 3 nilArena start true = some (cells1, res) ∧
      denotes (clib (bytes "x := y") []) cells1
        (operatortree (bytes "x") (bytes ":=") (bytes "y")) res.cell = true ∧
      res.pos_end = (clib (bytes "x := y") []).input_size) ∧
    (ez2scmpass (clib (bytes "x := 5") []) 8 nilArena start []).map (fun x => x.2.2)
      = some (bytes "(define x 5)\n\n") :=
  ⟨operator_combination (clib (bytes "x := y") []) (clib_scansIntegers _ _) (bytes "x")
      (bytes ":=") (bytes "y") (by decide) (by decide) (by decide) (by decide) (by decide)
      nilArena 3 (by decide),
    by decide!⟩

/-! ## C3: the list production -/

/-- The list production around one expression: when `applicativeexprp` in head
context parses an expression `e` right behind the `[` and `e` ends at the
`]`, `listexprp` returns a new cell `Pair (e, NIL)`. -/
theorem listexprp_single (E : Env F) (fuel : Nat) (cells cells1 : List (Cell F))
    (r e : result_t) (h91 : E.inputAt r.pos_end = 91) (hlt : r.pos_end < E.input_size)
    (hblack : blackchar (E.inputAt (r.pos_end + 1)) = true)
    (he : applicativeexprp E (fuel + 1 + 1) cells
      (move { r with pos_end := r.pos_end + 1, col_end := r.col_end + 1 }) true = some (cells1, e))
    (hcell : 0 ≤ e.cell) (hend : e.pos_end < E.input_size) (h93 : E.inputAt e.pos_end = 93) :
    listexprp E (fuel + 1 + 1 + 1) cells r =
      some (cells1 ++ [Cell.ConsCell e.cell 0],
        result cells1.length (r.pos_end + 1) (e.pos_end + 1) r.line_end e.line_end (r.col_end + 1)
          (e.col_end + 1)) := by
  have hnot : ¬ (r.pos_end > E.input_size ∨ E.inputAt r.pos_end ≠ 91) := by
    rintro (h | h)
    · omega
    · exact h h91
  have hws : whitespacep E { r with pos_end := r.pos_end + 1, col_end := r.col_end + 1 } =
      move { r with pos_end := r.pos_end + 1, col_end := r.col_end + 1 } :=
    whitespacep_stop E _ (Or.inr hblack)
  have hwe : whitespacep E e = move e := by
    apply whitespacep_stop
    right
    rw [h93]
    decide
  have hwe2 : whitespacep E (move (move e)) = move (move (move e)) := by
    apply whitespacep_stop
    right
    simp only [move, h93]
    decide
  have hcl := applicativeexprp_closer E fuel (cells1 ++ [Cell.ConsCell e.cell 0]) (move e) true
    (Or.inr (Or.inr (by simpa [move] using h93)))
  rw [listexprp, if_neg hnot]
  simp only [hws, he, hcell, ge_iff_le, if_true, cons, newcell]
  rw [listloop, hwe, hcl]
  have hneg : ¬ (0 ≤ (move (move e)).cell) := by simp [move]
  simp only [hneg, if_false, hwe2]
  simp [move, hend, h93, result]

/-- Where C3 as stated fails: for the input `[1 2 3]` the node that `listexprp`
returns does not stand for the chain `Pair (1, Pair (2, Pair (3, NIL)))` but
for the list `Pair (Pair (1, Pair (2, Pair (3, NIL))), NIL)` of one element,
and the driver prints `((1 2 3))`. -/
theorem list_production_nested :
    (listexprp (clib (bytes "[1 2 3]") []) 6 nilArena start).map
        (fun x => (denotes (clib (bytes "[1 2 3]") []) x.1
            (chain [Tree.integer 1, Tree.integer 2, Tree.integer 3]) x.2.cell,
          denotes (clib (bytes "[1 2 3]") []) x.1
            (Tree.pair (chain [Tree.integer 1, Tree.integer 2, Tree.integer 3]) Tree.nil)
            x.2.cell))
      = some (false, true) ∧
    (ez2scmpass (clib (bytes "[1 2 3]") []) 12 nilArena start []).map (fun x => x.2.2)
      = some (bytes "((1 2 3))\n\n") := by
  decide!

theorem symbolChain_handle {E : Env F} {cells : List (Cell F)} {tl : Int} :
    ∀ (ss : List (List Nat)) (c : Int), SymbolChain E cells c ss tl →
      c ≠ 0 ∧ ∃ x n, cellAt cells c = some (Cell.ConsCell x n)
  | [], _, h => by simp [SymbolChain] at h
  | [s], c, h => by
    simp only [SymbolChain] at h
    obtain ⟨_, h2, x, h3, _⟩ := h
    exact ⟨h2, x, 0, h3⟩
  | s :: s' :: ss, c, h => by
    simp only [SymbolChain] at h
    obtain ⟨h1, _, x, n, h3, _⟩ := h
    exact ⟨h1, x, n, h3⟩

/-- A list of one element that is a chain of symbols is printed as the chain
in one more pair of parentheses. -/
theorem writeexpr_chainlist (E : Env F) (cells : List (Cell F)) (ss : List (List Nat))
    (c tl l : Int) (h : SymbolChain E cells c ss tl) (hl0 : l ≠ 0)
    (hl : cellAt cells l = some (Cell.ConsCell c 0)) (fuel : Nat) (hf : ss.length + 6 ≤ fuel)
    (e : result_t) (he : e.cell = l) (hline : e.line_start = 0) (out : List Nat) :
    ∃ r1, writeexpr E cells fuel e out = some (r1, out ++ 40 :: 40 :: (spaced ss ++ [41, 41])) := by
  obtain ⟨f, rfl⟩ : ∃ f, fuel = f + 1 + 1 + 1 + 1 := ⟨fuel - 4, by omega⟩
  obtain ⟨_, x, n, hc⟩ := symbolChain_handle _ _ h
  have hhead : head cells l = c := by simp [head, hl]
  have htail : tail cells l = 0 := by simp [tail, hl]
  have hbr : breaksline cells c = some true := by simp [breaksline, hc]
  rw [writeexpr]
  simp only [hline, he, hl, linebreaks]
  rw [writelistexpr, writelistloop, if_pos hl0]
  simp only [hl, hhead, htail]
  obtain ⟨r1, hr1⟩ := writeexpr_chain E cells ss c tl h (f + 1) (by omega)
    { ({ ({ e with line_start := 0 } : result_t) with
          col_start := ({ e with line_start := 0 } : result_t).col_start + 1,
          line_start := 0 } : result_t) with cell := c } rfl rfl
    (out ++ List.replicate (Int.toNat 0) 10 ++ [40])
  simp only [lt_self_iff_false, if_false, he] at hr1 ⊢
  rw [hr1]
  simp only [hbr, if_true, ne_eq, not_true_eq_false, false_and, if_false]
  rw [writelistloop]
  simp

/-- C3, amended. List production: when the whole input is `[`, one or more
identifiers separated by single spaces, and `]`, `listexprp` returns a list of
one element: `Pair (e1, NIL)` for one identifier, and for two or more the
pair `Pair (Pair (e1, Pair (e2, ... Pair (en, NIL))), NIL)` whose element is
the whole run parsed as one applicative expression; `writeexpr` prints it as
`(e1)` and as `((e1 e2 ... en))`. -/
theorem list_production [DecidableEq F] (E : Env F) (hE : E.scansIntegers)
    (tokens : List (List Nat)) (hn : 1 ≤ tokens.length) (hid : ∀ t ∈ tokens, identifier t)
    (hin : E.input = 91 :: (spaced tokens ++ [93])) (cells : List (Cell F)) (fuel : Nat)
    (hf : tokens.length + 6 ≤ fuel) :
    ∃ cells1 res, listexprp E fuel cells start = some (cells1, res) ∧
      denotes E cells1 (listtree tokens) res.cell = true ∧ res.pos_end = E.input_size ∧
      ∀ out, ∃ r1, writeexpr E cells1 fuel (result res.cell 0 0 0 0 0 0) out =
        some (r1, out ++ listtext tokens) := by
  obtain ⟨k, rfl⟩ : ∃ k, fuel = k + 1 + 1 + 1 := ⟨fuel - 3, by omega⟩
  obtain ⟨t, ts, rfl⟩ : ∃ t ts, tokens = t :: ts := by
    match tokens, hn with
    | t :: ts, _ => exact ⟨t, ts, rfl⟩
  have hidt := hid t (List.mem_cons_self _ _)
  have hsize : E.input_size = (spaced (t :: ts)).length + 2 := by
    simp only [Env.input_size, hin, List.length_cons, List.length_append, List.length_singleton,
      List.length_nil]
    push_cast
    ring
  have h91 : E.inputAt start.pos_end = 91 := by
    have := (@inputAt_append_cons F E [] (spaced (t :: ts) ++ [93]) 91 (by simpa using hin)).2
    simpa [start, result] using this
  have htok : TokenAt E 1 t := by
    have := @tokenAt_of_append F E [91] t (spacedtail ts ++ [93]) (by simpa [spaced] using hin)
      hidt.1 (fun b hb => symchar_of_isalpha (hidt.2 b hb)) (Or.inr (by
        cases ts with
        | nil => simp [spacedtail, symchar, isbracket]
        | cons a ts => simp [spacedtail, symchar, isspace]))
    simpa using this
  have hrest : RestTokens E (1 + (t.length : Int)) ts := by
    have := @restTokens_of_append F E ts (91 :: t) [93] (by simpa [spaced] using hin)
      (fun x hx => hid x (List.mem_cons_of_mem _ hx)) (Or.inr (Or.inr rfl))
    have e : (((91 :: t).length : Nat) : Int) = 1 + (t.length : Int) := by
      simp only [List.length_cons]; push_cast; ring
    rw [← e]
    exact this
  obtain ⟨hf1, hf2, hf3⟩ := tokenAt_first htok
  have hblack : blackchar (E.inputAt (start.pos_end + 1)) = true := by
    simp only [start, result, zero_add, hf2]
    exact blackchar_of_isalpha (hidt.2 _ hf3)
  have hend93 : E.inputAt (1 + ((spaced (t :: ts)).length : Int)) = 93 := by
    have := (@inputAt_append_cons F E (91 :: spaced (t :: ts)) [] 93 (by simpa using hin)).2
    have e : (((91 :: spaced (t :: ts)).length : Nat) : Int) = 1 + ((spaced (t :: ts)).length : Int) := by
      simp only [List.length_cons]; push_cast; ring
    rw [← e]
    exact this
  cases ts with
  | nil =>
    -- one identifier
    obtain ⟨g, hhead⟩ := applicativeexprp_ident E hE (k + 1) cells (result (-1) 1 1 0 0 1 1) true t
      htok hidt
    simp only [RestTokens] at hrest
    rw [if_neg (by simp), searchargs_closer _ _ _ _ _ (by
      simp only [symbolresult, result]
      rcases hrest.2 with h | h | h
      · exact Or.inl h
      · exact Or.inr (Or.inl h)
      · exact Or.inr (Or.inr h))] at hhead
    have hsingle := listexprp_single E k cells _ start _ h91
      (by simp only [start, result, hsize]; omega) hblack hhead
      (by simp only [symbolresult]; omega)
      (by simp only [symbolresult, result, hsize, spaced, spacedtail, List.append_nil]; omega)
      (by simpa [symbolresult, result, spaced, spacedtail] using hend93)
    have hchain : SymbolChain E (cells ++ g ++ [Cell.SymbolCell
        ⟨Base.input, (result (-1) 1 1 0 0 1 1).pos_end⟩
        ⟨Base.input, (result (-1) 1 1 0 0 1 1).pos_end + t.length⟩] ++
        [Cell.ConsCell (symbolresult (cells ++ g).length (result (-1) 1 1 0 0 1 1) t.length).cell 0])
        ((cells ++ g ++ [Cell.SymbolCell
        ⟨Base.input, (result (-1) 1 1 0 0 1 1).pos_end⟩
        ⟨Base.input, (result (-1) 1 1 0 0 1 1).pos_end + t.length⟩]).length : Nat) [t]
        ((cells ++ g ++ [Cell.SymbolCell
        ⟨Base.input, (result (-1) 1 1 0 0 1 1).pos_end⟩
        ⟨Base.input, (result (-1) 1 1 0 0 1 1).pos_end + t.length⟩]).length : Nat) := by
      simp only [SymbolChain]
      refine ⟨trivial, by simp; omega, _, cellAt_append_length _ _ [], ?_⟩
      apply isSymbol_mono (List.prefix_append _ _)
      exact ⟨_, _, cellAt_append_length _ _ [], tokenAt_span htok⟩
    refine ⟨_, _, hsingle, ?_, ?_, ?_⟩
    · have := symbolChain_denotes _ _ hchain
      simpa [listtree, chain, result] using this
    · simp only [result, symbolresult, hsize, spaced, spacedtail, List.append_nil]
      ring
    · intro out
      obtain ⟨r1, hr1⟩ := writeexpr_chain E _ [t] _ _ hchain (k + 1 + 1 + 1)
        (by simp at hf ⊢; omega) (result _ 0 0 0 0 0 0) rfl rfl out
      exact ⟨r1, by simpa [listtext, spaced, spacedtail, result] using hr1⟩
  | cons t1 ts =>
    -- two or more: one applicative expression
    obtain ⟨cells1, c, tl, hrun, hch, _⟩ := applicativeexprp_tokens E hE t t1 ts (k + 1 + 1) cells
      (result (-1) 1 1 0 0 1 1) htok hidt hrest (by simp at hf; omega)
    obtain ⟨hc0, x, n, hcc⟩ := symbolChain_handle _ _ hch
    have hsingle := listexprp_single E k cells _ start _ h91
      (by simp only [start, result, hsize]; omega) hblack hrun
      (by simp only [result]; exact (cellAt_some hcc).1)
      (by simp only [result, hsize]; omega)
      (by simpa [result] using hend93)
    have hlen1 : 0 < cells1.length := by
      have := cellAt_some hcc
      omega
    have hpre : cells1 <+: cells1 ++ [Cell.ConsCell c 0] := List.prefix_append _ _
    refine ⟨_, _, hsingle, ?_, ?_, ?_⟩
    · have hd := denotes_cons hlen1 (symbolChain_denotes _ _ hch) (denotes_nil E cells1)
      simpa [listtree, result] using hd
    · simp only [result, hsize]
      ring
    · intro out
      obtain ⟨r1, hr1⟩ := writeexpr_chainlist E _ (t :: t1 :: ts) c tl cells1.length
        (symbolChain_mono hpre _ _ hch) (by omega) (cellAt_append_length _ _ [])
        (k + 1 + 1 + 1) (by simp at hf ⊢; omega) (result cells1.length 0 0 0 0 0 0) rfl rfl out
      exact ⟨r1, by simpa [listtext, result] using hr1⟩

/-- The run of C3 on the input `[a b c]`. -/
theorem list_production_witness :
    ∃ cells1 res, listexprp (clib (bytes "[a b c]") []) 9 nilArena start = some (cells1, res) ∧
      denotes (clib (bytes "[a b c]") []) cells1
        (listtree [bytes "a", bytes "b", bytes "c"]) res.cell = true ∧
      res.pos_end = (clib (bytes "[a b c]") []).input_size ∧
      ∀ out, ∃ r1, writeexpr (clib (bytes "[a b c]") []) cells1 9 (result res.cell 0 0 0 0 0 0) out =
        some (r1, out ++ listtext [bytes "a", bytes "b", bytes "c"]) :=
  list_production (clib (bytes "[a b c]") []) (clib_scansIntegers _ _)
    [bytes "a", bytes "b", bytes "c"] (by decide) (by decide) (by decide) nilArena 9 (by decide)

/-! ## C6: parse, print, parse again -/

/-- A parenthesised expression that ends the input: when `applicativeexprp` in
head context parses `e` behind the `(` and `e` ends at a `)` that is the last
byte of the input, `applicativeexprp` at the `(` returns the node of `e`. -/
theorem applicativeexprp_group (E : Env F) (fuel : Nat) (cells cells1 : List (Cell F))
    (r e : result_t) (b : Bool) (hlt : r.pos_end < E.input_size) (h40 : E.inputAt r.pos_end = 40)
    (he : applicativeexprp E fuel cells (afteropen E (move r)) true = some (cells1, e))
    (hcell : 0 ≤ e.cell) (hend : e.pos_end + 1 = E.input_size) (h41 : E.inputAt e.pos_end = 41) :
    applicativeexprp E (fuel + 1 + 1) cells r b =
      some (cells1, result e.cell r.pos_end (e.pos_end + 1) r.line_end e.line_end r.col_end
        (e.col_end + 1)) := by
  have hwe : whitespacep E e = move e := by
    apply whitespacep_stop
    right
    rw [h41]
    decide
  have hnot : ¬ ((move r).pos_end ≥ E.input_size ∨ E.inputAt (move r).pos_end ≠ 40) := by
    simp only [move]
    rintro (h | h)
    · omega
    · exact h h40
  have hgroup : groupexprp E (fuel + 1) cells (move r) =
      some (cells1, result e.cell r.pos_end (e.pos_end + 1) r.line_end e.line_end r.col_end
        (e.col_end + 1)) := by
    rw [groupexprp, if_neg hnot]
    simp only [he, hcell, ge_iff_le, if_true, hwe]
    have : (move e).pos_end < E.input_size ∧ E.inputAt (move e).pos_end = 41 := by
      simp only [move]
      exact ⟨by omega, h41⟩
    simp only [this, and_self, if_true]
    simp [move]
  rw [applicativeexprp, if_neg (by omega)]
  simp only [lookahead, h40]
  simp only [Nat.reduceEqDiff, decide_False, Bool.false_eq_true, if_false, or_self, primaryexpr,
    if_true, hgroup, false_and]
  have hneg : ¬ ((result e.cell r.pos_end (e.pos_end + 1) r.line_end e.line_end r.col_end
      (e.col_end + 1)).cell < 0) := by simp only [result]; omega
  cases b with
  | false => simp
  | true =>
    simp only [hneg, Bool.true_eq_false, or_self, if_false]
    rw [searchargs_closer _ _ _ _ _ (Or.inl (by simp only [result]; omega))]

/-- Where C6 as stated fails: the input `f()` parses without error to
`Pair (f, NIL)`, which is printed as `(f)`; parsing `(f)` again gives the
bare symbol `f`, because a group is the node of its expression. No tree is
what both handles stand for. -/
theorem round_trip_bare_call :
    applicativeexprp (clib (bytes "f()") []) 4 nilArena (whitespacep (clib (bytes "f()") []) start)
        true
      = some ([Cell.ConsCell 0 0, Cell.SymbolCell ⟨Base.input, 0⟩ ⟨Base.input, 1⟩,
          Cell.ConsCell 1 0], result 2 0 3 0 0 0 3) ∧
    (writeexpr (clib (bytes "f()") [])
        [Cell.ConsCell 0 0, Cell.SymbolCell ⟨Base.input, 0⟩ ⟨Base.input, 1⟩, Cell.ConsCell 1 0]
        4 (result 2 0 0 0 0 0 0) []).map (fun x => x.2) = some (bytes "(f)") ∧
    applicativeexprp (clib (bytes "(f)") []) 4 nilArena (whitespacep (clib (bytes "(f)") []) start)
        true
      = some ([Cell.ConsCell 0 0, Cell.SymbolCell ⟨Base.input, 1⟩ ⟨Base.input, 2⟩],
          result 1 0 3 0 0 0 3) ∧
    ∀ t : Tree (List Nat),
      ¬ (denotes (clib (bytes "f()") [])
            [Cell.ConsCell 0 0, Cell.SymbolCell ⟨Base.input, 0⟩ ⟨Base.input, 1⟩, Cell.ConsCell 1 0]
            t 2 = true ∧
          denotes (clib (bytes "(f)") [])
            [Cell.ConsCell 0 0, Cell.SymbolCell ⟨Base.input, 1⟩ ⟨Base.input, 2⟩] t 1 = true) := by
  refine ⟨by decide!, by decide!, by decide!, ?_⟩
  have hc1 : cellAt ([Cell.ConsCell 0 0, Cell.SymbolCell ⟨Base.input, 0⟩ ⟨Base.input, 1⟩,
      Cell.ConsCell 1 0] : List (Cell (List Nat))) 2 = some (Cell.ConsCell 1 0) := by decide!
  have hc2 : cellAt ([Cell.ConsCell 0 0, Cell.SymbolCell ⟨Base.input, 1⟩ ⟨Base.input, 2⟩] :
      List (Cell (List Nat))) 1 = some (Cell.SymbolCell ⟨Base.input, 1⟩ ⟨Base.input, 2⟩) := by
    decide!
  rintro t ⟨h1, h2⟩
  cases t <;> simp [denotes, hc1, hc2] at h1 h2

/-- C6, amended. Round trip for plain applications of identifiers: when the
input is two or more identifiers joined by single spaces, the driver's parse
of it from the NIL arena, the text `(t0 t1 ... t(n-1))` that `writeexpr`
prints for the node, and the driver's parse of that text give two handles
that stand for the same tree. -/
theorem round_trip [DecidableEq F] (E1 E2 : Env F) (h1 : E1.scansIntegers)
    (h2 : E2.scansIntegers) (tokens : List (List Nat)) (hn : 2 ≤ tokens.length)
    (hid : ∀ t ∈ tokens, identifier t) (hin1 : E1.input = spaced tokens)
    (hin2 : E2.input = 40 :: (spaced tokens ++ [41])) (fuel : Nat)
    (hf : tokens.length + 3 ≤ fuel) :
    ∃ cells1 r1 rp cells2 r2 t,
      applicativeexprp E1 fuel nilArena (whitespacep E1 start) true = some (cells1, r1) ∧
      writeexpr E1 cells1 fuel (result r1.cell 0 0 0 0 0 0) [] = some (rp, E2.input) ∧
      applicativeexprp E2 fuel nilArena (whitespacep E2 start) true = some (cells2, r2) ∧
      denotes E1 cells1 t r1.cell = true ∧ denotes E2 cells2 t r2.cell = true := by
  obtain ⟨t, t1, ts, rfl⟩ : ∃ t t1 ts, tokens = t :: t1 :: ts := by
    match tokens, hn with
    | t :: t1 :: ts, _ => exact ⟨t, t1, ts, rfl⟩
  obtain ⟨k, rfl⟩ : ∃ k, fuel = k + 1 + 1 := ⟨fuel - 2, by omega⟩
  have hidt := hid t (List.mem_cons_self _ _)
  -- the first parse
  have htok : TokenAt E1 start.pos_end t :=
    @tokenAt_of_append F E1 [] t (spacedtail (t1 :: ts)) (by simpa [spaced] using hin1)
      hidt.1 (fun b hb => symchar_of_isalpha (hidt.2 b hb))
      (Or.inr (by simp [spacedtail, symchar, isspace]))
  have hrest : RestTokens E1 (start.pos_end + t.length) (t1 :: ts) := by
    have := @restTokens_of_append F E1 (t1 :: ts) t [] (by simpa [spaced] using hin1)
      (fun x hx => hid x (List.mem_cons_of_mem _ hx)) (Or.inl rfl)
    simpa [start, result] using this
  have hws1 : whitespacep E1 start = start := by
    obtain ⟨_, hb, hm⟩ := tokenAt_first htok
    rw [whitespacep_stop E1 start (Or.inr (by rw [hb]; exact blackchar_of_isalpha (hidt.2 _ hm)))]
    rfl
  obtain ⟨cells1, c, tl, hrun, hch, _⟩ := applicativeexprp_tokens E1 h1 t t1 ts (k + 1 + 1)
    nilArena start htok hidt hrest (by simp at hf; omega)
  obtain ⟨rp, hprint⟩ := writeexpr_chain E1 cells1 (t :: t1 :: ts) c tl hch (k + 1 + 1)
    (by simp at hf ⊢; omega) (result c 0 0 0 0 0 0) rfl rfl []
  -- the second parse
  have h40 := @inputAt_append_cons F E2 [] (spaced (t :: t1 :: ts) ++ [41]) 40
    (by simpa using hin2)
  simp only [List.length_nil, Nat.cast_zero] at h40
  have hsize2 : E2.input_size = (spaced (t :: t1 :: ts)).length + 2 := by
    simp only [Env.input_size, hin2, List.length_cons, List.length_append, List.length_singleton,
      List.length_nil]
    push_cast
    ring
  have htok2 : TokenAt E2 1 t := by
    have := @tokenAt_of_append F E2 [40] t (spacedtail (t1 :: ts) ++ [41])
      (by simpa [spaced] using hin2) hidt.1 (fun b hb => symchar_of_isalpha (hidt.2 b hb))
      (Or.inr (by simp [spacedtail, symchar, isspace]))
    simpa using this
  have hrest2 : RestTokens E2 (1 + (t.length : Int)) (t1 :: ts) := by
    have := @restTokens_of_append F E2 (t1 :: ts) (40 :: t) [41] (by simpa [spaced] using hin2)
      (fun x hx => hid x (List.mem_cons_of_mem _ hx)) (Or.inr (Or.inl rfl))
    have e : (((40 :: t).length : Nat) : Int) = 1 + (t.length : Int) := by
      simp only [List.length_cons]; push_cast; ring
    rw [← e]
    exact this
  have hend41 : E2.inputAt (1 + ((spaced (t :: t1 :: ts)).length : Int)) = 41 := by
    have := (@inputAt_append_cons F E2 (40 :: spaced (t :: t1 :: ts)) [] 41
      (by simpa using hin2)).2
    have e : (((40 :: spaced (t :: t1 :: ts)).length : Nat) : Int) =
        1 + ((spaced (t :: t1 :: ts)).length : Int) := by
      simp only [List.length_cons]; push_cast; ring
    rw [← e]
    exact this
  have hws2 : whitespacep E2 start = start := by
    rw [whitespacep_stop E2 start (Or.inr (by
      simp only [start, result, h40.2]
      decide))]
    rfl
  obtain ⟨hf1, hf2, hf3⟩ := tokenAt_first htok2
  have hopen : afteropen E2 (move start) = result (-1) 1 1 0 0 1 1 := by
    unfold afteropen
    rw [whitespacep_stop]
    · rfl
    · right
      simp only [move, start, result, zero_add, hf2]
      exact blackchar_of_isalpha (hidt.2 _ hf3)
  obtain ⟨cells2, c2, tl2, hrun2, hch2, _⟩ := applicativeexprp_tokens E2 h2 t t1 ts k
    nilArena (result (-1) 1 1 0 0 1 1) htok2 hidt hrest2 (by simp at hf; omega)
  obtain ⟨hc0, x, n, hcc⟩ := symbolChain_handle _ _ hch2
  have hgroup := applicativeexprp_group E2 k nilArena cells2 start
    (result c2 1 (1 + (spaced (t :: t1 :: ts)).length) 0 0 1 (1 + (spaced (t :: t1 :: ts)).length))
    true (by simp only [start, result, hsize2]; omega) h40.2 (by rw [hopen]; exact hrun2)
    (by simp only [result]; exact (cellAt_some hcc).1)
    (by simp only [result, hsize2]; ring)
    (by simpa [result] using hend41)
  rw [← hws1] at hrun
  rw [← hws2] at hgroup
  have hprint1 : writeexpr E1 cells1 (k + 1 + 1) (result c 0 0 0 0 0 0) [] = some (rp, E2.input) := by
    rw [hprint, hin2]
    simp
  exact ⟨cells1, _, rp, cells2, _, chain ((t :: t1 :: ts).map Tree.symbol), hrun, hprint1, hgroup,
    symbolChain_denotes _ _ hch, symbolChain_denotes _ _ hch2⟩

/-- The run of C6 on the input `a b c`. -/
theorem round_trip_witness :
    ∃ cells1 r1 rp cells2 r2 t,
      applicativeexprp (clib (bytes "a b c") []) 6 nilArena
        (whitespacep (clib (bytes "a b c") []) start) true = some (cells1, r1) ∧
      writeexpr (clib (bytes "a b c") []) cells1 6 (result r1.cell 0 0 0 0 0 0) []
        = some (rp, (clib (bytes "(a b c)") []).input) ∧
      applicativeexprp (clib (bytes "(a b c)") []) 6 nilArena
        (whitespacep (clib (bytes "(a b c)") []) start) true = some (cells2, r2) ∧
      denotes (clib (bytes "a b c") []) cells1 t r1.cell = true ∧
      denotes (clib (bytes "(a b c)") []) cells2 t r2.cell = true :=
  round_trip (clib (bytes "a b c") []) (clib (bytes "(a b c)") []) (clib_scansIntegers _ _)
    (clib_scansIntegers _ _) [bytes "a", bytes "b", bytes "c"] (by decide) (by decide)
    (by decide) (by decide) 6 (by decide)

/-! ## C11: string literals -/

theorem span_of_append {E : Env F} {pre t suf : List Nat} (hin : E.input = pre ++ t ++ suf) :
    E.span ⟨Base.input, (pre.length : Int)⟩ ⟨Base.input, (pre.length : Int) + t.length⟩ = t := by
  unfold Env.span
  have e : ((pre.length : Int) + (t.length : Int) - (pre.length : Int)).toNat = t.length := by omega
  simp only [e]
  apply List.ext_getElem
  · simp
  · intro i h1 h2
    simp only [List.getElem_map, List.getElem_range, Env.deref]
    have e1 : (pre.length : Int) + (i : Int) = ((pre.length + i : Nat) : Int) := by push_cast; rfl
    rw [e1, inputAt_natCast, hin]
    simp only [List.append_assoc]
    rw [List.getD_append_right _ _ _ _ (by omega), List.getD_append _ _ _ _ (by omega),
      List.getD_eq_getElem _ _ (by omega)]
    congr 1
    omega

theorem stringscan_pos_start (E : Env F) : ∀ (fuel : Nat) (p : Int) (r : result_t),
    (stringscan E fuel p r).2.pos_start = r.pos_start
  | 0, _, _ => rfl
  | fuel + 1, p, r => by
    unfold stringscan
    split_ifs <;> first | rfl | (rw [stringscan_pos_start E fuel])

theorem stringscan_body (E : Env F) : ∀ (fuel : Nat) (body pre suf : List Nat) (r : result_t),
    E.input = pre ++ body ++ 34 :: suf → stringbody false body = true → body.length < fuel →
    (stringscan E fuel (pre.length : Int) r).1 = (pre.length : Int) + body.length
  | 0, _, _, _, _, _, _, hf => by omega
  | fuel + 1, [], pre, suf, r, hin, _, _ => by
    have h := @inputAt_append_cons F E pre suf 34 (by simpa using hin)
    unfold stringscan
    rw [if_neg (by simp [h.2])]
    simp
  | fuel + 1, b :: s, pre, suf, r, hin, hb, hf => by
    have h := @inputAt_append_cons F E pre (s ++ 34 :: suf) b (by simpa using hin)
    have e1 : ((pre.length : Int) + 1) = ((pre ++ [b]).length : Nat) := by simp
    have hin1 : E.input = (pre ++ [b]) ++ s ++ 34 :: suf := by simpa using hin
    have hlen : ((pre ++ [b]).length : Int) + (s.length : Int)
        = (pre.length : Int) + ((b :: s).length : Nat) := by
      simp only [List.length_append, List.length_cons, List.length_nil]; push_cast; ring
    simp only [List.length_cons] at hf
    by_cases h92 : b = 92
    · subst h92
      match s, hb, hin, hf, hin1, hlen with
      | c :: s2, hb, hin, hf, hin1, hlen =>
        simp only [stringbody, if_true] at hb
        have hin2 : E.input = (pre ++ [92, c]) ++ s2 ++ 34 :: suf := by simpa using hin
        have e2 : ((pre.length : Int) + 1 + 1) = ((pre ++ [92, c]).length : Nat) := by
          simp only [List.length_append, List.length_cons, List.length_nil]; push_cast; ring
        unfold stringscan
        rw [if_pos ⟨h.1, by rw [h.2]; decide⟩]
        simp only [h.2]
        simp only [show ¬ ((92 : Nat) = 10 ∨ (92 : Nat) = 13) by decide, if_false,
          show ¬ ((92 : Nat) = 9) by decide, if_true]
        rw [e2, stringscan_body E fuel s2 _ suf _ hin2 hb (by simp only [List.length_cons] at hf; omega)]
        simp only [List.length_append, List.length_cons, List.length_nil]; push_cast; ring
    · simp only [stringbody, h92, if_false, Bool.and_eq_true, bne_iff_ne, ne_eq] at hb
      have ih := fun r1 => stringscan_body E fuel s _ suf r1 hin1 hb.2 (by omega)
      unfold stringscan
      rw [if_pos ⟨h.1, by rw [h.2]; exact hb.1⟩]
      simp only [h.2, h92, if_false]
      split_ifs <;> rw [e1, ih, hlen]


theorem foldl_writestringbyte (l : List Nat) (s : result_t × List Nat) :
    (l.foldl writestringbyte s).2 = s.2 ++ l := by
  induction l generalizing s with
  | nil => simp
  | cons b l ih => simp [List.foldl, ih, writestringbyte]

/-- C11. String literals are kept verbatim: when the input holds at the cursor
a `"`, a body of bytes other than `"` and backslash and of backslash pairs,
and a closing `"`, `stringp` allocates one `StringCell` whose span is exactly
the body, returns its handle with the cursor just past the closing quote, and
`writestringcell` prints the cell as the literal, byte for byte. -/
theorem string_verbatim (E : Env F) (cells : List (Cell F)) (r : result_t)
    (pre body suf : List Nat) (hin : E.input = pre ++ 34 :: body ++ 34 :: suf)
    (hr : r.pos_end = pre.length) (hb : stringbody false body = true) :
    (stringp E cells r).1 = cells ++ [Cell.StringCell ⟨Base.input, r.pos_end + 1⟩
      ⟨Base.input, r.pos_end + 1 + body.length⟩] ∧
    E.span ⟨Base.input, r.pos_end + 1⟩ ⟨Base.input, r.pos_end + 1 + body.length⟩ = body ∧
    (stringp E cells r).2.cell = cells.length ∧
    (stringp E cells r).2.pos_start = r.pos_end ∧
    (stringp E cells r).2.pos_end = r.pos_end + 1 + body.length + 1 ∧
    ∀ e out, e.cell = (stringp E cells r).2.cell →
      (writestringcell E (stringp E cells r).1 e out).map (fun x => x.2)
        = some (out ++ 34 :: body ++ [34]) := by
  have h34 := @inputAt_append_cons F E pre (body ++ 34 :: suf) 34 (by simpa using hin)
  have hin1 : E.input = (pre ++ [34]) ++ body ++ 34 :: suf := by simpa using hin
  have e1 : r.pos_end + 1 = ((pre ++ [34]).length : Nat) := by rw [hr]; simp
  have hlen : body.length < E.input.length + 1 := by
    rw [hin]; simp only [List.length_append, List.length_cons]; omega
  have hscan := fun r1 => stringscan_body E (E.input.length + 1) body _ suf r1 hin1 hb hlen
  have hspan : E.span ⟨Base.input, r.pos_end + 1⟩ ⟨Base.input, r.pos_end + 1 + body.length⟩
      = body := by
    rw [e1]; exact span_of_append hin1
  have hend : r.pos_end + 1 + (body.length : Int) < E.input_size := by
    rw [hr]; unfold Env.input_size; rw [hin]
    simp only [List.length_append, List.length_cons]; push_cast; omega
  have hp : stringp E cells r = (cells ++ [Cell.StringCell ⟨Base.input, r.pos_end + 1⟩
      ⟨Base.input, r.pos_end + 1 + body.length⟩],
      { (stringscan E (E.input.length + 1) (r.pos_end + 1)
          { move r with col_end := (move r).col_end + 1 }).2 with
        pos_end := r.pos_end + 1 + body.length + 1
        col_end := (stringscan E (E.input.length + 1) (r.pos_end + 1)
          { move r with col_end := (move r).col_end + 1 }).2.col_end + 1
        cell := cells.length }) := by
    unfold stringp
    rw [if_neg (by rw [hr, h34.2]; simp; exact h34.1)]
    simp only [stringscan_pos_start, newcell]
    rw [e1, hscan, ← e1]
    simp only [hend, if_true, move]
  rw [hp]
  refine ⟨rfl, hspan, rfl, ?_, rfl, ?_⟩
  · simp [stringscan_pos_start, move]
  · intro e out he
    simp only at he
    unfold writestringcell
    rw [he, cellAt_append_length]
    simp only [Option.map_some', foldl_writestringbyte, hspan]
    simp

/-- The literal `"a\"b"` between `f ` and ` z`: the body keeps the backslash
and the escaped quote. -/
theorem string_verbatim_witness :
    (stringp (clib (bytes "f " ++ 34 :: [97, 92, 34, 98] ++ 34 :: bytes " z") []) nilArena
      (result (-1) 0 2 0 0 0 2)).2.pos_end = 2 + 1 + (4 : Nat) + 1 ∧
    (writestringcell (clib (bytes "f " ++ 34 :: [97, 92, 34, 98] ++ 34 :: bytes " z") [])
      (stringp (clib (bytes "f " ++ 34 :: [97, 92, 34, 98] ++ 34 :: bytes " z") []) nilArena
        (result (-1) 0 2 0 0 0 2)).1 (result 1 0 0 0 0 0 0) []).map (fun x => x.2)
      = some ([] ++ 34 :: [97, 92, 34, 98] ++ [34]) :=
  have h := string_verbatim (clib (bytes "f " ++ 34 :: [97, 92, 34, 98] ++ 34 :: bytes " z") [])
    nilArena (result (-1) 0 2 0 0 0 2) (bytes "f ") [97, 92, 34, 98] (bytes " z") rfl
    (by decide) (by decide)
  ⟨h.2.2.2.2.1, h.2.2.2.2.2 (result 1 0 0 0 0 0 0) [] (by rw [h.2.2.1]; rfl)⟩

/-! ## C12: the symbol lexer -/

/-- With one pass of fuel for every byte that is left, the loop of `symbolp`
stops at the first index that is the end of the input or holds a byte that
ends a symbol. -/
theorem symbolscan_least (E : Env F) : ∀ (fuel : Nat) (p : Int), 0 ≤ p →
    (E.input_size - p).toNat < fuel →
    p ≤ symbolscan E fuel p ∧
    (E.input_size ≤ symbolscan E fuel p ∨ symchar (E.inputAt (symbolscan E fuel p)) = false) ∧
    ∀ i, p ≤ i → i < symbolscan E fuel p → i < E.input_size ∧ symchar (E.inputAt i) = true
  | 0, _, _, hf => by omega
  | fuel + 1, p, h0, hf => by
    unfold symbolscan
    split_ifs with h
    · obtain ⟨h1, h2, h3, h4, h5⟩ := h
      obtain ⟨a, b, c⟩ := symbolscan_least E fuel (p + 1) (by omega) (by omega)
      refine ⟨by omega, b, ?_⟩
      intro i hi1 hi2
      by_cases hip : i = p
      · subst hip
        exact ⟨h1, by simp [symchar, h2, h3, h4, h5]⟩
      · exact c i (by omega) hi2
    · refine ⟨le_refl _, ?_, fun i h1 h2 => by omega⟩
      by_cases hp : p < E.input_size
      · right
        by_contra hs
        apply h
        simp only [Bool.not_eq_false] at hs
        simp only [symchar, Bool.and_eq_true, Bool.not_eq_true', bne_iff_ne, ne_eq] at hs
        exact ⟨hp, hs.1.1.1, hs.1.1.2, hs.1.2, hs.2⟩
      · left; omega

/-- C12. Symbol lexer: from a cursor at `s = r.pos_end`, let `e` be the least
index from `s` on that is the end of the input or holds a white space byte, a
bracket, a `"` or a `,`. When `e = s`, `symbolp` returns no node and leaves
the cursor where it was; otherwise it allocates one `SymbolCell` with the
span `[s, e)` and returns its handle with `pos_end = e` and `col_end` grown
by `e - s`. -/
theorem symbol_lexer (E : Env F) (cells : List (Cell F)) (r : result_t) (h0 : 0 ≤ r.pos_end) :
    ∃ e : Int, r.pos_end ≤ e ∧ (E.input_size ≤ e ∨ symchar (E.inputAt e) = false) ∧
      (∀ i, r.pos_end ≤ i → i < e → i < E.input_size ∧ symchar (E.inputAt i) = true) ∧
      (e = r.pos_end → symbolp E cells r = (cells, move r)) ∧
      (e ≠ r.pos_end → symbolp E cells r =
        (cells ++ [Cell.SymbolCell ⟨Base.input, r.pos_end⟩ ⟨Base.input, e⟩],
          result cells.length r.pos_end e r.line_end r.line_end r.col_end
            (r.col_end + (e - r.pos_end)))) ∧
      ((symbolp E cells r).2.cell < 0 ↔ e = r.pos_end) := by
  have hfuel : (E.input_size - r.pos_end).toNat < E.input.length + 1 := by
    unfold Env.input_size; omega
  obtain ⟨a, b, c⟩ := symbolscan_least E (E.input.length + 1) r.pos_end h0 hfuel
  refine ⟨symbolscan E (E.input.length + 1) r.pos_end, a, b, c, ?_, ?_, ?_⟩
  · intro he
    unfold symbolp
    simp only [move, he, if_true]
  · intro he
    unfold symbolp
    simp only [move, he, if_false, newcell, result]
  · unfold symbolp
    simp only [move, newcell]
    split_ifs with he
    · simp [he]
    · simp only [he, iff_false, not_lt]
      exact Int.natCast_nonneg _

/-- The symbol `ab` of the input `ab c`, and no symbol at the space behind it. -/
theorem symbol_lexer_witness :
    ∃ e : Int, start.pos_end ≤ e ∧
      ((clib (bytes "ab c") []).input_size ≤ e ∨
        symchar ((clib (bytes "ab c") []).inputAt e) = false) ∧
      (∀ i, start.pos_end ≤ i → i < e →
        i < (clib (bytes "ab c") []).input_size ∧
          symchar ((clib (bytes "ab c") []).inputAt i) = true) ∧
      (e = start.pos_end → symbolp (clib (bytes "ab c") []) nilArena start = (nilArena, move start)) ∧
      (e ≠ start.pos_end → symbolp (clib (bytes "ab c") []) nilArena start =
        (nilArena ++ [Cell.SymbolCell ⟨Base.input, start.pos_end⟩ ⟨Base.input, e⟩],
          result (nilArena : List (Cell (List Nat))).length start.pos_end e start.line_end
            start.line_end start.col_end (start.col_end + (e - start.pos_end)))) ∧
      ((symbolp (clib (bytes "ab c") []) nilArena start).2.cell < 0 ↔ e = start.pos_end) :=
  symbol_lexer (clib (bytes "ab c") []) nilArena start (by decide)

/-! ## C13: operator classification -/

theorem span_ne_nil_iff (E : Env F) (c c_end : Ptr) : E.span c c_end ≠ [] ↔ c_end.off > c.off := by
  constructor
  · intro h
    by_contra hn
    exact h (span_nil E c c_end (by omega))
  · intro h
    rw [span_cons E c c_end h]
    simp

/-- C13. Operator classification: `isoperator` is true of a handle exactly
when its cell is a `SymbolCell` whose span is non-empty and holds no ASCII
letter, no digit and no underscore; it is false of every `IntCell`,
`FractionalCell`, `StringCell`, `QuoteCell` and `ConsCell`. -/
theorem operator_classification (E : Env F) (cells : List (Cell F)) (c : Int) :
    (isoperator E cells c = true ↔
      ∃ name name_end, cellAt cells c = some (Cell.SymbolCell name name_end) ∧
        E.span name name_end ≠ [] ∧
        ∀ b ∈ E.span name name_end, isalnum b = false ∧ b ≠ 95) ∧
    (∀ i, cellAt cells c = some (Cell.IntCell i) → isoperator E cells c = false) ∧
    (∀ f, cellAt cells c = some (Cell.FractionalCell f) → isoperator E cells c = false) ∧
    (∀ str str_end, cellAt cells c = some (Cell.StringCell str str_end) →
      isoperator E cells c = false) ∧
    (∀ q, cellAt cells c = some (Cell.QuoteCell q) → isoperator E cells c = false) ∧
    (∀ h t, cellAt cells c = some (Cell.ConsCell h t) → isoperator E cells c = false) := by
  refine ⟨?_, ?_, ?_, ?_, ?_, ?_⟩
  · rw [isoperator_all]
    constructor
    · intro h
      split at h
      · rename_i name name_end hc
        split_ifs at h with hgt
        refine ⟨name, name_end, hc, (span_ne_nil_iff E _ _).mpr hgt, ?_⟩
        intro b hb
        have := List.all_eq_true.mp h b hb
        simpa using this
      · simp at h
    · rintro ⟨name, name_end, hc, hne, hall⟩
      rw [hc]
      simp only [(span_ne_nil_iff E _ _).mp hne, if_true, List.all_eq_true]
      intro b hb
      have := hall b hb
      simp [this.1, this.2]
  all_goals (intros; rw [isoperator_all]; simp [*])

/-! ## C14: white space and comments -/

theorem lastline_foldl (acc l : List Nat) :
    l.foldl (fun acc b => if isterminator b then [] else acc ++ [b]) acc =
      if l.any isterminator then lastline l else acc ++ l := by
  induction l generalizing acc with
  | nil => simp
  | cons b l ih =>
    simp only [List.foldl_cons, List.any_cons, lastline]
    by_cases hb : isterminator b = true
    · simp only [hb, if_true, Bool.true_or]
    · simp only [Bool.not_eq_true] at hb
      simp only [hb, Bool.false_or, Bool.false_eq_true, if_false, List.nil_append]
      rw [ih, ih [b]]
      split_ifs <;> simp [lastline]

theorem lastline_cons_terminator (b : Nat) (l : List Nat) (hb : isterminator b = true) :
    lastline (b :: l) = lastline l := by
  simp [lastline, hb]

theorem lastline_cons (b : Nat) (l : List Nat) (hb : isterminator b = false) :
    lastline (b :: l) = if l.any isterminator then lastline l else b :: l := by
  unfold lastline
  simp only [List.foldl_cons, hb, List.nil_append]
  rw [lastline_foldl]
  simp [lastline]

theorem lastline_append (t l : List Nat) (h : l.any isterminator = true) :
    lastline (t ++ l) = lastline l := by
  unfold lastline
  rw [List.foldl_append, lastline_foldl, if_pos h]
  rfl

theorem lastline_eq_self (l : List Nat) (h : l.any isterminator = false) : lastline l = l := by
  have := lastline_foldl [] l
  simp only [h, List.nil_append] at this
  simpa [lastline] using this

theorem brokenrun_false {l : List Nat} (h : brokenrun l = false) :
    l.any isterminator = false ∧ 59 ∉ l := by
  unfold brokenrun at h
  rw [List.any_eq_false] at h
  constructor
  · rw [List.any_eq_false]
    intro b hb
    have := h b hb
    simp only [Bool.or_eq_true, not_or] at this
    simpa using this.1
  · intro hm
    have := h 59 hm
    simp at this

theorem skipcol_terminator (c : Int) (b : Nat) (l : List Nat) (hb : isterminator b = true) :
    skipcol c (b :: l) = skipcol 0 l := by
  unfold skipcol
  have h1 : brokenrun (b :: l) = true := by simp [brokenrun, hb]
  rw [h1, lastline_cons_terminator b l hb]
  by_cases h2 : brokenrun l = true
  · simp [h2]
  · simp only [Bool.not_eq_true] at h2
    obtain ⟨h3, h4⟩ := brokenrun_false h2
    simp [h2, lastline_eq_self l h3, h4]

theorem skipcol_blank (c : Int) (b : Nat) (l : List Nat) (hb : isterminator b = false)
    (h59 : b ≠ 59) : skipcol c (b :: l) = skipcol (c + width [b]) l := by
  unfold skipcol
  have h1 : brokenrun (b :: l) = brokenrun l := by simp [brokenrun, hb, h59]
  rw [h1, lastline_cons b l hb]
  by_cases h2 : brokenrun l = true
  · simp only [h2, if_true]
    by_cases h3 : l.any isterminator = true
    · simp [h3]
    · simp only [Bool.not_eq_true] at h3
      have h4 : 59 ∈ l := by
        unfold brokenrun at h2
        rw [List.any_eq_true] at h2
        obtain ⟨x, hx, hx2⟩ := h2
        rw [List.any_eq_false] at h3
        have := h3 x hx
        simp only [this, Bool.false_or, beq_iff_eq] at hx2
        exact hx2 ▸ hx
      simp [h3, lastline_eq_self l h3, h4]
  · simp only [Bool.not_eq_true] at h2
    simp only [h2, Bool.false_eq_true, if_false]
    simp only [width, List.map_cons, List.sum_cons, List.map_nil, List.sum_nil]
    ring

theorem skipcol_comment (c : Int) (t l : List Nat) (ht : t.any isterminator = false)
    (h59 : 59 ∈ t) (hl : l = [] ∨ ∃ b l1, l = b :: l1 ∧ isterminator b = true) :
    skipcol c (t ++ l) = skipcol 0 l := by
  have h1 : brokenrun (t ++ l) = true := by
    unfold brokenrun
    rw [List.any_eq_true]
    exact ⟨59, by simp [h59], by simp⟩
  rcases hl with rfl | ⟨b, l1, rfl, hb⟩
  · unfold skipcol
    rw [h1]
    simp [lastline_eq_self t ht, h59, brokenrun, width]
  · have h2 : (b :: l1).any isterminator = true := by simp [hb]
    have h3 : brokenrun (b :: l1) = true := by simp [brokenrun, hb]
    unfold skipcol
    rw [h1, h3, lastline_append t _ h2]
    simp


theorem drop_cons_at (E : Env F) (p : Int) (h0 : 0 ≤ p) (b : Nat) (s : List Nat)
    (h : E.input.drop p.toNat = b :: s) :
    p < E.input_size ∧ E.inputAt p = b ∧ E.input.drop (p + 1).toNat = s := by
  obtain ⟨k, rfl⟩ := Int.eq_ofNat_of_zero_le h0
  simp only [Int.toNat_natCast] at h
  have hk : k < E.input.length := by
    by_contra hn
    rw [List.drop_eq_nil_of_le (by omega)] at h
    simp at h
  have h2 := List.drop_eq_getElem_cons hk
  rw [h] at h2
  simp only [List.cons.injEq] at h2
  refine ⟨?_, ?_, ?_⟩
  · unfold Env.input_size; omega
  · rw [inputAt_natCast, List.getD_append _ _ _ _ hk, List.getD_eq_getElem _ _ hk]
    exact h2.1.symm
  · have e : ((k : Int) + 1).toNat = k + 1 := by omega
    rw [e]
    exact h2.2.symm

theorem drop_nil_at (E : Env F) (p : Int) (h0 : 0 ≤ p) (h : E.input.drop p.toNat = []) :
    E.input_size ≤ p := by
  have := List.drop_eq_nil_iff.mp h
  unfold Env.input_size
  omega

theorem drop_add_at (E : Env F) (p : Int) (h0 : 0 ≤ p) (n : Nat) :
    E.input.drop (p + n).toNat = (E.input.drop p.toNat).drop n := by
  have e : (p + (n : Int)).toNat = p.toNat + n := by omega
  rw [e, List.drop_drop, Nat.add_comm]

theorem skipline_run (E : Env F) : ∀ (fuel : Nat) (s : List Nat) (p : Int), 0 ≤ p →
    E.input.drop p.toNat = s → (s.takeWhile fun b => !isterminator b).length ≤ fuel →
    skipline E fuel p = p + (s.takeWhile fun b => !isterminator b).length
  | 0, s, p, _, _, hf => by
    simp only [Nat.le_zero] at hf
    simp [skipline, hf]
  | fuel + 1, [], p, h0, hs, _ => by
    have := drop_nil_at E p h0 hs
    unfold skipline
    rw [if_neg (by omega)]
    simp
  | fuel + 1, b :: s, p, h0, hs, hf => by
    obtain ⟨h1, h2, h3⟩ := drop_cons_at E p h0 b s hs
    unfold skipline
    by_cases hb : isterminator b = true
    · have : ¬ (b ≠ 10 ∧ b ≠ 13) := by
        simp only [isterminator, Bool.or_eq_true, beq_iff_eq] at hb
        omega
      rw [if_neg (by rw [h2]; tauto)]
      simp [List.takeWhile, hb]
    · have hb2 : b ≠ 10 ∧ b ≠ 13 := by
        simp only [isterminator, Bool.or_eq_true, beq_iff_eq, not_or] at hb
        exact hb
      simp only [Bool.not_eq_true] at hb
      simp only [List.takeWhile, hb, Bool.not_false, List.length_cons] at hf ⊢
      rw [if_pos ⟨h1, by rw [h2]; exact hb2.1, by rw [h2]; exact hb2.2⟩]
      rw [skipline_run E fuel s (p + 1) (by omega) h3 (by omega)]
      push_cast
      ring

theorem skiprun_comment : ∀ l : List Nat,
    skiprun true l = (l.takeWhile fun b => !isterminator b) ++
      skiprun false (l.dropWhile fun b => !isterminator b)
  | [] => by simp [skiprun]
  | b :: l => by
    by_cases hb : isterminator b = true
    · have hsp : isspace b = true := by
        simp only [isterminator, Bool.or_eq_true, beq_iff_eq] at hb
        rcases hb with rfl | rfl <;> decide
      simp [skiprun, hb, List.takeWhile, List.dropWhile, hsp]
    · simp only [Bool.not_eq_true] at hb
      simp [skiprun, hb, List.takeWhile, List.dropWhile, skiprun_comment l]

theorem dropWhile_terminator (l : List Nat) :
    skiprun false (l.dropWhile fun b => !isterminator b) = [] ∨
      ∃ b l1, skiprun false (l.dropWhile fun b => !isterminator b) = b :: l1 ∧
        isterminator b = true := by
  cases h : l.dropWhile fun b => !isterminator b with
  | nil => left; rfl
  | cons b l1 =>
    right
    have hb := List.head_dropWhile_not (fun b => !isterminator b) l (by rw [h]; simp)
    simp only [h, List.head_cons, Bool.not_eq_false', Bool.not_eq_true', Bool.not_eq_false] at hb
    have hsp : isspace b = true := by
      simp only [isterminator, Bool.or_eq_true, beq_iff_eq] at hb
      rcases hb with rfl | rfl <;> decide
    exact ⟨b, skiprun false l1, by simp [skiprun, hsp], hb⟩


theorem drop_takeWhile_length (l : List Nat) (f : Nat → Bool) :
    l.drop (l.takeWhile f).length = l.dropWhile f := by
  have h := List.drop_left (l.takeWhile f) (l.dropWhile f)
  rwa [List.takeWhile_append_dropWhile] at h

/-- The pass of `whitespaceloop` over a white space byte that ends no line. -/
theorem whitespaceloop_blank (E : Env F) (fuel : Nat) (p : Int) (r : result_t) (b : Nat)
    (h1 : p < E.input_size) (h2 : E.inputAt p = b) (hsp : isspace b = true)
    (hb : isterminator b = false) :
    whitespaceloop E (fuel + 1) p r = whitespaceloop E fuel (p + 1)
      { r with pos_end := r.pos_end + 1, col_end := r.col_end + width [b] } := by
  have hterm : ¬ (b = 10 ∨ b = 13) := by
    simp only [isterminator, Bool.or_eq_false_iff, beq_eq_false_iff_ne, ne_eq] at hb
    tauto
  rw [whitespaceloop, if_pos h1]
  simp only [h2, hsp, if_true, hterm, if_false]
  by_cases h32 : b = 32
  · subst h32; simp [width]
  · by_cases h9 : b = 9
    · subst h9; simp [width]
    · simp [width, h32, h9]

/-- The pass of `whitespaceloop` over a line terminator. -/
theorem whitespaceloop_terminator (E : Env F) (fuel : Nat) (p : Int) (r : result_t) (b : Nat)
    (h1 : p < E.input_size) (h2 : E.inputAt p = b) (hb : isterminator b = true) :
    whitespaceloop E (fuel + 1) p r = whitespaceloop E fuel (p + 1)
      { r with pos_end := r.pos_end + 1, line_end := r.line_end + 1, col_end := 0 } := by
  have hterm : b = 10 ∨ b = 13 := by
    simpa only [isterminator, Bool.or_eq_true, beq_iff_eq] using hb
  have hsp : isspace b = true := by rcases hterm with rfl | rfl <;> decide
  rw [whitespaceloop, if_pos h1]
  simp only [h2, hsp, if_true, hterm]

/-- The pass of `whitespaceloop` over a comment. -/
theorem whitespaceloop_comment (E : Env F) (fuel : Nat) (p : Int) (r : result_t)
    (h1 : p < E.input_size) (h2 : E.inputAt p = 59) :
    whitespaceloop E (fuel + 1) p r = whitespaceloop E fuel (skipline E E.input.length p)
      { r with pos_end := skipline E E.input.length p, col_end := 0,
               line_end := r.line_end + 1 } := by
  rw [whitespaceloop, if_pos h1]
  simp only [h2]
  rw [if_neg (by decide)]
  simp


/-- What the loop of `whitespacep` does from a cursor at `p`, said on the
bytes `s` that the input holds from `p` on. -/
theorem whitespaceloop_run (E : Env F) : ∀ (fuel : Nat) (s : List Nat) (p : Int) (r : result_t),
    0 ≤ p → E.input.drop p.toNat = s → s.length < fuel → r.pos_end = p →
    (whitespaceloop E fuel p r).cell = r.cell ∧
    (whitespaceloop E fuel p r).pos_start = r.pos_start ∧
    (whitespaceloop E fuel p r).line_start = r.line_start ∧
    (whitespaceloop E fuel p r).col_start = r.col_start ∧
    (whitespaceloop E fuel p r).pos_end = p + (skiprun false s).length ∧
    (whitespaceloop E fuel p r).col_end = skipcol r.col_end (skiprun false s) ∧
    r.line_end ≤ (whitespaceloop E fuel p r).line_end ∧
    (r.line_end < (whitespaceloop E fuel p r).line_end ↔ brokenrun (skiprun false s) = true)
  | 0, _, _, _, _, _, hf, _ => by omega
  | fuel + 1, [], p, r, h0, hs, _, hr => by
    have := drop_nil_at E p h0 hs
    rw [whitespaceloop, if_neg (by omega)]
    simp [skiprun, skipcol, brokenrun, width, hr]
  | fuel + 1, b :: s, p, r, h0, hs, hf, hr => by
    obtain ⟨h1, h2, h3⟩ := drop_cons_at E p h0 b s hs
    simp only [List.length_cons] at hf
    by_cases hsp : isspace b = true
    · have hrun : skiprun false (b :: s) = b :: skiprun false s := by simp [skiprun, hsp]
      rw [hrun]
      by_cases hb : isterminator b = true
      · rw [whitespaceloop_terminator E fuel p r b h1 h2 hb]
        obtain ⟨a1, a2, a3, a4, a5, a6, a7, _⟩ := whitespaceloop_run E fuel s (p + 1)
          { r with pos_end := r.pos_end + 1, line_end := r.line_end + 1, col_end := 0 }
          (by omega) h3 (by omega) (by simp [hr])
        simp only at a1 a2 a3 a4 a5 a6 a7
        refine ⟨a1, a2, a3, a4, ?_, ?_, by omega, ?_⟩
        · rw [a5]; simp only [List.length_cons]; push_cast; ring
        · rw [a6, skipcol_terminator _ b _ hb]
        · simp only [brokenrun, List.any_cons, hb, Bool.true_or, iff_true]
          omega
      · simp only [Bool.not_eq_true] at hb
        have h59 : b ≠ 59 := by rintro rfl; simp [isspace] at hsp
        rw [whitespaceloop_blank E fuel p r b h1 h2 hsp hb]
        obtain ⟨a1, a2, a3, a4, a5, a6, a7, a8⟩ := whitespaceloop_run E fuel s (p + 1)
          { r with pos_end := r.pos_end + 1, col_end := r.col_end + width [b] }
          (by omega) h3 (by omega) (by simp [hr])
        simp only at a1 a2 a3 a4 a5 a6 a7 a8
        refine ⟨a1, a2, a3, a4, ?_, ?_, a7, ?_⟩
        · rw [a5]; simp only [List.length_cons]; push_cast; ring
        · rw [a6, skipcol_blank _ b _ hb h59]
        · rw [a8]
          simp [brokenrun, hb, h59]
    · simp only [Bool.not_eq_true] at hsp
      by_cases h59 : b = 59
      · subst h59
        have hnt : isterminator 59 = false := by decide
        have hlen : ((59 :: s).takeWhile fun b => !isterminator b).length ≤ E.input.length := by
          refine le_trans (List.takeWhile_sublist _).length_le ?_
          rw [← hs, List.length_drop]
          omega
        have hp1 := skipline_run E E.input.length (59 :: s) p h0 hs hlen
        have htw : ((59 :: s).takeWhile fun b => !isterminator b)
            = 59 :: (s.takeWhile fun b => !isterminator b) := by
          simp [List.takeWhile, hnt]
        rw [htw] at hp1
        have hrest : E.input.drop (skipline E E.input.length p).toNat
            = s.dropWhile fun b => !isterminator b := by
          rw [hp1, drop_add_at E p h0, hs]
          simp only [List.length_cons, List.drop_succ_cons]
          exact drop_takeWhile_length _ _
        have hrun : skiprun false (59 :: s) = (59 :: (s.takeWhile fun b => !isterminator b)) ++
            skiprun false (s.dropWhile fun b => !isterminator b) := by
          simp [skiprun, isspace, skiprun_comment s]
        rw [whitespaceloop_comment E fuel p r h1 h2, hrun]
        obtain ⟨a1, a2, a3, a4, a5, a6, a7, _⟩ := whitespaceloop_run E fuel _
          (skipline E E.input.length p)
          { r with pos_end := skipline E E.input.length p, col_end := 0,
                   line_end := r.line_end + 1 }
          (by rw [hp1]; omega) hrest
          (lt_of_le_of_lt (List.dropWhile_sublist _).length_le (by omega)) rfl
        simp only at a1 a2 a3 a4 a5 a6 a7
        refine ⟨a1, a2, a3, a4, ?_, ?_, by omega, ?_⟩
        · rw [a5, hp1]; simp only [List.length_cons, List.length_append]; push_cast; ring
        · rw [a6]
          refine (skipcol_comment _ _ _ ?_ (List.mem_cons_self _ _) ?_).symm
          · rw [List.any_eq_false]
            intro x hx
            rcases List.mem_cons.mp hx with rfl | hx
            · simp [hnt]
            · have := List.mem_takeWhile_imp hx
              simpa using this
          · rcases dropWhile_terminator s with h | ⟨x, l1, h, hx⟩
            · left; exact h
            · right; exact ⟨x, l1, h, hx⟩
        · simp only [brokenrun, List.cons_append, List.any_cons, beq_self_eq_true, Bool.or_true,
            Bool.true_or, iff_true]
          omega
      · rw [whitespaceloop, if_pos h1]
        simp only [h2, hsp, h59, if_false, Bool.false_eq_true]
        simp [skiprun, hsp, h59, skipcol, brokenrun, width, hr]


/-- What `whitespacep` returns, said on the bytes that the input holds from
the cursor on. -/
theorem whitespacep_run (E : Env F) (r : result_t) (h0 : 0 ≤ r.pos_end) :
    (whitespacep E r).cell = -1 ∧
    (whitespacep E r).pos_start = r.pos_end ∧
    (whitespacep E r).line_start = r.line_end ∧
    (whitespacep E r).col_start = r.col_end ∧
    (whitespacep E r).pos_end
      = r.pos_end + (skiprun false (E.input.drop r.pos_end.toNat)).length ∧
    (whitespacep E r).col_end
      = skipcol r.col_end (skiprun false (E.input.drop r.pos_end.toNat)) ∧
    r.line_end ≤ (whitespacep E r).line_end ∧
    (r.line_end < (whitespacep E r).line_end ↔
      brokenrun (skiprun false (E.input.drop r.pos_end.toNat)) = true) := by
  have h := whitespaceloop_run E (E.input.length + 1) _ r.pos_end (move r) h0 rfl
    (by rw [List.length_drop]; omega) rfl
  exact h

/-- The run that `skiprun` takes ends at the end of the bytes or before a
byte that is neither white space nor the start of a comment. -/
theorem skiprun_stop : ∀ (c : Bool) (s : List Nat),
    ∃ rest, s = skiprun c s ++ rest ∧ (rest = [] ∨ blackchar (rest.headD 0) = true)
  | _, [] => ⟨[], by cases ‹Bool› <;> simp [skiprun], Or.inl rfl⟩
  | true, b :: s => by
    by_cases hb : isterminator b = true
    · obtain ⟨rest, h1, h2⟩ := skiprun_stop false s
      exact ⟨rest, by simp only [skiprun, hb, if_true, List.cons_append]; rw [← h1], h2⟩
    · obtain ⟨rest, h1, h2⟩ := skiprun_stop true s
      simp only [Bool.not_eq_true] at hb
      exact ⟨rest, by simp only [skiprun, hb, Bool.false_eq_true, if_false, List.cons_append]
                      rw [← h1], h2⟩
  | false, b :: s => by
    by_cases hsp : isspace b = true
    · obtain ⟨rest, h1, h2⟩ := skiprun_stop false s
      exact ⟨rest, by simp only [skiprun, hsp, if_true, List.cons_append]; rw [← h1], h2⟩
    · by_cases h59 : b = 59
      · obtain ⟨rest, h1, h2⟩ := skiprun_stop true s
        subst h59
        exact ⟨rest, by simp only [skiprun, show isspace 59 = false by decide,
                          Bool.false_eq_true, if_false, if_true, List.cons_append]
                        rw [← h1], h2⟩
      · refine ⟨b :: s, by simp [skiprun, hsp, h59], Or.inr ?_⟩
        simp only [Bool.not_eq_true] at hsp
        simp [blackchar, hsp, h59]

/-- Where C14 as stated fails: on the input of a line terminator, two spaces
and a comment that reaches the end of the input, all five bytes are skipped;
the spaces skipped after the last line terminator are two columns wide, and
`whitespacep` returns the column 0, to which the comment has set it. -/
theorem whitespace_skip_comment_column :
    skiprun false ((clib (bytes "\n  ;x") []).input.drop start.pos_end.toNat) = bytes "\n  ;x" ∧
    statedcol start.col_end (bytes "\n  ;x") = 2 ∧
    whitespacep (clib (bytes "\n  ;x") []) start = result (-1) 0 5 0 2 0 0 := by
  decide!

/-- C14, amended. White space and comments: from a cursor at or after the
start of the input, `whitespacep` returns no node, with `pos_start` the entry
`pos_end` and `pos_end` moved over the longest run of white space bytes and
comments, so that it is the end of the input or holds a byte that is neither
white space nor the `;` of a comment. `col_end` is the entry column plus the
width of the run (space 1, tab 4) when the run has no line terminator and no
comment; else it is 0 when the run ends in a comment that no line terminator
follows, and the width of the spaces and tabs after the last line terminator
otherwise. `line_end > line_start` holds exactly when a line terminator or a
comment was skipped. -/
theorem whitespace_skip (E : Env F) (r : result_t) (h0 : 0 ≤ r.pos_end) :
    (∃ rest, E.input.drop r.pos_end.toNat
        = skiprun false (E.input.drop r.pos_end.toNat) ++ rest ∧
      (rest = [] ∨ blackchar (rest.headD 0) = true)) ∧
    (whitespacep E r).cell = -1 ∧
    (whitespacep E r).pos_start = r.pos_end ∧
    (whitespacep E r).pos_end
      = r.pos_end + (skiprun false (E.input.drop r.pos_end.toNat)).length ∧
    (whitespacep E r).col_end
      = skipcol r.col_end (skiprun false (E.input.drop r.pos_end.toNat)) ∧
    ((whitespacep E r).line_end > (whitespacep E r).line_start ↔
      brokenrun (skiprun false (E.input.drop r.pos_end.toNat)) = true) := by
  obtain ⟨a1, a2, a3, _, a5, a6, _, a8⟩ := whitespacep_run E r h0
  refine ⟨skiprun_stop false _, a1, a2, a5, a6, ?_⟩
  rw [a3]
  exact a8

/-- The cursor after the space, the comment, the line terminator and the tab
of the input ` ;c`, newline, tab, `x`. -/
theorem whitespace_skip_witness :
    (∃ rest, (clib (bytes " ;c\n\tx") []).input.drop start.pos_end.toNat
        = skiprun false ((clib (bytes " ;c\n\tx") []).input.drop start.pos_end.toNat) ++ rest ∧
      (rest = [] ∨ blackchar (rest.headD 0) = true)) ∧
    (whitespacep (clib (bytes " ;c\n\tx") []) start).cell = -1 ∧
    (whitespacep (clib (bytes " ;c\n\tx") []) start).pos_start = start.pos_end ∧
    (whitespacep (clib (bytes " ;c\n\tx") []) start).pos_end
      = start.pos_end +
        (skiprun false ((clib (bytes " ;c\n\tx") []).input.drop start.pos_end.toNat)).length ∧
    (whitespacep (clib (bytes " ;c\n\tx") []) start).col_end
      = skipcol start.col_end
        (skiprun false ((clib (bytes " ;c\n\tx") []).input.drop start.pos_end.toNat)) ∧
    ((whitespacep (clib (bytes " ;c\n\tx") []) start).line_end >
        (whitespacep (clib (bytes " ;c\n\tx") []) start).line_start ↔
      brokenrun
        (skiprun false ((clib (bytes " ;c\n\tx") []).input.drop start.pos_end.toNat)) = true) :=
  whitespace_skip (clib (bytes " ;c\n\tx") []) start (by decide)

/-! ## C18: the top-level loop can fail to advance -/

/-- C18. The top-level loop can fail to advance: on the input of the single
byte `)` one pass of the driver from the initial cursor returns no node, the
arena and the cursor it started from, with `pos_end` still below
`input_size`; the loop condition stays true, the same state repeats, and the
loop has not ended after any number of passes. -/
theorem top_level_stuck (E : Env F) (hin : E.input = [41]) (fuel : Nat) (hf : 1 ≤ fuel)
    (out : List Nat) :
    applicativeexprp E fuel nilArena (whitespacep E start) true = some (nilArena, start) ∧
    start.cell < 0 ∧ start.pos_end < E.input_size ∧
    ez2scmpass E fuel nilArena start out = some (nilArena, start, out) ∧
    ∀ passes, ez2scmloop E fuel passes nilArena start out = none := by
  obtain ⟨k, rfl⟩ : ∃ k, fuel = k + 1 := ⟨fuel - 1, by omega⟩
  have h41 := @inputAt_append_cons F E [] [] 41 (by simpa using hin)
  simp only [List.length_nil, Nat.cast_zero] at h41
  have hws : whitespacep E start = start := by
    rw [whitespacep_stop E start (Or.inr (by
      simp only [start, result, h41.2]
      decide))]
    rfl
  have hparse : applicativeexprp E (k + 1) nilArena start true = some (nilArena, start) := by
    rw [applicativeexprp, if_neg (by simp only [start, result]; omega)]
    simp [lookahead, start, result, h41.2, move]
  have hpass : ez2scmpass E (k + 1) nilArena start out = some (nilArena, start, out) := by
    unfold ez2scmpass
    rw [hws, hparse]
    simp [start, result]
  refine ⟨by rw [hws]; exact hparse, by decide, h41.1, hpass, ?_⟩
  intro passes
  induction passes with
  | zero => rfl
  | succ n ih =>
    rw [ez2scmloop, hpass]
    simp only []
    rw [if_pos (show start.pos_end < E.input_size from h41.1)]
    exact ih

/-- The run of C18 on the input `)`. -/
theorem top_level_stuck_witness :
    applicativeexprp (clib (bytes ")") []) 1 nilArena (whitespacep (clib (bytes ")") []) start)
      true = some (nilArena, start) ∧
    start.cell < 0 ∧ start.pos_end < (clib (bytes ")") []).input_size ∧
    ez2scmpass (clib (bytes ")") []) 1 nilArena start [] = some (nilArena, start, []) ∧
    ∀ passes, ez2scmloop (clib (bytes ")") []) 1 passes nilArena start [] = none :=
  top_level_stuck (clib (bytes ")") []) rfl 1 (by decide) []

/-! ## C15: a comment and its omission -/

theorem skiprun_comment_line (rest : List Nat) : ∀ t : List Nat,
    (∀ b ∈ t, isterminator b = false) →
    skiprun true (t ++ 10 :: rest) = t ++ 10 :: skiprun false rest
  | [], _ => by simp [skiprun, isterminator]
  | b :: t, h => by
    have hb := h b (List.mem_cons_self _ _)
    simp only [List.cons_append, skiprun, hb, Bool.false_eq_true, if_false]
    have ih := skiprun_comment_line rest t (fun x hx => h x (List.mem_cons_of_mem _ hx))
    exact congrArg (List.cons b) ih

theorem drop_append_at (E : Env F) (pre s : List Nat) (hin : E.input = pre ++ s) :
    E.input.drop ((pre.length : Int)).toNat = s := by
  rw [Int.toNat_natCast, hin, List.drop_left]

/-- What `whitespacep` returns from a cursor at a comment that a line feed
ends, and from the same cursor at the line feed alone: with `k` the bytes
that are skipped of what follows the line feed. -/
theorem whitespacep_comment_line (E1 E2 : Env F) (pre t rest : List Nat)
    (ht : ∀ b ∈ t, isterminator b = false)
    (h1 : E1.input = pre ++ 59 :: t ++ 10 :: rest) (h2 : E2.input = pre ++ 10 :: rest)
    (r : result_t) (hr : r.pos_end = pre.length) :
    (whitespacep E1 r).pos_end
      = (pre.length : Int) + 1 + t.length + 1 + (skiprun false rest).length ∧
    (whitespacep E2 r).pos_end = (pre.length : Int) + 1 + (skiprun false rest).length ∧
    (whitespacep E1 r).col_end = skipcol 0 (skiprun false rest) ∧
    (whitespacep E2 r).col_end = skipcol 0 (skiprun false rest) ∧
    (whitespacep E1 r).line_end > (whitespacep E1 r).line_start ∧
    (whitespacep E2 r).line_end > (whitespacep E2 r).line_start := by
  have h0 : 0 ≤ r.pos_end := by rw [hr]; exact Int.natCast_nonneg _
  have hnt : ((59 :: t).any isterminator) = false := by
    rw [List.any_eq_false]
    intro x hx
    rcases List.mem_cons.mp hx with rfl | hx
    · decide
    · simp [ht x hx]
  obtain ⟨_, _, a3, _, a5, a6, _, a8⟩ := whitespacep_run E1 r h0
  obtain ⟨_, _, b3, _, b5, b6, _, b8⟩ := whitespacep_run E2 r h0
  have hd1 : E1.input.drop r.pos_end.toNat = 59 :: (t ++ 10 :: rest) := by
    rw [hr]; exact drop_append_at E1 pre _ (by simpa using h1)
  have hd2 : E2.input.drop r.pos_end.toNat = 10 :: rest := by
    rw [hr]; exact drop_append_at E2 pre _ h2
  have hrun1 : skiprun false (59 :: (t ++ 10 :: rest)) = (59 :: t) ++ 10 :: skiprun false rest := by
    simp [skiprun, isspace, skiprun_comment_line rest t ht]
  have hrun2 : skiprun false (10 :: rest) = 10 :: skiprun false rest := by
    simp [skiprun, isspace]
  rw [hd1, hrun1] at a5 a6 a8
  rw [hd2, hrun2] at b5 b6 b8
  refine ⟨?_, ?_, ?_, ?_, ?_, ?_⟩
  · rw [a5, hr]; simp only [List.length_append, List.length_cons]; push_cast; ring
  · rw [b5, hr]; simp only [List.length_cons]; push_cast; ring
  · rw [a6, skipcol_comment _ _ _ hnt (List.mem_cons_self _ _) (Or.inr ⟨10, _, rfl, by decide⟩),
      skipcol_terminator _ _ _ (by decide)]
  · rw [b6, skipcol_terminator _ _ _ (by decide)]
  · rw [a3]; exact a8.mpr (by simp [brokenrun])
  · rw [b3]; exact b8.mpr (by simp [brokenrun, isterminator])

theorem skiprun_identifier (t : List Nat) (s : List Nat) (hi : identifier t) :
    skiprun false (t ++ s) = [] := by
  obtain ⟨hne, ha⟩ := hi
  match t, hne, ha with
  | b :: t, _, ha =>
    have hb := blackchar_of_isalpha (ha b (List.mem_cons_self _ _))
    simp only [blackchar, Bool.and_eq_true, Bool.not_eq_true', bne_iff_ne, ne_eq] at hb
    simp [skiprun, hb.1, hb.2]


/-- Two or more identifiers separated by single spaces at the end of the
input, read in head context from a cursor at the first of them. -/
theorem applicativeexprp_line [DecidableEq F] (E : Env F) (hE : E.scansIntegers)
    (hd t0 t1 : List Nat) (ts : List (List Nat)) (hid : ∀ x ∈ t0 :: t1 :: ts, identifier x)
    (hin : E.input = hd ++ spaced (t0 :: t1 :: ts)) (w : result_t) (hw : w.pos_end = hd.length)
    (fuel : Nat) (hf : ts.length + 3 ≤ fuel) (cells : List (Cell F)) :
    ∃ cells1 r1, applicativeexprp E fuel cells w true = some (cells1, r1) ∧
      denotes E cells1 (chain ((t0 :: t1 :: ts).map Tree.symbol)) r1.cell = true := by
  have hidt := hid t0 (List.mem_cons_self _ _)
  have htok : TokenAt E w.pos_end t0 := by
    rw [hw]
    exact @tokenAt_of_append F E hd t0 (spacedtail (t1 :: ts)) (by simpa [spaced] using hin)
      hidt.1 (fun b hb => symchar_of_isalpha (hidt.2 b hb))
      (Or.inr (by simp [spacedtail, symchar, isspace]))
  have hrest : RestTokens E (w.pos_end + t0.length) (t1 :: ts) := by
    have := @restTokens_of_append F E (t1 :: ts) (hd ++ t0) [] (by simpa [spaced] using hin)
      (fun x hx => hid x (List.mem_cons_of_mem _ hx)) (Or.inl rfl)
    have e : (((hd ++ t0).length : Nat) : Int) = w.pos_end + t0.length := by
      rw [hw]; simp only [List.length_append]; push_cast; ring
    rw [← e]
    exact this
  obtain ⟨cells1, c, tl, hrun, hch, _⟩ := applicativeexprp_tokens E hE t0 t1 ts fuel cells w
    htok hidt hrest hf
  exact ⟨cells1, _, hrun, symbolChain_denotes _ _ hch⟩

/-- Where C15 as stated fails: in the input of a quote mark, a space, the
comment `;c`, a line feed and `12`, the driver reads no node at the quote
mark, skips the comment as one and reads the integer 12; with the bytes `;c`
deleted the `%d` conversion of `intp`, which starts at the space after the
quote mark, runs over the line feed, and the driver reads the quoted 12. -/
theorem comment_omission_quote :
    ez2scmpass (clib (bytes "' ;c\n12") []) 4 nilArena start []
      = some (nilArena, result (-1) 1 1 0 0 1 1, []) ∧
    whitespacep (clib (bytes "' ;c\n12") []) (result (-1) 1 1 0 0 1 1)
      = result (-1) 1 5 0 2 1 0 ∧
    (applicativeexprp (clib (bytes "' ;c\n12") []) 4 nilArena
        (whitespacep (clib (bytes "' ;c\n12") []) (result (-1) 1 1 0 0 1 1)) true).map
      (fun x => denotes (clib (bytes "' ;c\n12") []) x.1 (Tree.integer 12) x.2.cell) = some true ∧
    (applicativeexprp (clib (bytes "' \n12") []) 4 nilArena
        (whitespacep (clib (bytes "' \n12") []) start) true).map
      (fun x => denotes (clib (bytes "' \n12") []) x.1 (Tree.quoted (Tree.integer 12)) x.2.cell)
      = some true ∧
    ez2scmloop (clib (bytes "' ;c\n12") []) 4 3 nilArena start [] = some (bytes "12\n\n") ∧
    ez2scmloop (clib (bytes "' \n12") []) 4 3 nilArena start [] = some (bytes "'12\n\n") := by
  decide!

/-- C15, amended. A comment and its omission: from the same cursor,
`whitespacep` started on the bytes `;` `t` line feed `rest`, where `t` has no
line terminator, and started on the bytes line feed `rest`, end at the same
byte `k` of `rest`, with the same `col_end` and both with
`line_end > line_start`. And when the input is such a comment line followed
by two or more identifiers separated by single spaces, the driver's parse of
it and its parse of the input without the bytes `;` `t` give handles that
stand for the same tree. -/
theorem comment_omission [DecidableEq F] (E1 E2 : Env F) (pre t rest : List Nat)
    (ht : ∀ b ∈ t, isterminator b = false)
    (h1 : E1.input = pre ++ 59 :: t ++ 10 :: rest) (h2 : E2.input = pre ++ 10 :: rest)
    (r : result_t) (hr : r.pos_end = pre.length) :
    (∃ k : Nat, k ≤ rest.length ∧
      (whitespacep E1 r).pos_end = (pre.length : Int) + 1 + t.length + 1 + k ∧
      (whitespacep E2 r).pos_end = (pre.length : Int) + 1 + k) ∧
    (whitespacep E1 r).col_end = (whitespacep E2 r).col_end ∧
    (whitespacep E1 r).line_end > (whitespacep E1 r).line_start ∧
    (whitespacep E2 r).line_end > (whitespacep E2 r).line_start ∧
    ∀ (tokens : List (List Nat)) (fuel : Nat), E1.scansIntegers → E2.scansIntegers →
      pre = [] → rest = spaced tokens → 2 ≤ tokens.length → (∀ x ∈ tokens, identifier x) →
      tokens.length + 3 ≤ fuel →
      ∃ cells1 r1 cells2 r2 tree,
        applicativeexprp E1 fuel nilArena (whitespacep E1 r) true = some (cells1, r1) ∧
        applicativeexprp E2 fuel nilArena (whitespacep E2 r) true = some (cells2, r2) ∧
        denotes E1 cells1 tree r1.cell = true ∧ denotes E2 cells2 tree r2.cell = true := by
  obtain ⟨a1, a2, a3, a4, a5, a6⟩ := whitespacep_comment_line E1 E2 pre t rest ht h1 h2 r hr
  refine ⟨⟨(skiprun false rest).length, ?_, a1, a2⟩, by rw [a3, a4], a5, a6, ?_⟩
  · obtain ⟨x, hx, _⟩ := skiprun_stop false rest
    have := congrArg List.length hx
    simp only [List.length_append] at this
    omega
  · intro tokens fuel hE1 hE2 hpre hrest hn hid hf
    subst hpre
    obtain ⟨t0, t1, ts, rfl⟩ : ∃ t0 t1 ts, tokens = t0 :: t1 :: ts := by
      match tokens, hn with
      | t0 :: t1 :: ts, _ => exact ⟨t0, t1, ts, rfl⟩
    have hk : skiprun false rest = [] := by
      rw [hrest]
      exact skiprun_identifier t0 _ (hid t0 (List.mem_cons_self _ _))
    rw [hk] at a1 a2
    simp only [List.length_cons] at hf
    obtain ⟨cells1, r1, p1, d1⟩ := applicativeexprp_line E1 hE1 (59 :: t ++ [10]) t0 t1 ts hid
      (by rw [h1, hrest]; simp) (whitespacep E1 r)
      (by rw [a1]; simp only [List.length_nil, List.length_append, List.length_cons]
          push_cast; ring)
      fuel (by omega) nilArena
    obtain ⟨cells2, r2, p2, d2⟩ := applicativeexprp_line E2 hE2 [10] t0 t1 ts hid
      (by rw [h2, hrest]; simp) (whitespacep E2 r)
      (by rw [a2]; simp) fuel (by omega) nilArena
    exact ⟨cells1, r1, cells2, r2, _, p1, p2, d1, d2⟩

/-- The comment line `;c` before `a b`, and `a b` after the bare line feed. -/
theorem comment_omission_witness :
    (∃ k : Nat, k ≤ (bytes "a b").length ∧
      (whitespacep (clib (59 :: bytes "c" ++ 10 :: bytes "a b") []) start).pos_end = 3 ∧
      (whitespacep (clib (10 :: bytes "a b") []) start).pos_end = 1) ∧
    ∃ cells1 r1 cells2 r2 tree,
      applicativeexprp (clib (59 :: bytes "c" ++ 10 :: bytes "a b") []) 5 nilArena
        (whitespacep (clib (59 :: bytes "c" ++ 10 :: bytes "a b") []) start) true
        = some (cells1, r1) ∧
      applicativeexprp (clib (10 :: bytes "a b") []) 5 nilArena
        (whitespacep (clib (10 :: bytes "a b") []) start) true = some (cells2, r2) ∧
      denotes (clib (59 :: bytes "c" ++ 10 :: bytes "a b") []) cells1 tree r1.cell = true ∧
      denotes (clib (10 :: bytes "a b") []) cells2 tree r2.cell = true :=
  have h := comment_omission (clib (59 :: bytes "c" ++ 10 :: bytes "a b") [])
    (clib (10 :: bytes "a b") []) [] (bytes "c") (bytes "a b") (by decide) rfl rfl start rfl
  ⟨⟨0, by decide, by decide!, by decide!⟩,
    h.2.2.2.2 [bytes "a", bytes "b"] 5 (clib_scansIntegers _ _) (clib_scansIntegers _ _) rfl
      (by decide) (by decide) (by decide) (by decide)⟩

/-! ## The leading layout of the printer -/

theorem tab2coltabs_run : ∀ (fuel : Nat) (c : Int), 0 ≤ c → c ≤ fuel →
    ∃ k : Nat, (∀ out, tab2coltabs fuel c out = (c - 4 * k, out ++ List.replicate k 9)) ∧
      0 ≤ c - 4 * k ∧ c - 4 * k ≤ 4
  | 0, c, h0, hf => ⟨0, by intro out; simp [tab2coltabs], by simpa using h0, by
      simp only [Nat.cast_zero] at hf ⊢; omega⟩
  | fuel + 1, c, h0, hf => by
    by_cases h : c > 4
    · obtain ⟨k, h1, h2, h3⟩ := tab2coltabs_run fuel (c - 4) (by omega)
        (by push_cast at hf; omega)
      refine ⟨k + 1, ?_, by push_cast; omega, by push_cast; omega⟩
      intro out
      rw [tab2coltabs, if_pos h, h1]
      simp only [List.append_assoc, List.singleton_append, Prod.mk.injEq]
      constructor
      · push_cast; ring
      · rw [List.replicate_succ]
    · refine ⟨0, ?_, by simpa using h0, by simp only [Nat.cast_zero]; omega⟩
      intro out
      rw [tab2coltabs, if_neg h]
      simp

/-- The padding of `tab2col`: tabs and spaces only, as wide as the column,
a tab counted as four columns. -/
theorem tab2col_width (c : Int) (h0 : 0 ≤ c) (out : List Nat) :
    tab2col c out = out ++ tab2col c [] ∧ (∀ b ∈ tab2col c [], b = 9 ∨ b = 32) ∧
      width (tab2col c []) = c := by
  have hf : c ≤ (c.toNat : Int) := by omega
  obtain ⟨k, h1, h2, h3⟩ := tab2coltabs_run c.toNat c h0 hf
  unfold tab2col
  simp only [h1, List.nil_append, List.append_assoc, true_and]
  constructor
  · intro b hb
    rcases List.mem_append.mp hb with hb | hb
    · left; exact (List.mem_replicate.mp hb).2
    · right; exact (List.mem_replicate.mp hb).2
  · unfold width
    simp only [List.map_append, List.map_replicate, List.sum_append, List.sum_replicate,
      smul_eq_mul]
    simp only [show ((9 : Nat) = 32) = False by decide, if_false, if_true]
    have : ((c - 4 * (k : Int)).toNat : Int) = c - 4 * k := by omega
    simp only [nsmul_eq_mul, mul_one, this]
    ring

/-- The newlines and the padding that `writeexpr` writes before a node that
starts `n >= 1` lines down. -/
theorem writeexpr_layout (E : Env F) (cells : List (Cell F)) (fuel : Nat) (e : result_t)
    (out : List Nat) (hn : 0 < e.line_start) :
    writeexpr E cells fuel e out = writeexpr E cells fuel { e with line_start := 0 }
      (out ++ List.replicate e.line_start.toNat 10 ++ tab2col e.col_start []) := by
  cases fuel with
  | zero => rfl
  | succ f =>
    have h1 : tab2col e.col_start (out ++ List.replicate e.line_start.toNat 10)
        = out ++ List.replicate e.line_start.toNat 10 ++ tab2col e.col_start [] := by
      by_cases hc : 0 ≤ e.col_start
      · rw [(tab2col_width _ hc _).1]
      · have e0 : e.col_start.toNat = 0 := by omega
        simp [tab2col, e0, tab2coltabs]
    rw [writeexpr, writeexpr]
    simp only [hn, if_true, lt_self_iff_false, if_false, linebreaks, Int.toNat_zero,
      List.replicate_zero, List.append_nil, h1]


theorem foldl_writestringbyte_col_start (l : List Nat) (s : result_t × List Nat) :
    (l.foldl writestringbyte s).1.col_start = s.1.col_start := by
  induction l generalizing s with
  | nil => rfl
  | cons b l ih =>
    rw [List.foldl_cons, ih]
    unfold writestringbyte
    split_ifs <;> rfl

/-- The cursor that the printer returns starts at the column of the context. -/
theorem writeexpr_col_start (E : Env F) (cells : List (Cell F)) : ∀ fuel : Nat,
    (∀ e out t o, writeexpr E cells fuel e out = some (t, o) → t.col_start = e.col_start) ∧
    (∀ e0 out t o, writelistexpr E cells fuel e0 out = some (t, o) →
      t.col_start = e0.col_start) ∧
    (∀ e0 e r list out t o, writelistloop E cells fuel e0 e r list out = some (t, o) →
      r.col_start = e0.col_start → t.col_start = e0.col_start)
  | 0 => ⟨fun _ _ _ _ h => by simp [writeexpr] at h, fun _ _ _ _ h => by simp [writelistexpr] at h,
      fun _ _ _ _ _ _ _ h => by simp [writelistloop] at h⟩
  | fuel + 1 => by
    obtain ⟨ih1, ih2, ih3⟩ := writeexpr_col_start E cells fuel
    refine ⟨?_, ?_, ?_⟩
    · intro e out t o h
      rw [writeexpr] at h
      simp only at h
      split at h
      · have := ih2 _ _ _ _ h
        simpa using this
      · simp only [writeintexpr] at h
        split at h
        · simp only [Option.some.injEq, Prod.mk.injEq] at h
          rw [← h.1]; rfl
        · simp at h
      · simp only [writefractionalexpr] at h
        split at h
        · simp only [Option.some.injEq, Prod.mk.injEq] at h
          rw [← h.1]; rfl
        · simp at h
      · simp only [writesymbolexpr] at h
        split at h
        · simp only [Option.some.injEq, Prod.mk.injEq] at h
          rw [← h.1]; rfl
        · simp at h
      · simp only [writestringcell] at h
        split at h
        · simp only [Option.some.injEq, Prod.mk.injEq] at h
          rw [← h.1]
          simp only [foldl_writestringbyte_col_start]
          rfl
        · simp at h
      · have := ih1 _ _ _ _ h
        simpa using this
      · simp at h
    · intro e0 out t o h
      rw [writelistexpr] at h
      exact ih3 _ _ _ _ _ _ _ h rfl
    · intro e0 e r list out t o h hr
      rw [writelistloop] at h
      split_ifs at h with hl
      · split at h
        · simp at h
        · simp only at h
          split at h
          · simp at h
          · split at h
            · simp at h
            · split_ifs at h <;> exact ih3 _ _ _ _ _ _ _ h hr
        · simp only at h
          split at h
          · simp at h
          · simp only [Option.some.injEq, Prod.mk.injEq] at h
            rw [← h.1]; rfl
      · simp only [Option.some.injEq, Prod.mk.injEq] at h
        rw [← h.1]
        exact hr


/-- More fuel does not change what the printer returns. -/
theorem writeexpr_mono (E : Env F) (cells : List (Cell F)) : ∀ fuel : Nat,
    (∀ e out v, writeexpr E cells fuel e out = some v →
      ∀ g, fuel ≤ g → writeexpr E cells g e out = some v) ∧
    (∀ e0 out v, writelistexpr E cells fuel e0 out = some v →
      ∀ g, fuel ≤ g → writelistexpr E cells g e0 out = some v) ∧
    (∀ e0 e r list out v, writelistloop E cells fuel e0 e r list out = some v →
      ∀ g, fuel ≤ g → writelistloop E cells g e0 e r list out = some v)
  | 0 => ⟨fun _ _ _ h => by simp [writeexpr] at h, fun _ _ _ h => by simp [writelistexpr] at h,
      fun _ _ _ _ _ _ h => by simp [writelistloop] at h⟩
  | fuel + 1 => by
    obtain ⟨ih1, ih2, ih3⟩ := writeexpr_mono E cells fuel
    refine ⟨?_, ?_, ?_⟩
    · intro e out v h g hg
      obtain ⟨g, rfl⟩ : ∃ k, g = k + 1 := ⟨g - 1, by omega⟩
      rw [writeexpr] at h ⊢
      simp only at h ⊢
      cases hc : cellAt cells e.cell with
      | none => simp [hc] at h
      | some c =>
        cases c <;> simp only [hc] at h ⊢
        · exact ih2 _ _ _ h g (by omega)
        · exact h
        · exact h
        · exact h
        · exact h
        · exact ih1 _ _ _ h g (by omega)
    · intro e0 out v h g hg
      obtain ⟨g, rfl⟩ : ∃ k, g = k + 1 := ⟨g - 1, by omega⟩
      rw [writelistexpr] at h ⊢
      exact ih3 _ _ _ _ _ _ h g (by omega)
    · intro e0 e r list out v h g hg
      obtain ⟨g, rfl⟩ : ∃ k, g = k + 1 := ⟨g - 1, by omega⟩
      rw [writelistloop] at h ⊢
      by_cases hl : list ≠ 0
      · rw [if_pos hl] at h ⊢
        cases hc : cellAt cells list with
        | none => simp [hc] at h
        | some c =>
          cases c with
          | ConsCell hd tl =>
            simp only [hc] at h ⊢
            cases hw : writeexpr E cells fuel { e with cell := head cells list } out with
            | none => simp [hw] at h
            | some p =>
              have hw2 := ih1 _ _ _ hw g (by omega)
              simp only [hw, hw2] at h ⊢
              cases hb : breaksline cells (head cells list) with
              | none => simp [hb] at h
              | some b =>
                simp only [hb] at h ⊢
                split_ifs at h ⊢ <;> exact ih3 _ _ _ _ _ _ h g (by omega)
          | IntCell _ | FractionalCell _ | SymbolCell _ _ | StringCell _ _ | QuoteCell _ =>
            simp only [hc] at h ⊢
            cases hw : writeexpr E cells fuel
                { e with col_start := e.col_start + 3, cell := list, line_start := 0 }
                (out ++ [32, 46, 32]) with
            | none => simp [hw] at h
            | some p =>
              have hw2 := ih1 _ _ _ hw g (by omega)
              simp only [hw, hw2] at h ⊢
              exact h
      · rw [if_neg hl] at h ⊢
        exact h

/-! ## C16: the layout of the children of a list -/

theorem writelistloop_layout (E : Env F) (cells : List (Cell F)) (e0 : result_t) (fuel : Nat) :
    ∀ (xs : List Int) (x0 list ls c : Int) (r : result_t) (out text : List Nat),
    xs ≠ [] → ProperList cells list xs → (ls = 0 ∨ ls = 1) →
    childrenlayout E cells fuel e0 xs c (if ls = 1 then out ++ 10 :: tab2col c [] else out)
      = some text →
    ∃ r1, writelistloop E cells (fuel + xs.length + 1) e0
      { e0 with cell := x0, line_start := ls, col_start := c } r list out
        = some (r1, text ++ [41])
  | [], _, _, _, _, _, _, _, hne, _, _, _ => absurd rfl hne
  | x :: xs, x0, list, ls, c, r, out, text, _, hp, hls, h => by
    obtain ⟨hl, n, hc, hp1⟩ := hp
    have hhead : head cells list = x := by simp [head, hc]
    have htail : tail cells list = n := by simp [tail, hc]
    rw [childrenlayout] at h
    cases hw : writeexpr E cells fuel { e0 with cell := x, line_start := 0, col_start := c }
        (if ls = 1 then out ++ 10 :: tab2col c [] else out) with
    | none => simp [hw] at h
    | some p =>
      obtain ⟨temp, out1⟩ := p
      cases hb : breaksline cells x with
      | none => simp [hw, hb] at h
      | some b =>
        simp only [hw, hb] at h
        have hcol : temp.col_start = c := (writeexpr_col_start E cells fuel).1 _ _ _ _ hw
        have hchild : writeexpr E cells (fuel + xs.length + 1)
            { e0 with cell := x, line_start := ls, col_start := c } out = some (temp, out1) := by
          rcases hls with rfl | rfl
          · simp only [show ¬ ((0 : Int) = 1) by decide, if_false] at hw
            exact (writeexpr_mono E cells fuel).1 _ _ _ hw _ (by omega)
          · simp only [if_true] at hw
            rw [writeexpr_layout E cells _ _ _ (show (0 : Int) < 1 by decide)]
            simp only [Int.toNat_one, List.replicate_one, List.append_assoc, List.singleton_append]
            exact (writeexpr_mono E cells fuel).1 _ _ _ hw _ (by omega)
        have e1 : fuel + (x :: xs).length + 1 = (fuel + xs.length + 1) + 1 := by
          simp only [List.length_cons]; omega
        rw [e1, writelistloop, if_pos hl]
        simp only [hc, hhead, htail, hchild, hb]
        by_cases hxs : xs = []
        · subst hxs
          have hn : n = 0 := hp1
          subst hn
          simp only [if_true] at h
          simp only [ne_eq, not_true_eq_false, false_and, if_false, List.length_nil, add_zero,
            zero_add]
          rw [writelistloop]
          simp only [ne_eq, not_true_eq_false, if_false, Option.some.injEq, Prod.mk.injEq]
          simp only [Option.some.injEq] at h
          exact ⟨_, rfl, by rw [h]⟩
        · have hn : n ≠ 0 := by
            match xs, hxs, hp1 with
            | y :: ys, _, hp1 => exact hp1.1
          simp only [hxs, if_false] at h
          cases b with
          | true =>
            simp only [if_true] at h
            simp only [if_true, show ¬ ((1 : Int) = 0) by decide, and_false, if_false, hcol]
            exact writelistloop_layout E cells e0 fuel xs x n 1 c _ out1 text hxs hp1
              (Or.inr rfl) (by simpa using h)
          | false =>
            simp only [Bool.false_eq_true, if_false] at h
            simp only [Bool.false_eq_true, if_false, hn, ne_eq, not_false_eq_true, and_self,
              if_true]
            exact writelistloop_layout E cells e0 fuel xs x n 0 (temp.col_end + 1) _
              (out1 ++ [32]) text hxs hp1 (Or.inl rfl) (by simpa using h)


/-- An atom that stays on the line is printed as its text and breaks no line. -/
theorem writeexpr_atom (E : Env F) (cells : List (Cell F)) (x : Int) (s : List Nat)
    (h : atomtext E cells x = some s) (fuel : Nat) (e : result_t) (he : e.cell = x)
    (hl : e.line_start = 0) (out : List Nat) :
    writeexpr E cells (fuel + 1) e out
      = some (result (-1) 0 0 0 0 e.col_start (e.col_start + s.length), out ++ s) ∧
    breaksline cells x = some false := by
  unfold atomtext at h
  rw [writeexpr]
  simp only [hl, lt_self_iff_false, if_false, linebreaks, Int.toNat_zero, List.replicate_zero,
    List.append_nil, he]
  cases hc : cellAt cells x with
  | none => simp [hc] at h
  | some c =>
    cases c <;> simp only [hc, Option.some.injEq] at h ⊢
    · simp at h
    · subst h; simp [writeintexpr, he, hc, breaksline]
    · subst h; simp [writefractionalexpr, he, hc, breaksline]
    · subst h; simp [writesymbolexpr, he, hc, breaksline]
    · simp at h
    · simp at h

theorem childrenlayout_atoms (E : Env F) (cells : List (Cell F)) (e0 : result_t) (fuel : Nat) :
    ∀ (xs : List Int) (texts : List (List Nat)) (c : Int) (out : List Nat),
    List.Forall₂ (fun x s => atomtext E cells x = some s) xs texts →
    childrenlayout E cells (fuel + 1) e0 xs c out = some (out ++ spaced texts)
  | [], _, _, out, h => by
    cases h
    simp [childrenlayout, spaced]
  | x :: xs, _, c, out, h => by
    cases h with
    | cons hx hrest =>
      rename_i s texts
      obtain ⟨hw, hb⟩ := writeexpr_atom E cells x s hx fuel
        { e0 with cell := x, line_start := 0, col_start := c } rfl rfl out
      rw [childrenlayout]
      simp only [hw, hb]
      by_cases hxs : xs = []
      · subst hxs
        cases hrest
        simp [spaced, spacedtail]
      · simp only [hxs, if_false, Bool.false_eq_true]
        rw [childrenlayout_atoms E cells e0 fuel xs texts _ _ hrest]
        match texts, hrest with
        | [], hrest => cases hrest; exact absurd rfl hxs
        | t :: ts, _ => simp [spaced, spacedtail, result]

/-- C16. Printer child layout: for a proper list with the children `xs`,
`writelistexpr` writes `(`, the children laid out as `childrenlayout` says,
the first at the column after the `(`, and `)`: between two children exactly
one space when the first of them is an `IntCell`, a `FractionalCell` or a
`SymbolCell`, and exactly one newline and the padding to the column at which
the first of them started when it is a `QuoteCell`, a `ConsCell` (NIL too) or
a `StringCell`. A list of atoms of the first kind is printed as
`(a1 a2 ... an)` on one line. -/
theorem child_layout (E : Env F) (cells : List (Cell F)) (list : Int) (xs : List Int)
    (hp : ProperList cells list xs) (e0 : result_t) (he : e0.cell = list) (out : List Nat)
    (fuel : Nat) :
    (∀ text, childrenlayout E cells fuel e0 xs (e0.col_start + 1) (out ++ [40]) = some text →
      ∃ r, writelistexpr E cells (fuel + xs.length + 2) e0 out = some (r, text ++ [41])) ∧
    (∀ texts, List.Forall₂ (fun x s => atomtext E cells x = some s) xs texts →
      ∃ r, writelistexpr E cells (xs.length + 3) e0 out
        = some (r, out ++ 40 :: spaced texts ++ [41])) := by
  have key : ∀ (f : Nat) (text : List Nat),
      childrenlayout E cells f e0 xs (e0.col_start + 1) (out ++ [40]) = some text →
      ∃ r, writelistexpr E cells (f + xs.length + 2) e0 out = some (r, text ++ [41]) := by
    intro f text h
    rw [show f + xs.length + 2 = (f + xs.length + 1) + 1 by omega, writelistexpr]
    by_cases hxs : xs = []
    · subst hxs
      have hl : list = 0 := hp
      simp only [childrenlayout, Option.some.injEq] at h
      simp only [List.length_nil, add_zero]
      rw [writelistloop, he, hl]
      simp only [ne_eq, not_true_eq_false, if_false, Option.some.injEq, Prod.mk.injEq]
      exact ⟨_, rfl, by rw [h]⟩
    · rw [he]
      exact writelistloop_layout E cells e0 f xs e0.cell list 0 (e0.col_start + 1) _
        (out ++ [40]) text hxs hp (Or.inl rfl) (by simpa using h)
  refine ⟨key fuel, ?_⟩
  intro texts ht
  have h := childrenlayout_atoms E cells e0 0 xs texts (e0.col_start + 1) (out ++ [40]) ht
  obtain ⟨r, hr⟩ := key 1 _ h
  refine ⟨r, ?_⟩
  rw [show xs.length + 3 = 1 + xs.length + 2 by omega, hr]
  simp


/-- The lists `(a "s" b)` and `(a b)` over the input `a "s" b`: after the text
node the printer goes to a new line and pads to column 3, where the text node
started. -/
theorem child_layout_witness :
    (∃ r, writelistexpr (clib [97, 32, 34, 115, 34, 32, 98] [])
      [Cell.ConsCell 0 0, Cell.SymbolCell ⟨Base.input, 0⟩ ⟨Base.input, 1⟩,
        Cell.StringCell ⟨Base.input, 3⟩ ⟨Base.input, 4⟩,
        Cell.SymbolCell ⟨Base.input, 6⟩ ⟨Base.input, 7⟩, Cell.ConsCell 3 0, Cell.ConsCell 2 4,
        Cell.ConsCell 1 5, Cell.ConsCell 1 4] 7 (result 6 0 0 0 0 0 0) []
        = some (r, [40, 97, 32, 34, 115, 34, 10, 32, 32, 32, 98] ++ [41])) ∧
    (∃ r, writelistexpr (clib [97, 32, 34, 115, 34, 32, 98] [])
      [Cell.ConsCell 0 0, Cell.SymbolCell ⟨Base.input, 0⟩ ⟨Base.input, 1⟩,
        Cell.StringCell ⟨Base.input, 3⟩ ⟨Base.input, 4⟩,
        Cell.SymbolCell ⟨Base.input, 6⟩ ⟨Base.input, 7⟩, Cell.ConsCell 3 0, Cell.ConsCell 2 4,
        Cell.ConsCell 1 5, Cell.ConsCell 1 4] 5 (result 7 0 0 0 0 0 0) []
        = some (r, [] ++ 40 :: spaced [[97], [98]] ++ [41])) :=
  ⟨(child_layout (clib [97, 32, 34, 115, 34, 32, 98] [])
      [Cell.ConsCell 0 0, Cell.SymbolCell ⟨Base.input, 0⟩ ⟨Base.input, 1⟩,
        Cell.StringCell ⟨Base.input, 3⟩ ⟨Base.input, 4⟩,
        Cell.SymbolCell ⟨Base.input, 6⟩ ⟨Base.input, 7⟩, Cell.ConsCell 3 0, Cell.ConsCell 2 4,
        Cell.ConsCell 1 5, Cell.ConsCell 1 4] 6 [1, 2, 3] ⟨by decide, 5, by decide!, by decide, 4, by decide!, by decide, 0,
        by decide!, rfl⟩ (result 6 0 0 0 0 0 0) rfl [] 2).1 _ (by decide!),
    (child_layout (clib [97, 32, 34, 115, 34, 32, 98] [])
      [Cell.ConsCell 0 0, Cell.SymbolCell ⟨Base.input, 0⟩ ⟨Base.input, 1⟩,
        Cell.StringCell ⟨Base.input, 3⟩ ⟨Base.input, 4⟩,
        Cell.SymbolCell ⟨Base.input, 6⟩ ⟨Base.input, 7⟩, Cell.ConsCell 3 0, Cell.ConsCell 2 4,
        Cell.ConsCell 1 5, Cell.ConsCell 1 4] 7 [1, 3] ⟨by decide, 4, by decide!, by decide, 0, by decide!, rfl⟩
      (result 7 0 0 0 0 0 0) rfl [] 0).2 _
      (List.Forall₂.cons (by decide!) (List.Forall₂.cons (by decide!) List.Forall₂.nil))⟩

/-! ## C20: the leading layout of the printer -/

/-- Where C20 as stated fails: with `line_start = 0` and `col_start = 3` the
printer writes the symbol `a` with nothing before it, not a padding of width
3: it pads to the column only after a line break. -/
theorem leading_layout_same_line :
    (writeexpr (clib (bytes "a") [])
      [Cell.ConsCell 0 0, Cell.SymbolCell ⟨Base.input, 0⟩ ⟨Base.input, 1⟩] 1
      (result 1 0 0 0 0 3 3) []).map (fun x => x.2) = some (bytes "a") := by
  decide!

/-- C20, amended. Printer leading layout: for a position context with
`line_start = n >= 0` and `col_start = c >= 0`, `writeexpr` first writes
exactly `n` newlines and then a padding of tabs and spaces only, whose width
(tab 4, space 1) is exactly `c` when `n >= 1` and 0 when `n = 0`, and then
what it writes for the same node with `line_start = 0`; for a symbol that is
the name of the symbol. -/
theorem leading_layout (E : Env F) (cells : List (Cell F)) (fuel : Nat) (e : result_t)
    (out : List Nat) (hn : 0 ≤ e.line_start) (hc : 0 ≤ e.col_start) :
    ∃ pad : List Nat, (∀ b ∈ pad, b = 9 ∨ b = 32) ∧
      width pad = (if e.line_start = 0 then 0 else e.col_start) ∧
      writeexpr E cells fuel e out = writeexpr E cells fuel { e with line_start := 0 }
        (out ++ List.replicate e.line_start.toNat 10 ++ pad) ∧
      ∀ name name_end, cellAt cells e.cell = some (Cell.SymbolCell name name_end) →
        (writeexpr E cells (fuel + 1) e out).map (fun x => x.2)
          = some (out ++ List.replicate e.line_start.toNat 10 ++ pad ++ E.span name name_end) := by
  by_cases h0 : e.line_start = 0
  · refine ⟨[], by simp, by simp [h0, width], ?_, ?_⟩
    · have he : { e with line_start := 0 } = e := by rw [← h0]
      simp [h0, he]
    · intro name name_end hcell
      rw [writeexpr_symbol E cells fuel e out name name_end h0 hcell]
      simp [h0]
  · have hpos : 0 < e.line_start := by omega
    obtain ⟨_, h2, h3⟩ := tab2col_width e.col_start hc []
    refine ⟨tab2col e.col_start [], h2, by simp [h0, h3], writeexpr_layout E cells fuel e out hpos,
      ?_⟩
    intro name name_end hcell
    rw [writeexpr_layout E cells (fuel + 1) e out hpos,
      writeexpr_symbol E cells fuel { e with line_start := 0 } _ name name_end rfl hcell]
    simp

/-- A symbol printed two lines down at column 6: two newlines, a tab and two
spaces, and the name. -/
theorem leading_layout_witness :
    ∃ pad : List Nat, (∀ b ∈ pad, b = 9 ∨ b = 32) ∧
      width pad = (if (result 1 0 0 2 0 6 6).line_start = 0 then 0
        else (result 1 0 0 2 0 6 6).col_start) ∧
      writeexpr (clib (bytes "a") [])
          [Cell.ConsCell 0 0, Cell.SymbolCell ⟨Base.input, 0⟩ ⟨Base.input, 1⟩] 1
          (result 1 0 0 2 0 6 6) []
        = writeexpr (clib (bytes "a") [])
          [Cell.ConsCell 0 0, Cell.SymbolCell ⟨Base.input, 0⟩ ⟨Base.input, 1⟩] 1
          { result 1 0 0 2 0 6 6 with line_start := 0 }
          ([] ++ List.replicate (result 1 0 0 2 0 6 6).line_start.toNat 10 ++ pad) ∧
      ∀ name name_end,
        cellAt ([Cell.ConsCell 0 0, Cell.SymbolCell ⟨Base.input, 0⟩ ⟨Base.input, 1⟩] :
          List (Cell (List Nat))) (result 1 0 0 2 0 6 6).cell
            = some (Cell.SymbolCell name name_end) →
        (writeexpr (clib (bytes "a") [])
          [Cell.ConsCell 0 0, Cell.SymbolCell ⟨Base.input, 0⟩ ⟨Base.input, 1⟩] (1 + 1)
          (result 1 0 0 2 0 6 6) []).map (fun x => x.2)
          = some ([] ++ List.replicate (result 1 0 0 2 0 6 6).line_start.toNat 10 ++ pad ++
              (clib (bytes "a") []).span name name_end) :=
  leading_layout (clib (bytes "a") [])
    [Cell.ConsCell 0 0, Cell.SymbolCell ⟨Base.input, 0⟩ ⟨Base.input, 1⟩] 1
    (result 1 0 0 2 0 6 6) [] (by decide) (by decide)

/-! ## C17: spans and the end of the input -/

/-- C17 fails: on the input of a `"` and a backslash, the unterminated
literal whose last byte opens an escape pair, `stringp` skips the byte after
the backslash without the test against `input_size`: the `StringCell` ends at
3 and the cursor is at 3, past the end of the input at 2, and
`writestringcell` prints the byte that the memory holds after the input, also
in the pass of the driver. -/
theorem span_bounds_escape :
    (clib [34, 92] [120]).input_size = 2 ∧
    stringp (clib [34, 92] [120]) nilArena start
      = (nilArena ++ [Cell.StringCell ⟨Base.input, 1⟩ ⟨Base.input, 3⟩], result 1 0 3 0 0 0 2) ∧
    (writestringcell (clib [34, 92] [120])
      (nilArena ++ [Cell.StringCell ⟨Base.input, 1⟩ ⟨Base.input, 3⟩]) (result 1 0 0 0 0 0 0)
      []).map (fun x => x.2) = some [34, 92, 120, 34] ∧
    (ez2scmpass (clib [34, 92] [120]) 3 nilArena start []).map (fun x => (x.2.1.pos_end, x.2.2))
      = some (3, [34, 92, 120, 34, 10, 10]) := by
  decide!

/-! ## C19: the arena only grows -/

theorem newcell_extends (cells : List (Cell F)) (c : Cell F) : cells <+: (newcell cells c).1 :=
  List.prefix_append _ _

theorem intp_extends (E : Env F) (cells : List (Cell F)) (r : result_t) :
    cells <+: (intp E cells r).1 := by
  unfold intp
  cases E.scan_d (E.cstr r.pos_end) with
  | none => exact List.prefix_refl _
  | some a => exact List.prefix_append _ _

theorem fractionalp_extends (E : Env F) (cells : List (Cell F)) (r : result_t) :
    cells <+: (fractionalp E cells r).1 := by
  obtain ⟨g, hg⟩ := fractionalp_cells E cells r
  rw [hg]
  exact List.prefix_append _ _

theorem stringp_extends (E : Env F) (cells : List (Cell F)) (r : result_t) :
    cells <+: (stringp E cells r).1 := by
  unfold stringp
  simp only
  by_cases h : r.pos_end ≥ E.input_size ∨ E.inputAt r.pos_end ≠ 34
  · rw [if_pos h]
  · rw [if_neg h]
    exact List.prefix_append _ _

theorem symbolp_extends (E : Env F) (cells : List (Cell F)) (r : result_t) :
    cells <+: (symbolp E cells r).1 := by
  unfold symbolp
  simp only
  split_ifs
  · exact List.prefix_refl _
  · exact List.prefix_append _ _

theorem atomp_extends (E : Env F) (cells cells1 : List (Cell F)) (r r1 : result_t)
    (h : atomp E cells r = some (cells1, r1)) : cells <+: cells1 := by
  have h1 := intp_extends E cells (move r)
  have h2 := fractionalp_extends E (intp E cells (move r)).1 (move r)
  have h3 := stringp_extends E (fractionalp E (intp E cells (move r)).1 (move r)).1 (move r)
  have h4 := symbolp_extends E
    (stringp E (fractionalp E (intp E cells (move r)).1 (move r)).1 (move r)).1 (move r)
  unfold atomp at h
  simp only at h
  split_ifs at h
  all_goals
    simp only [Option.some.injEq] at h
    first
      | (rw [← (Prod.mk.inj h).1]; exact h1.trans h2)
      | (have e := congrArg Prod.fst h
         simp only at e
         rw [← e]
         first
           | exact (h1.trans h2).trans h3
           | exact ((h1.trans h2).trans h3).trans h4)

theorem postfixoperator_extends (cells : List (Cell F)) (h a : result_t) :
    cells <+: (postfixoperator cells h a).1 := by
  unfold postfixoperator
  simp only [cons, newcell, List.append_assoc]
  exact List.prefix_append _ _

theorem operatorcombine_extends (E : Env F) (cells cells1 : List (Cell F)) (h a1 a2 r1 : result_t)
    (hc : operatorcombine E cells h a1 a2 = some (cells1, r1)) : cells <+: cells1 := by
  unfold operatorcombine at hc
  split at hc
  · simp at hc
  · split_ifs at hc
    · simp only [cons, newcell, Option.some.injEq, Prod.mk.injEq] at hc
      rw [← hc.1]; exact List.prefix_append _ _
    · split at hc
      · simp at hc
      · split_ifs at hc
        · simp only [cons, newcell, Option.some.injEq, Prod.mk.injEq, List.append_assoc] at hc
          rw [← hc.1]; exact List.prefix_append _ _
        · split at hc
          · simp at hc
          · split_ifs at hc <;>
              simp only [cons, csymbol, newcell, Option.some.injEq, Prod.mk.injEq,
                List.append_assoc] at hc <;>
              (rw [← hc.1]; exact List.prefix_append _ _)


theorem primaryexpr_extends (E : Env F) (group list : Parser F)
    (hg : ∀ cs x c1 r1, group cs x = some (c1, r1) → cs <+: c1)
    (hl : ∀ cs x c1 r1, list cs x = some (c1, r1) → cs <+: c1)
    (cells cells1 : List (Cell F)) (r r1 : result_t) (c : Nat) (q : Bool)
    (h : primaryexpr E group list cells r c q = some (cells1, r1)) : cells <+: cells1 := by
  unfold primaryexpr at h
  simp only at h
  have hprim : ∀ c2 h2, (if c = 40 then group cells r else if c = 91 then list cells r
      else atomp E cells r) = some (c2, h2) → cells <+: c2 := by
    intro c2 h2 hp
    split_ifs at hp
    · exact hg _ _ _ _ hp
    · exact hl _ _ _ _ hp
    · exact atomp_extends E _ _ _ _ hp
  cases hp : (if c = 40 then group cells r else if c = 91 then list cells r
      else atomp E cells r) with
  | none => simp [hp] at h
  | some p =>
    obtain ⟨c2, h2⟩ := p
    have := hprim c2 h2 hp
    simp only [hp] at h
    split_ifs at h
    · simp only [quote, newcell, Option.some.injEq, Prod.mk.injEq] at h
      rw [← h.1]
      exact this.trans (List.prefix_append _ _)
    · simp only [Option.some.injEq, Prod.mk.injEq] at h
      rw [← h.1]
      exact this

theorem operatorexpr_extends (E : Env F) (parse : Parser F)
    (hp : ∀ cs x c1 r1, parse cs x = some (c1, r1) → cs <+: c1)
    (cells cells1 : List (Cell F)) (h arg1 r1 : result_t)
    (hc : operatorexpr E parse cells h arg1 = some (cells1, r1)) : cells <+: cells1 := by
  unfold operatorexpr at hc
  split at hc
  · simp at hc
  · split_ifs at hc
    · simp only [Option.some.injEq, Prod.mk.injEq] at hc
      rw [← hc.1]
    · simp only at hc
      by_cases hcol : (whitespacep E arg1).col_end > h.col_start
      · rw [if_pos hcol] at hc
        split at hc
        · simp at hc
        · rename_i c2 arg2 hparse
          have h1 := hp _ _ _ _ hparse
          split_ifs at hc
          · exact h1.trans (operatorcombine_extends E _ _ _ _ _ _ hc)
          · simp only [Option.some.injEq] at hc
            have e := congrArg Prod.fst hc
            simp only at e
            rw [← e]
            exact h1.trans (postfixoperator_extends _ _ _)
      · rw [if_neg hcol] at hc
        simp only [Option.some.injEq] at hc
        have e := congrArg Prod.fst hc
        simp only at e
        rw [← e]
        exact postfixoperator_extends _ _ _

theorem searchargs_extends (E : Env F) (parse : Bool → Parser F)
    (loop : List (Cell F) → result_t → Int → Int → result_t → Bool →
      Option (List (Cell F) × result_t))
    (hp : ∀ b cs x c1 r1, parse b cs x = some (c1, r1) → cs <+: c1)
    (hloop : ∀ cs h hc tc a b c1 r1, loop cs h hc tc a b = some (c1, r1) →
      ∀ base : List (Cell F), base <+: cs → (base.length : Int) ≤ tc → base <+: c1)
    (cells cells1 : List (Cell F)) (h r1 : result_t)
    (hc : searchargs E parse loop cells h = some (cells1, r1)) : cells <+: cells1 := by
  unfold searchargs at hc
  simp only at hc
  split_ifs at hc
  · simp only [Option.some.injEq, Prod.mk.injEq] at hc
    rw [← hc.1]
  · simp only [Option.some.injEq, Prod.mk.injEq] at hc
    rw [← hc.1]
  · split at hc
    · simp at hc
    · rename_i c2 arg1 hparse
      have h1 := hp _ _ _ _ _ hparse
      split_ifs at hc
      · exact h1.trans (operatorexpr_extends E _ (hp true) _ _ _ _ _ hc)
      · refine hloop _ _ _ _ _ _ _ _ hc cells ?_ ?_
        · simp only [cons, newcell, List.append_assoc]
          exact h1.trans (List.prefix_append _ _)
        · simp only [cons, newcell]
          exact Int.ofNat_le.mpr h1.length_le
      · simp only [cons, newcell, Option.some.injEq, Prod.mk.injEq] at hc
        rw [← hc.1]
        exact h1.trans (List.prefix_append _ _)
      · simp only [Option.some.injEq, Prod.mk.injEq] at hc
        rw [← hc.1]
        exact h1


/-- The three productions and their two loops leave every cell that was in
the arena when they were called as it was; the loops store into the tail of
the cell `tailcell`, which is not below the top of the arena `base` of their
caller. -/
theorem parsers_extend (E : Env F) : ∀ fuel : Nat,
    (∀ cells r b c1 r1, applicativeexprp E fuel cells r b = some (c1, r1) → cells <+: c1) ∧
    (∀ cells h hc tc a b c1 r1, argloop E fuel cells h hc tc a b = some (c1, r1) →
      ∀ base : List (Cell F), base <+: cells → (base.length : Int) ≤ tc → base <+: c1) ∧
    (∀ cells r c1 r1, groupexprp E fuel cells r = some (c1, r1) → cells <+: c1) ∧
    (∀ cells r c1 r1, listexprp E fuel cells r = some (c1, r1) → cells <+: c1) ∧
    (∀ cells t e c1 r1, listloop E fuel cells t e = some (c1, r1) →
      ∀ base : List (Cell F), base <+: cells → (base.length : Int) ≤ t → base <+: c1)
  | 0 => ⟨fun _ _ _ _ _ h => by simp [applicativeexprp] at h,
      fun _ _ _ _ _ _ _ _ h => by simp [argloop] at h,
      fun _ _ _ _ h => by simp [groupexprp] at h,
      fun _ _ _ _ h => by simp [listexprp] at h,
      fun _ _ _ _ _ h => by simp [listloop] at h⟩
  | fuel + 1 => by
    obtain ⟨ih1, ih2, ih3, ih4, ih5⟩ := parsers_extend E fuel
    refine ⟨?_, ?_, ?_, ?_, ?_⟩
    · intro cells r b c1 r1 h
      rw [applicativeexprp] at h
      by_cases h0 : r.pos_end ≥ E.input_size
      · rw [if_pos h0] at h
        simp only [Option.some.injEq, Prod.mk.injEq] at h
        rw [← h.1]
      rw [if_neg h0] at h
      simp only at h
      split_ifs at h
      · simp only [Option.some.injEq, Prod.mk.injEq] at h
        rw [← h.1]
      · simp only [Option.some.injEq, Prod.mk.injEq] at h
        rw [← h.1]
      · split at h
        · simp at h
        · rename_i c2 hd hprim
          have h1 := primaryexpr_extends E _ _ ih3 ih4 _ _ _ _ _ _ hprim
          split_ifs at h
          · simp only [Option.some.injEq, Prod.mk.injEq] at h
            rw [← h.1]
            exact h1
          · exact h1.trans (searchargs_extends E _ _ (fun b cs x c1 r1 hx => ih1 cs x b c1 r1 hx)
              ih2 _ _ _ _ h)
    · intro cells h hc tc a b c1 r1 hrun base hbase htc
      rw [argloop] at hrun
      simp only at hrun
      split_ifs at hrun
      · simp only [Option.some.injEq, Prod.mk.injEq] at hrun
        rw [← hrun.1]
        exact hbase
      · split at hrun
        · simp at hrun
        · rename_i c2 a2 hparse
          have h1 := ih1 _ _ _ _ _ hparse
          split_ifs at hrun
          · refine ih2 _ _ _ _ _ _ _ _ hrun base ?_ ?_
            · exact prefix_setTail _ _ ((hbase.trans h1).trans (List.prefix_append _ _)) htc
            · simp only [cons, newcell]
              exact Int.ofNat_le.mpr (hbase.trans h1).length_le
          · simp only [Option.some.injEq, Prod.mk.injEq] at hrun
            rw [← hrun.1]
            exact hbase.trans h1
    · intro cells r c1 r1 h
      rw [groupexprp] at h
      simp only at h
      split_ifs at h
      · simp only [Option.some.injEq, Prod.mk.injEq] at h
        rw [← h.1]
      · split at h
        · simp at h
        · rename_i c2 hd hparse
          have h1 := ih1 _ _ _ _ _ hparse
          split_ifs at h <;>
            (simp only [Option.some.injEq, Prod.mk.injEq] at h
             rw [← h.1]
             exact h1)
    · intro cells r c1 r1 h
      rw [listexprp] at h
      split_ifs at h
      · simp only [Option.some.injEq, Prod.mk.injEq] at h
        rw [← h.1]
      · simp only at h
        split at h
        · simp at h
        · rename_i c2 e hparse
          have h1 := ih1 _ _ _ _ _ hparse
          split_ifs at h
          · split at h
            · simp at h
            · rename_i c3 e2 hloop
              have h2 := ih5 _ _ _ _ _ hloop cells
                (by simp only [cons, newcell]; exact h1.trans (List.prefix_append _ _))
                (by simp only [cons, newcell]; exact Int.ofNat_le.mpr h1.length_le)
              split_ifs at h <;>
                (simp only [Option.some.injEq, Prod.mk.injEq] at h
                 rw [← h.1]
                 exact h2)
          · simp only [Option.some.injEq, Prod.mk.injEq] at h
            rw [← h.1]
            exact h1
          · simp only [Option.some.injEq, Prod.mk.injEq] at h
            rw [← h.1]
            exact h1
    · intro cells t e c1 r1 hrun base hbase ht
      rw [listloop] at hrun
      simp only at hrun
      split at hrun
      · simp at hrun
      · rename_i c2 e1 hparse
        have h1 := ih1 _ _ _ _ _ hparse
        split_ifs at hrun
        · refine ih5 _ _ _ _ _ hrun base ?_ ?_
          · exact prefix_setTail _ _ ((hbase.trans h1).trans (List.prefix_append _ _)) ht
          · simp only [cons, newcell]
            exact Int.ofNat_le.mpr (hbase.trans h1).length_le
        · simp only [Option.some.injEq, Prod.mk.injEq] at hrun
          rw [← hrun.1]
          exact hbase.trans h1


/-- C19. Append-only arena: `newcell` returns the current `cells_top` and puts
one cell on top of the arena, so that handles are issued one after the other
from 0 and the first cell of the run, NIL, has the handle 0; and when a call
of `applicativeexprp`, `groupexprp` or `listexprp` returns, the arena it was
called with is a prefix of the arena it leaves: every cell whose handle was
below `cells_top` has the type and the contents it had. -/
theorem append_only (E : Env F) (fuel : Nat) (cells cells1 : List (Cell F)) (r r1 : result_t)
    (b : Bool) (c : Cell F)
    (h : applicativeexprp E fuel cells r b = some (cells1, r1) ∨
      groupexprp E fuel cells r = some (cells1, r1) ∨
      listexprp E fuel cells r = some (cells1, r1)) :
    newcell cells c = (cells ++ [c], (cells.length : Int)) ∧
    (newcell cells c).1.length = cells.length + 1 ∧
    newcell ([] : List (Cell F)) (Cell.ConsCell 0 0) = (nilArena, 0) ∧
    cells <+: cells1 ∧
    ∀ k x, cellAt cells k = some x → cellAt cells1 k = some x := by
  have hp : cells <+: cells1 := by
    obtain ⟨h1, _, h3, h4, _⟩ := parsers_extend E fuel
    rcases h with h | h | h
    · exact h1 _ _ _ _ _ h
    · exact h3 _ _ _ _ h
    · exact h4 _ _ _ _ h
  exact ⟨rfl, by simp [newcell], rfl, hp, fun k x hx => cellAt_extend hp hx⟩

/-- The parse of `a b c` from the NIL arena: seven cells, the tail of the cell
3 set in place after the cell 6 was allocated, and the NIL cell as it was. -/
theorem append_only_witness :
    newcell (nilArena : List (Cell (List Nat))) (Cell.QuoteCell 0)
      = (nilArena ++ [Cell.QuoteCell 0], ((nilArena : List (Cell (List Nat))).length : Int)) ∧
    (newcell (nilArena : List (Cell (List Nat))) (Cell.QuoteCell 0)).1.length
      = (nilArena : List (Cell (List Nat))).length + 1 ∧
    newcell ([] : List (Cell (List Nat))) (Cell.ConsCell 0 0) = (nilArena, 0) ∧
    (nilArena : List (Cell (List Nat))) <+:
      [Cell.ConsCell 0 0, Cell.SymbolCell ⟨Base.input, 0⟩ ⟨Base.input, 1⟩,
      Cell.SymbolCell ⟨Base.input, 2⟩ ⟨Base.input, 3⟩, Cell.ConsCell 2 6, Cell.ConsCell 1 3,
      Cell.SymbolCell ⟨Base.input, 4⟩ ⟨Base.input, 5⟩, Cell.ConsCell 5 0] ∧
    ∀ k x, cellAt (nilArena : List (Cell (List Nat))) k = some x →
      cellAt ([Cell.ConsCell 0 0, Cell.SymbolCell ⟨Base.input, 0⟩ ⟨Base.input, 1⟩,
      Cell.SymbolCell ⟨Base.input, 2⟩ ⟨Base.input, 3⟩, Cell.ConsCell 2 6, Cell.ConsCell 1 3,
      Cell.SymbolCell ⟨Base.input, 4⟩ ⟨Base.input, 5⟩, Cell.ConsCell 5 0] :
        List (Cell (List Nat))) k = some x :=
  append_only (clib (bytes "a b c") []) 5 nilArena
    [Cell.ConsCell 0 0, Cell.SymbolCell ⟨Base.input, 0⟩ ⟨Base.input, 1⟩,
      Cell.SymbolCell ⟨Base.input, 2⟩ ⟨Base.input, 3⟩, Cell.ConsCell 2 6, Cell.ConsCell 1 3,
      Cell.SymbolCell ⟨Base.input, 4⟩ ⟨Base.input, 5⟩, Cell.ConsCell 5 0]
    start (result 4 0 5 0 0 0 5) true (Cell.QuoteCell 0) (Or.inl (by decide!))

/-! ## C21: reads inside the input -/

theorem readAt_some {E : Env F} {i : Int} {b : Nat} (h : E.readAt i = some b) :
    0 ≤ i ∧ i < E.input_size ∧ E.inputAt i = b := by
  unfold Env.readAt at h
  split_ifs at h with hi
  simp only [Option.some.injEq] at h
  exact ⟨hi.1, hi.2, h⟩

/-- The checked lookahead is the lookahead of `applicativeexprp` whenever both
of its reads are inside the input. -/
theorem lookaheadchecked_some (E : Env F) (r : result_t) (v : Nat × result_t × Bool)
    (h : lookaheadchecked E r = some v) : lookahead E r = v := by
  unfold lookaheadchecked at h
  split at h
  · simp at h
  · rename_i c0 hc0
    have h0 := (readAt_some hc0).2.2
    simp only at h
    by_cases hq : c0 = 39
    · simp only [hq, decide_True, if_true] at h
      split at h
      · simp at h
      · rename_i c hc
        have h1 := (readAt_some hc).2.2
        simp only [Option.some.injEq] at h
        rw [← h]
        simp only [move] at h1
        simp [lookahead, h0, hq, h1, move]
    · simp only [hq, decide_False, Bool.false_eq_true, if_false, Option.some.injEq] at h
      rw [← h]
      simp [lookahead, h0, hq]

/-- C21 fails: on the input of the single byte `'` the driver calls
`applicativeexprp` at the cursor 0, which is below `input_size = 1`; after the
quote mark the lookahead reads `input[1]`, outside the input, and what the
run does depends on the byte that the memory holds there: with a `)` the pass
leaves the cursor at 1, with a `,` at 2, and with a `5` the driver prints
`'5`. -/
theorem inbounds_quote_end :
    (clib (bytes "'") [41]).input_size = 1 ∧
    (whitespacep (clib (bytes "'") [41]) start).pos_end = 0 ∧
    (clib (bytes "'") [41]).readAt ((whitespacep (clib (bytes "'") [41]) start).pos_end + 1)
      = none ∧
    lookaheadchecked (clib (bytes "'") [41]) (whitespacep (clib (bytes "'") [41]) start) = none ∧
    lookahead (clib (bytes "'") [41]) (whitespacep (clib (bytes "'") [41]) start)
      = (41, result (-1) 0 1 0 0 0 1, true) ∧
    (ez2scmpass (clib (bytes "'") [41]) 3 nilArena start []).map (fun x => x.2.1.pos_end)
      = some 1 ∧
    (ez2scmpass (clib (bytes "'") [44]) 3 nilArena start []).map (fun x => x.2.1.pos_end)
      = some 2 ∧
    ez2scmloop (clib (bytes "'") [41]) 3 2 nilArena start [] = some [] ∧
    ez2scmloop (clib (bytes "'") [53]) 3 2 nilArena start [] = some (bytes "'5\n\n") := by
  decide!

end Ez2scm
